import Mathlib

/-!
# fractal-zoom: escape-time kernels, zoom transform and scheduling strategies

A shallow embedding of `src/frac.h` and `src/frac_cpu.h`.

Conventions of the embedding:

* in the kernels, the row filling and the strategies `float` arithmetic is
  taken exactly: every `float` is a rational number, so
  `_mm256_fmadd_ps (a, b, c)` and `a * b + c` coincide.
* where rounding decides a property, the code is embedded once more with the
  rounding: the zoom transform in IEEE 754 binary32 (`zoom_and_re_center_f32`),
  and the scalar kernel over an arithmetic that is left open (`mandelbrot_in`).
* `frac_constants.h` is not part of the sources at hand; its constants
  `FRACTAL_ITER` and `FRACTAL_BOUND` are parameters of every kernel.
* `size_t` values are natural numbers; `FRACTAL_ITER - 1` is the truncated
  subtraction, which is the machine result whenever `FRACTAL_ITER ≥ 1`.
* an `__m256` register is a vector of eight values, lane 0 first.
-/

namespace FractalZoom

/-! ## Complex numbers (`std::complex<float>`) -/

/-- The type `complex_t = std::complex<float>`, with exact components. -/
structure complex_t where
  real : ℚ
  imag : ℚ
deriving DecidableEq, Repr

namespace complex_t

/-- The value-initialised complex number `complex_t z;`. -/
def zero : complex_t := ⟨0, 0⟩

/-- Componentwise `operator+`. -/
def add (a b : complex_t) : complex_t := ⟨a.real + b.real, a.imag + b.imag⟩

/-- Componentwise `operator-`. -/
def sub (a b : complex_t) : complex_t := ⟨a.real - b.real, a.imag - b.imag⟩

/-- Complex `operator*`. -/
def mul (a b : complex_t) : complex_t :=
  ⟨a.real * b.real - a.imag * b.imag, a.real * b.imag + a.imag * b.real⟩

/-- The `operator*` of a complex number with a `float`. -/
def scale (a : complex_t) (s : ℚ) : complex_t := ⟨a.real * s, a.imag * s⟩

/-- Squared magnitude `real² + imag²`. -/
def normSq (a : complex_t) : ℚ := a.real * a.real + a.imag * a.imag

end complex_t

/-- The test `std::abs (z) > bound`, decided exactly: the magnitude
`sqrt (real² + imag²)` is non-negative, so it exceeds a negative bound always
and a non-negative bound exactly when its square exceeds the bound's square
(see `abs_gt_iff_sqrt`). -/
def abs_gt (z : complex_t) (bound : ℚ) : Bool :=
  decide (bound < 0) || decide (bound * bound < z.normSq)

/-! ## Scalar kernel -/

/-- The loop of `FracCPU::mandelbrot`: `n` iterations remain, `i` is the loop
counter and `z` the current iterate. -/
def mandelbrot_loop (FRACTAL_ITER : Nat) (FRACTAL_BOUND : ℚ) (c : complex_t) :
    Nat → Nat → complex_t → Nat
  | 0, _, _ => FRACTAL_ITER - 1
  | n + 1, i, z =>
    let z1 := (z.mul z).add c
    if abs_gt z1 FRACTAL_BOUND then i
    else mandelbrot_loop FRACTAL_ITER FRACTAL_BOUND c n (i + 1) z1

/-- The scalar kernel `FracCPU::mandelbrot`. -/
def mandelbrot (FRACTAL_ITER : Nat) (FRACTAL_BOUND : ℚ) (c : complex_t) : Nat :=
  mandelbrot_loop FRACTAL_ITER FRACTAL_BOUND c FRACTAL_ITER 0 complex_t.zero

/-! ## Vector registers (`__m256`) -/

/-- The template parameter `FracUseCPUExt`. -/
inductive FracUseCPUExt where
  | None
  | AVX
  | AVX_FMA
deriving DecidableEq, Repr

/-- An `__m256` register: a vector of eight `float` lanes. -/
abbrev m256 := Mathlib.Vector ℚ 8

/-- Broadcast `_mm256_set1_ps`. -/
def _mm256_set1_ps (a : ℚ) : m256 := Mathlib.Vector.replicate 8 a

/-- Lane-wise `_mm256_add_ps`. -/
def _mm256_add_ps (a b : m256) : m256 := Mathlib.Vector.ofFn fun j => a.get j + b.get j

/-- Lane-wise `_mm256_sub_ps`. -/
def _mm256_sub_ps (a b : m256) : m256 := Mathlib.Vector.ofFn fun j => a.get j - b.get j

/-- Lane-wise `_mm256_mul_ps`. -/
def _mm256_mul_ps (a b : m256) : m256 := Mathlib.Vector.ofFn fun j => a.get j * b.get j

/-- Lane-wise fused multiply-add `_mm256_fmadd_ps (a, b, c) = a * b + c`. -/
def _mm256_fmadd_ps (a b c : m256) : m256 :=
  Mathlib.Vector.ofFn fun j => a.get j * b.get j + c.get j

/-- The intrinsic `_mm256_set_ps (e7, ..., e0)`: its LAST argument is lane 0. -/
def _mm256_set_ps (e7 e6 e5 e4 e3 e2 e1 e0 : ℚ) : m256 :=
  ⟨[e0, e1, e2, e3, e4, e5, e6, e7], rfl⟩

/-! ## Vectorized kernels -/

/-- One pass of the arithmetic shared by `mandelbrot_avx` and
`mandelbrot_avx_multiple`: the new `z_real`, the new `z_imag` and `mag`. -/
def avx_arith (cpu_ext : FracUseCPUExt) (c_real c_imag z_real z_imag : m256) :
    m256 × m256 × m256 :=
  let const_2 := _mm256_set1_ps 2
  let prod := _mm256_mul_ps z_real z_imag
  let z_real1 := _mm256_add_ps
    (_mm256_sub_ps (_mm256_mul_ps z_real z_real) (_mm256_mul_ps z_imag z_imag)) c_real
  let z_imag1 :=
    match cpu_ext with
    | FracUseCPUExt.AVX_FMA => _mm256_fmadd_ps prod const_2 c_imag
    | _ => _mm256_add_ps (_mm256_mul_ps prod const_2) c_imag
  let mag := _mm256_add_ps (_mm256_mul_ps z_real1 z_real1) (_mm256_mul_ps z_imag1 z_imag1)
  (z_real1, z_imag1, mag)

/-- The lane loop `for k < 8: if (mag[k] > FRACTAL_BOUND && result[base + k] ==
FRACTAL_ITER - 1) result[base + k] = i;` (with `base = 0` in `mandelbrot_avx`
and `base = j * 8` in `mandelbrot_avx_multiple`). -/
def record_lanes (FRACTAL_ITER : Nat) (FRACTAL_BOUND : ℚ) (i base : Nat) (mag : m256)
    (result : List Nat) : List Nat :=
  (List.finRange 8).foldl
    (fun r k =>
      if FRACTAL_BOUND < mag.get k ∧ r.getD (base + k.val) 0 = FRACTAL_ITER - 1
      then r.set (base + k.val) i else r)
    result

/-- The early-exit test `std::all_of (result, e < FRACTAL_BOUND - 1)`; the
comparison of the `size_t` element with the bound is taken exactly. -/
def all_diverged (FRACTAL_BOUND : ℚ) (result : List Nat) : Bool :=
  result.all (fun e => decide ((e : ℚ) < FRACTAL_BOUND - 1))

/-- The loop of `FracCPU::mandelbrot_avx`: `n` iterations remain, `i` is the
loop counter. -/
def mandelbrot_avx_loop (cpu_ext : FracUseCPUExt) (FRACTAL_ITER : Nat) (FRACTAL_BOUND : ℚ)
    (c_real c_imag : m256) : Nat → Nat → m256 → m256 → List Nat → List Nat
  | 0, _, _, _, result => result
  | n + 1, i, z_real, z_imag, result =>
    let a := avx_arith cpu_ext c_real c_imag z_real z_imag
    let result1 := record_lanes FRACTAL_ITER FRACTAL_BOUND i 0 a.2.2 result
    if all_diverged FRACTAL_BOUND result1 then result1
    else mandelbrot_avx_loop cpu_ext FRACTAL_ITER FRACTAL_BOUND c_real c_imag
      n (i + 1) a.1 a.2.1 result1

/-- The vectorized kernel `FracCPU::mandelbrot_avx`; the returned
`std::array<size_t, 8>` is a list of length 8. -/
def mandelbrot_avx (cpu_ext : FracUseCPUExt) (FRACTAL_ITER : Nat) (FRACTAL_BOUND : ℚ)
    (c_real c_imag : m256) : List Nat :=
  mandelbrot_avx_loop cpu_ext FRACTAL_ITER FRACTAL_BOUND c_real c_imag FRACTAL_ITER 0
    (_mm256_set1_ps 0) (_mm256_set1_ps 0) (List.replicate 8 (FRACTAL_ITER - 1))

/-- An element `a[j]` of a register array `std::array<__m256, size>`. -/
def reg (a : List m256) (j : Nat) : m256 := a.getD j (_mm256_set1_ps 0)

/-- The state of `mandelbrot_avx_multiple`: the register arrays `z_real`,
`z_imag` (one register per group) and the `result` array. -/
structure avx_multiple_state where
  z_real : List m256
  z_imag : List m256
  result : List Nat

/-- The outcome of a loop body that may `return`. -/
inductive loop_flow (σ : Type) where
  | returned : List Nat → loop_flow σ
  | running : σ → loop_flow σ

/-- The inner loop `for (j = 0; j < size; j++)` of `mandelbrot_avx_multiple`
at outer counter `i`: `n` groups remain, `j` is the group counter. -/
def mandelbrot_avx_multiple_inner (cpu_ext : FracUseCPUExt) (FRACTAL_ITER : Nat)
    (FRACTAL_BOUND : ℚ) (c_real c_imag : List m256) (i : Nat) :
    Nat → Nat → avx_multiple_state → loop_flow avx_multiple_state
  | 0, _, s => loop_flow.running s
  | n + 1, j, s =>
    let a := avx_arith cpu_ext (reg c_real j) (reg c_imag j) (reg s.z_real j) (reg s.z_imag j)
    let result1 := record_lanes FRACTAL_ITER FRACTAL_BOUND i (j * 8) a.2.2 s.result
    if all_diverged FRACTAL_BOUND result1 then loop_flow.returned result1
    else mandelbrot_avx_multiple_inner cpu_ext FRACTAL_ITER FRACTAL_BOUND c_real c_imag i
      n (j + 1)
      { z_real := s.z_real.set j a.1,
        z_imag := s.z_imag.set j a.2.1,
        result := result1 }

/-- The outer loop `for (i = 0; i < FRACTAL_ITER; i++)` of
`mandelbrot_avx_multiple`. -/
def mandelbrot_avx_multiple_loop (cpu_ext : FracUseCPUExt) (FRACTAL_ITER : Nat)
    (FRACTAL_BOUND : ℚ) (size : Nat) (c_real c_imag : List m256) :
    Nat → Nat → avx_multiple_state → List Nat
  | 0, _, s => s.result
  | n + 1, i, s =>
    match mandelbrot_avx_multiple_inner cpu_ext FRACTAL_ITER FRACTAL_BOUND c_real c_imag i
        size 0 s with
    | loop_flow.returned r => r
    | loop_flow.running s1 =>
      mandelbrot_avx_multiple_loop cpu_ext FRACTAL_ITER FRACTAL_BOUND size c_real c_imag
        n (i + 1) s1

/-- The kernel `FracCPU::mandelbrot_avx_multiple<size>`; the returned
`std::array<size_t, size * 8>` is a list of length `size * 8`. -/
def mandelbrot_avx_multiple (cpu_ext : FracUseCPUExt) (FRACTAL_ITER : Nat)
    (FRACTAL_BOUND : ℚ) (size : Nat) (c_real c_imag : List m256) : List Nat :=
  mandelbrot_avx_multiple_loop cpu_ext FRACTAL_ITER FRACTAL_BOUND size c_real c_imag
    FRACTAL_ITER 0
    { z_real := List.replicate size (_mm256_set1_ps 0),
      z_imag := List.replicate size (_mm256_set1_ps 0),
      result := List.replicate (size * 8) (FRACTAL_ITER - 1) }

/-! ## Zoom specification and zoom transform (`frac.h`) -/

/-- Modelled from the spec: the type `pixel_t` of `types.h`, a header that is
not among the sources; a pixel is 4 unsigned 8-bit channels (r, g, b, a). -/
structure pixel_t where
  r : Nat
  g : Nat
  b : Nat
  a : Nat
deriving DecidableEq, Repr

/-- The value-initialised pixel of a freshly allocated `std::vector<pixel_t>`. -/
def pixel_t.zero : pixel_t := ⟨0, 0, 0, 0⟩

/-- The enumeration `FractalZooming::SaveImage`. -/
inductive SaveImage where
  | ToDisk
  | No
deriving DecidableEq, Repr

/-- The zoom specification `struct FractalZooming`; the array
`color_map[COLOR_COUNT]` is a list whose length is `COLOR_COUNT`. -/
structure FractalZooming where
  start_lower_left : complex_t
  start_upper_right : complex_t
  zoom : ℚ
  zoom_steps : Nat
  zoom_center : complex_t
  save_images : SaveImage
  color_map : List pixel_t

/-- A viewport: the pair (lower_left, upper_right). -/
abbrev viewport := complex_t × complex_t

/-- The pure transform `zoom_and_re_center`. -/
def zoom_and_re_center (lower_left upper_right : complex_t) (zooming : FractalZooming) :
    viewport :=
  let new_lower_left := lower_left.scale zooming.zoom
  let new_upper_right := upper_right.scale zooming.zoom
  let current_center := new_lower_left.add new_upper_right
  let current_center : complex_t := ⟨current_center.real / 2, current_center.imag / 2⟩
  let translate := zooming.zoom_center.sub current_center
  let new_lower_left := new_lower_left.add translate
  let new_upper_right := new_upper_right.add translate
  (new_lower_left, new_upper_right)

/-- The in-place transform `zoom_and_re_center_inplace`: the two references
`lower_left`, `upper_right` are the state, passed in and returned. -/
def zoom_and_re_center_inplace (v : viewport) (zooming : FractalZooming) : viewport :=
  let lower_left := v.1
  let upper_right := v.2
  let lower_left := lower_left.scale zooming.zoom
  let upper_right := upper_right.scale zooming.zoom
  let current_center := lower_left.add upper_right
  let current_center : complex_t := ⟨current_center.real / 2, current_center.imag / 2⟩
  let translate := zooming.zoom_center.sub current_center
  let lower_left := lower_left.add translate
  let upper_right := upper_right.add translate
  (lower_left, upper_right)

/-- The viewport after `k` calls of `zoom_and_re_center_inplace`. -/
def zoom_inplace_iter (zooming : FractalZooming) : Nat → viewport → viewport
  | 0, v => v
  | k + 1, v => zoom_and_re_center_inplace (zoom_inplace_iter zooming k v) zooming

/-- Conversion of a non-negative `int` to `short` (two's complement, 16 bit). -/
def to_short (n : Nat) : Int := ((n : Int) + 32768) % 65536 - 32768

/-- The function `compute_scale`, whose `width` and `height` parameters are
`short`s. -/
def compute_scale (lower_left upper_right : complex_t) (width height : Int) : ℚ × ℚ :=
  ((upper_right.real - lower_left.real) / (width : ℚ),
   (upper_right.imag - lower_left.imag) / (height : ℚ))

/-! ## The map of precomputed viewports (`std::map<size_t, tuple>`) -/

/-- A `std::map<size_t, std::tuple<complex_t, complex_t>>` as an association
list. -/
abbrev bounds_map := List (Nat × viewport)

/-- Lookup of a key (`find`). -/
def bounds_map.find (m : bounds_map) (k : Nat) : Option viewport :=
  (List.lookup k m)

/-- Read through `operator[]`: an absent key yields the value-initialised
tuple. -/
def bounds_map.subscript (m : bounds_map) (k : Nat) : viewport :=
  (m.find k).getD (complex_t.zero, complex_t.zero)

/-- Assignment `m[k] = v`. -/
def bounds_map.assign (m : bounds_map) (k : Nat) (v : viewport) : bounds_map :=
  (k, v) :: m.filter (fun e => e.1 != k)

/-- The loop `for (i = 1; i < zoom_steps; i++)` of `FracCPU::get_bounds`:
`n` iterations remain. -/
def get_bounds_loop (zooming : FractalZooming) : Nat → Nat → bounds_map → bounds_map
  | 0, _, bounds => bounds
  | n + 1, i, bounds =>
    get_bounds_loop zooming n (i + 1)
      (bounds.assign i
        (zoom_and_re_center (bounds.subscript (i - 1)).1 (bounds.subscript (i - 1)).2 zooming))

/-- The method `FracCPU::get_bounds`. -/
def get_bounds (zooming : FractalZooming) : bounds_map :=
  get_bounds_loop zooming (zooming.zoom_steps - 1) 1
    (bounds_map.assign [] 0 (zooming.start_lower_left, zooming.start_upper_right))

/-! ## Row filling (`FracCPU`) -/

/-- The template parameters and members of a `FracCPU` object, with the two
constants of `frac_constants.h`. The `int` members `_image_width` and
`_image_height` are non-negative. -/
structure FracCPU where
  cpu_ext : FracUseCPUExt
  pixels_size : Nat
  _image_width : Nat
  _image_height : Nat
  FRACTAL_ITER : Nat
  FRACTAL_BOUND : ℚ

/-- A frame buffer `std::vector<pixel_t>`. -/
abbrev frame_t := List pixel_t

/-- The element store `image[idx] = v`; a store outside the buffer has no
defined behaviour and yields no result. -/
def store (image : frame_t) (idx : Nat) (v : pixel_t) : Option frame_t :=
  if idx < image.length then some (image.set idx v) else none

/-- A counted loop `for (k = lo; k < hi; k++) body (k)` over a state, where
the body may fail. -/
def for_range {σ : Type} (lo hi : Nat) (body : Nat → σ → Option σ) (s : σ) : Option σ :=
  (List.range' lo (hi - lo)).foldlM (fun s k => body k s) s

namespace FracCPU

/-- The lookup `get_color`; an index outside `color_map` has no defined
behaviour and yields no result. -/
def get_color (iter_count : Nat) (zooming : FractalZooming) : Option pixel_t :=
  zooming.color_map.get? iter_count

/-- The method `idx_to_complex`; it is called with `y < _image_height` only, so
the `size_t` expression `_image_height - y - 1` does not wrap. -/
def idx_to_complex (self : FracCPU) (x y : Nat) (lower_left : complex_t) (scale : ℚ × ℚ) :
    complex_t :=
  lower_left.add ⟨(x : ℚ) * scale.1, ((self._image_height - y - 1 : Nat) : ℚ) * scale.2⟩

/-- The method `idx_to_complex_8`. -/
def idx_to_complex_8 (self : FracCPU) (x y : Nat) (lower_left : complex_t) (scale : ℚ × ℚ) :
    m256 × m256 :=
  let scale_real := _mm256_set1_ps scale.1
  let ll_real := _mm256_set1_ps lower_left.real
  let xs := _mm256_add_ps (_mm256_set1_ps (x : ℚ)) (_mm256_set_ps 7 6 5 4 3 2 1 0)
  let real := _mm256_fmadd_ps xs scale_real ll_real
  let imag := _mm256_set1_ps
    (((self._image_height - y - 1 : Nat) : ℚ) * scale.2 + lower_left.imag)
  (real, imag)

/-- The scalar kernel at the object's constants. -/
def mandelbrot (self : FracCPU) (c : complex_t) : Nat :=
  FractalZoom.mandelbrot self.FRACTAL_ITER self.FRACTAL_BOUND c

/-- The vectorized kernel at the object's constants. -/
def mandelbrot_avx (self : FracCPU) (c_real c_imag : m256) : List Nat :=
  FractalZoom.mandelbrot_avx self.cpu_ext self.FRACTAL_ITER self.FRACTAL_BOUND c_real c_imag

/-- The grouped vectorized kernel at the object's constants. -/
def mandelbrot_avx_multiple (self : FracCPU) (size : Nat) (c_real c_imag : List m256) :
    List Nat :=
  FractalZoom.mandelbrot_avx_multiple self.cpu_ext self.FRACTAL_ITER self.FRACTAL_BOUND size
    c_real c_imag

/-- Sequential stores `image[base_idx + n] = get_color (results[n])` for the
listed results, `n` counting from `off`. -/
def store_colors (zooming : FractalZooming) (base_idx : Nat) :
    List Nat → Nat → frame_t → Option frame_t
  | [], _, image => some image
  | e :: rest, off, image =>
    (get_color e zooming).bind fun col =>
      (store image (base_idx + off) col).bind fun image1 =>
        store_colors zooming base_idx rest (off + 1) image1

/-- The method `fill_8_pixels`, which `fill_row` selects for `pixels_size == 1`.
Its source does not compile as written: it calls `image.pixel_span ()` on a
`std::vector<pixel_t>` (line 198) and names `.real` and `.imag` of a
`std::complex` without call parentheses (lines 184-195), so the class cannot
be instantiated with a vector extension and `pixels_size == 1`. It is read
here as the eight stores at `base_idx`, ..., `base_idx + 7` that its text
spells out; the theorems on what the vector path of `fill_row` writes are
stated for `pixels_size ≥ 2`, where this method is not called. -/
def fill_8_pixels (self : FracCPU) (x y : Nat) (image : frame_t) (zooming : FractalZooming)
    (lower_left : complex_t) (scale : ℚ × ℚ) : Option frame_t :=
  let base_idx := y * self._image_width + x
  let c : m256 × m256 :=
    match self.cpu_ext with
    | FracUseCPUExt.AVX_FMA => self.idx_to_complex_8 x y lower_left scale
    | _ =>
      let c0 := self.idx_to_complex x y lower_left scale
      let c1 := self.idx_to_complex (x + 1) y lower_left scale
      let c2 := self.idx_to_complex (x + 2) y lower_left scale
      let c3 := self.idx_to_complex (x + 3) y lower_left scale
      let c4 := self.idx_to_complex (x + 4) y lower_left scale
      let c5 := self.idx_to_complex (x + 5) y lower_left scale
      let c6 := self.idx_to_complex (x + 6) y lower_left scale
      let c7 := self.idx_to_complex (x + 7) y lower_left scale
      (_mm256_set_ps c7.real c6.real c5.real c4.real c3.real c2.real c1.real c0.real,
       _mm256_set_ps c7.imag c6.imag c5.imag c4.imag c3.imag c2.imag c1.imag c0.imag)
  let result := self.mandelbrot_avx c.1 c.2
  store_colors zooming base_idx result 0 image

/-- The method `fill_pixels<size>`: the results but the last `overdraw` are
stored from `base_idx` on. -/
def fill_pixels (self : FracCPU) (size : Nat) (x y : Nat) (image : frame_t)
    (zooming : FractalZooming) (lower_left : complex_t) (scale : ℚ × ℚ) : Option frame_t :=
  let c := self.idx_to_complex_8 x y lower_left scale
  let c_imag : List m256 := List.replicate size c.2
  let c_real : List m256 := (List.range size).map fun i =>
    if i = 0 then c.1 else (self.idx_to_complex_8 (x + i * 8) y lower_left scale).1
  let result := self.mandelbrot_avx_multiple size c_real c_imag
  let base_idx := y * self._image_width + x
  let pixels_count := 8 * size
  let overdraw :=
    if x + pixels_count < self._image_width then 0
    else (x + pixels_count) - self._image_width
  store_colors zooming base_idx (result.take (result.length - overdraw)) 0 image

/-- The vector loop `for (x = 0; x < _image_width; x += 8 * pixels_size)` of
`fill_row`: `n` bounds the iterations left; running out of it with columns
left yields no result. -/
def fill_row_avx_loop (self : FracCPU) (y : Nat) (zooming : FractalZooming)
    (lower_left : complex_t) (scale : ℚ × ℚ) : Nat → Nat → frame_t → Option frame_t
  | 0, x, image => if x < self._image_width then none else some image
  | n + 1, x, image =>
    if x < self._image_width then
      (if self.pixels_size = 1 then self.fill_8_pixels x y image zooming lower_left scale
       else self.fill_pixels self.pixels_size x y image zooming lower_left scale).bind
        fun image1 =>
          fill_row_avx_loop self y zooming lower_left scale n (x + 8 * self.pixels_size) image1
    else some image

/-- The method `fill_row`. With a positive `pixels_size` the vector loop makes
at most `_image_width` iterations. -/
def fill_row (self : FracCPU) (y : Nat) (image : frame_t) (zooming : FractalZooming)
    (lower_left : complex_t) (scale : ℚ × ℚ) : Option frame_t :=
  match self.cpu_ext with
  | FracUseCPUExt.None =>
    for_range 0 self._image_width
      (fun x image =>
        let idx := y * self._image_width + x
        let c := self.idx_to_complex x y lower_left scale
        let result := self.mandelbrot c
        (get_color result zooming).bind fun col => store image idx col)
      image
  | _ => fill_row_avx_loop self y zooming lower_left scale self._image_width 0 image

/-- The row range `[start, end)` of partition `p`, as computed in
`FracCPU_GSLP::execute` and `FracCPU_GPLP::execute`. -/
def row_range (task_count partition_size partition_remainder p : Nat) : Nat × Nat :=
  let start := p * partition_size
  let end_ := (p + 1) * partition_size
  let end_ := if p = task_count - 1 then end_ + partition_remainder else end_
  (start, end_)

/-- The task added for a partition: `for (y = start; y < end; y++) fill_row`. -/
def fill_rows (self : FracCPU) (start end_ : Nat) (image : frame_t) (zooming : FractalZooming)
    (lower_left : complex_t) (scale : ℚ × ℚ) : Option frame_t :=
  for_range start end_ (fun y image => self.fill_row y image zooming lower_left scale) image

/-- The partition loop `for (p = 0; p < task_count; p++)` with every task run
to completion when it is added. -/
def fill_partitions (self : FracCPU) (task_count : Nat) (image : frame_t)
    (zooming : FractalZooming) (lower_left : complex_t) (scale : ℚ × ℚ) : Option frame_t :=
  let partition_size := self._image_height / task_count
  let partition_remainder := self._image_height % task_count
  for_range 0 task_count
    (fun p image =>
      let r := row_range task_count partition_size partition_remainder p
      self.fill_rows r.1 r.2 image zooming lower_left scale)
    image

end FracCPU

/-! ## Scheduling strategies

The worker tasks are taken in a sequential model: a task runs to completion
when it is added to the `parallelizer`. Every `execute` yields the frames it
renders, each with its step index, in the order of rendering. -/

/-- The rendered frames of a run: pairs (step index, frame). -/
abbrev frames_t := List (Nat × frame_t)

/-- The state of the step loop of `FracCPU_GSLP::execute`. -/
structure gslp_state where
  lower_left : complex_t
  upper_right : complex_t
  frame : frame_t
  frames : frames_t

/-- The state of the loops of `FracCPU_GPLS::execute` and
`FracCPU_GPLP::execute`: the step counter `i`, the buffers `images` and the
frames rendered so far. -/
structure batch_state where
  i : Nat
  images : List frame_t
  frames : frames_t

namespace FracCPU

/-- One pass of the step loop of `FracCPU_GSLP::execute` at step `i`. -/
def GSLP_step (self : FracCPU) (task_count : Nat) (zooming : FractalZooming) (i : Nat)
    (s : gslp_state) : Option gslp_state :=
  let scale := compute_scale s.lower_left s.upper_right
    (to_short self._image_width) (to_short self._image_height)
  (self.fill_partitions task_count s.frame zooming s.lower_left scale).bind fun frame1 =>
    let v := zoom_and_re_center_inplace (s.lower_left, s.upper_right) zooming
    some { lower_left := v.1, upper_right := v.2, frame := frame1,
           frames := s.frames ++ [(i, frame1)] }

/-- The method `FracCPU_GSLP::execute`; a zero `_task_count` divides by zero
and yields no result. -/
def GSLP_execute (self : FracCPU) (task_count : Nat) (zooming : FractalZooming) :
    Option frames_t :=
  if task_count = 0 then none
  else
    (for_range 0 zooming.zoom_steps (self.GSLP_step task_count zooming)
      { lower_left := zooming.start_lower_left,
        upper_right := zooming.start_upper_right,
        frame := List.replicate (self._image_width * self._image_height) pixel_t.zero,
        frames := [] }).map fun s => s.frames

/-- The task of `FracCPU_GPLS::execute`: render step `i` into `images[t]`. -/
def GPLS_task (self : FracCPU) (zooming : FractalZooming) (bounds : bounds_map) (t i : Nat)
    (images : List frame_t) : Option (List frame_t) :=
  (images.get? t).bind fun image =>
    let bound := bounds.subscript i
    let lower_left := bound.1
    let scale := compute_scale lower_left bound.2
      (to_short self._image_width) (to_short self._image_height)
    (self.fill_rows 0 self._image_height image zooming lower_left scale).map fun image1 =>
      images.set t image1

/-- The batch loop `for (t = 0; t < _task_count; t++)` of
`FracCPU_GPLS::execute`, left by `break` when `i > zoom_steps`: `n` tasks
remain. -/
def GPLS_batch (self : FracCPU) (zooming : FractalZooming) (bounds : bounds_map) :
    Nat → Nat → batch_state → Option batch_state
  | 0, _, s => some s
  | n + 1, t, s =>
    if s.i > zooming.zoom_steps then some s
    else
      (self.GPLS_task zooming bounds t s.i s.images).bind fun images1 =>
        GPLS_batch self zooming bounds n (t + 1)
          { i := s.i + 1, images := images1,
            frames := s.frames ++ [(s.i, images1.getD t [])] }

/-- The loop `while (i < zoom_steps)` of `FracCPU_GPLS::execute`: `n` bounds
the batches left; running out of it with steps left yields no result. -/
def GPLS_while (self : FracCPU) (task_count : Nat) (zooming : FractalZooming)
    (bounds : bounds_map) : Nat → batch_state → Option batch_state
  | 0, s => if s.i < zooming.zoom_steps then none else some s
  | n + 1, s =>
    if s.i < zooming.zoom_steps then
      (self.GPLS_batch zooming bounds task_count 0 s).bind
        (GPLS_while self task_count zooming bounds n)
    else some s

/-- The method `FracCPU_GPLS::execute`. With a positive `_task_count` the
`while` loop makes at most `zoom_steps` passes. -/
def GPLS_execute (self : FracCPU) (task_count : Nat) (zooming : FractalZooming) :
    Option frames_t :=
  (self.GPLS_while task_count zooming (get_bounds zooming) zooming.zoom_steps
    { i := 0,
      images := List.replicate task_count
        (List.replicate (self._image_width * self._image_height) pixel_t.zero),
      frames := [] }).map fun s => s.frames

/-- The work added for image `j` in `FracCPU_GPLP::execute`: the row
partitions of step `i` are rendered into `images[j]`. -/
def GPLP_image (self : FracCPU) (task_count : Nat) (zooming : FractalZooming)
    (bounds : bounds_map) (j i : Nat) (images : List frame_t) : Option (List frame_t) :=
  (images.get? j).bind fun image =>
    let bound := bounds.subscript i
    let lower_left := bound.1
    let scale := compute_scale lower_left bound.2
      (to_short self._image_width) (to_short self._image_height)
    (self.fill_partitions task_count image zooming lower_left scale).map fun image1 =>
      images.set j image1

/-- The batch loop `for (j = 0; j < _image_count; j++)` of
`FracCPU_GPLP::execute`, left by `break` when `i > zoom_steps`: `n` images
remain. -/
def GPLP_batch (self : FracCPU) (task_count : Nat) (zooming : FractalZooming)
    (bounds : bounds_map) : Nat → Nat → batch_state → Option batch_state
  | 0, _, s => some s
  | n + 1, j, s =>
    if s.i > zooming.zoom_steps then some s
    else
      (self.GPLP_image task_count zooming bounds j s.i s.images).bind fun images1 =>
        GPLP_batch self task_count zooming bounds n (j + 1)
          { i := s.i + 1, images := images1,
            frames := s.frames ++ [(s.i, images1.getD j [])] }

/-- The loop `while (i < zoom_steps)` of `FracCPU_GPLP::execute`: `n` bounds
the batches left; running out of it with steps left yields no result. -/
def GPLP_while (self : FracCPU) (image_count task_count : Nat) (zooming : FractalZooming)
    (bounds : bounds_map) : Nat → batch_state → Option batch_state
  | 0, s => if s.i < zooming.zoom_steps then none else some s
  | n + 1, s =>
    if s.i < zooming.zoom_steps then
      (self.GPLP_batch task_count zooming bounds image_count 0 s).bind
        (GPLP_while self image_count task_count zooming bounds n)
    else some s

/-- The method `FracCPU_GPLP::execute`; a zero `_task_count` divides by zero
and yields no result. -/
def GPLP_execute (self : FracCPU) (image_count task_count : Nat) (zooming : FractalZooming) :
    Option frames_t :=
  if task_count = 0 then none
  else
    (self.GPLP_while image_count task_count zooming (get_bounds zooming) zooming.zoom_steps
      { i := 0,
        images := List.replicate image_count
          (List.replicate (self._image_width * self._image_height) pixel_t.zero),
        frames := [] }).map fun s => s.frames

end FracCPU

/-! ## Specification-side notions -/

/-- The orbit in the words of the specification: `z₀ = 0`, `zₙ₊₁ = zₙ² + c`. -/
def spec_orbit (c : complex_t) : Nat → complex_t
  | 0 => complex_t.zero
  | n + 1 => ((spec_orbit c n).mul (spec_orbit c n)).add c

/-- Divergence at index `n` in the words of the specification:
`|zₙ|² > divergence_bound²`. -/
def spec_diverged (c : complex_t) (divergence_bound : ℚ) (n : Nat) : Prop :=
  divergence_bound ^ 2 < (spec_orbit c n).normSq

instance (c : complex_t) (divergence_bound : ℚ) (n : Nat) :
    Decidable (spec_diverged c divergence_bound n) := by
  unfold spec_diverged
  exact inferInstance

/-- The corner ordering of a viewport: `lower_left < upper_right` on both
axes. -/
def ordered (v : viewport) : Prop :=
  v.1.real < v.2.real ∧ v.1.imag < v.2.imag

/-- The boundary before partition `p`: the rows below it belong to the
partitions `0, ..., p - 1`; the boundary after the last partition is the image
height. -/
def partition_bound (height task_count p : Nat) : Nat :=
  if p = task_count then height else p * (height / task_count)

/-- Membership of row `y` in the row range of partition `p`. -/
def in_row_range (height task_count p y : Nat) : Prop :=
  (FracCPU.row_range task_count (height / task_count) (height % task_count) p).1 ≤ y ∧
    y < (FracCPU.row_range task_count (height / task_count) (height % task_count) p).2

/-- The `result` array carried by a loop outcome. -/
def flow_result : loop_flow avx_multiple_state → List Nat
  | loop_flow.returned r => r
  | loop_flow.running s => s.result

/-- Two frame buffers of length `L` that hold the same pixel at every index
satisfying `P`. -/
def agree (L : Nat) (P : Nat → Prop) (a b : frame_t) : Prop :=
  a.length = L ∧ b.length = L ∧ ∀ i, P i → a.get? i = b.get? i

/-- Two outcomes of a fill: both without result, or both with buffers that
agree on `P`. -/
def agree_result (L : Nat) (P : Nat → Prop) : Option frame_t → Option frame_t → Prop
  | none, none => True
  | some a, some b => agree L P a b
  | _, _ => False

/-- The frame of step `i` rendered into a fresh buffer: all rows filled for the
viewport `bounds[i]`. -/
def render_step (self : FracCPU) (zooming : FractalZooming) (bounds : bounds_map) (i : Nat) :
    Option frame_t :=
  self.fill_rows 0 self._image_height
    (List.replicate (self._image_width * self._image_height) pixel_t.zero) zooming
    (bounds.subscript i).1
    (compute_scale (bounds.subscript i).1 (bounds.subscript i).2
      (to_short self._image_width) (to_short self._image_height))

/-- The invariant of the loops of `FracCPU_GPLS::execute`: every buffer has
the length of a frame, the frames rendered so far are those of the steps
`0, ..., i - 1` in this order, and each is the frame of its step. -/
def batch_inv (self : FracCPU) (zooming : FractalZooming) (bounds : bounds_map)
    (s : batch_state) : Prop :=
  (∀ img, img ∈ s.images → img.length = self._image_width * self._image_height) ∧
  s.frames.map Prod.fst = List.range s.i ∧
  (∀ k f, (k, f) ∈ s.frames → render_step self zooming bounds k = some f)

/-- A sample object `FracCPU_GPLS<AVX_FMA, 2>` for a 2 x 1 image, with
`FRACTAL_ITER = 50` and `FRACTAL_BOUND = 2`. -/
def sample_cpu : FracCPU :=
  { cpu_ext := FracUseCPUExt.AVX_FMA, pixels_size := 2, _image_width := 2,
    _image_height := 1, FRACTAL_ITER := 50, FRACTAL_BOUND := 2 }

/-- A sample zoom specification of one step, from the viewport `(3, 5 + i)`
towards its midpoint, with the grey ramp of 50 colours that `create_zooming`
builds for `COLOR_COUNT = 50`. -/
def sample_zooming : FractalZooming :=
  { start_lower_left := ⟨3, 0⟩, start_upper_right := ⟨5, 1⟩, zoom := 1 / 2,
    zoom_steps := 1, zoom_center := ⟨4, 1 / 2⟩, save_images := SaveImage.No,
    color_map := (List.range 50).map fun i => ⟨i * 255 / 50, i * 255 / 50, i * 255 / 50, 0⟩ }

/-- A sample object `FracCPU<None, 1>` (scalar row filling) for a 2 x 1 image,
with `FRACTAL_ITER = 50` and `FRACTAL_BOUND = 2`. -/
def sample_cpu_scalar : FracCPU :=
  { cpu_ext := FracUseCPUExt.None, pixels_size := 1, _image_width := 2,
    _image_height := 1, FRACTAL_ITER := 50, FRACTAL_BOUND := 2 }

/-- The loop of `mandelbrot_avx` with the early exit removed (the two lines
`if (all_diverged) return result;` deleted): `n` iterations remain. -/
def mandelbrot_avx_loop_no_exit (cpu_ext : FracUseCPUExt) (FRACTAL_ITER : Nat)
    (FRACTAL_BOUND : ℚ) (c_real c_imag : m256) :
    Nat → Nat → m256 → m256 → List Nat → List Nat
  | 0, _, _, _, result => result
  | n + 1, i, z_real, z_imag, result =>
    let a := avx_arith cpu_ext c_real c_imag z_real z_imag
    let result1 := record_lanes FRACTAL_ITER FRACTAL_BOUND i 0 a.2.2 result
    mandelbrot_avx_loop_no_exit cpu_ext FRACTAL_ITER FRACTAL_BOUND c_real c_imag
      n (i + 1) a.1 a.2.1 result1

/-- The kernel `mandelbrot_avx` with the early exit removed: the loop runs for
all `FRACTAL_ITER` iterations. -/
def mandelbrot_avx_no_exit (cpu_ext : FracUseCPUExt) (FRACTAL_ITER : Nat)
    (FRACTAL_BOUND : ℚ) (c_real c_imag : m256) : List Nat :=
  mandelbrot_avx_loop_no_exit cpu_ext FRACTAL_ITER FRACTAL_BOUND c_real c_imag FRACTAL_ITER 0
    (_mm256_set1_ps 0) (_mm256_set1_ps 0) (List.replicate 8 (FRACTAL_ITER - 1))

/-- The inner loop of `mandelbrot_avx_multiple` with the early exit removed. -/
def mandelbrot_avx_multiple_inner_no_exit (cpu_ext : FracUseCPUExt) (FRACTAL_ITER : Nat)
    (FRACTAL_BOUND : ℚ) (c_real c_imag : List m256) (i : Nat) :
    Nat → Nat → avx_multiple_state → avx_multiple_state
  | 0, _, s => s
  | n + 1, j, s =>
    let a := avx_arith cpu_ext (reg c_real j) (reg c_imag j) (reg s.z_real j) (reg s.z_imag j)
    let result1 := record_lanes FRACTAL_ITER FRACTAL_BOUND i (j * 8) a.2.2 s.result
    mandelbrot_avx_multiple_inner_no_exit cpu_ext FRACTAL_ITER FRACTAL_BOUND c_real c_imag i
      n (j + 1)
      { z_real := s.z_real.set j a.1,
        z_imag := s.z_imag.set j a.2.1,
        result := result1 }

/-- The outer loop of `mandelbrot_avx_multiple` with the early exit removed. -/
def mandelbrot_avx_multiple_loop_no_exit (cpu_ext : FracUseCPUExt) (FRACTAL_ITER : Nat)
    (FRACTAL_BOUND : ℚ) (size : Nat) (c_real c_imag : List m256) :
    Nat → Nat → avx_multiple_state → List Nat
  | 0, _, s => s.result
  | n + 1, i, s =>
    mandelbrot_avx_multiple_loop_no_exit cpu_ext FRACTAL_ITER FRACTAL_BOUND size c_real c_imag
      n (i + 1)
      (mandelbrot_avx_multiple_inner_no_exit cpu_ext FRACTAL_ITER FRACTAL_BOUND c_real c_imag i
        size 0 s)

/-- The kernel `mandelbrot_avx_multiple<size>` with the early exit removed. -/
def mandelbrot_avx_multiple_no_exit (cpu_ext : FracUseCPUExt) (FRACTAL_ITER : Nat)
    (FRACTAL_BOUND : ℚ) (size : Nat) (c_real c_imag : List m256) : List Nat :=
  mandelbrot_avx_multiple_loop_no_exit cpu_ext FRACTAL_ITER FRACTAL_BOUND size c_real c_imag
    FRACTAL_ITER 0
    { z_real := List.replicate size (_mm256_set1_ps 0),
      z_imag := List.replicate size (_mm256_set1_ps 0),
      result := List.replicate (size * 8) (FRACTAL_ITER - 1) }

/-! ## The orchestrating thread of `FracCPU_GSLP::execute`

The calls that the orchestrating thread makes on the `parallelizer` and on the
viewport, in program order, and their effect on the set of workers that have
been added and not yet joined. -/

/-- A call of the orchestrating thread in step `i` of `FracCPU_GSLP::execute`:
`parallelizer.add` for partition `p`, `zoom_and_re_center_inplace` on
`lower_left`/`upper_right`, or `parallelizer.join_all`. -/
inductive gslp_event where
  | add (i p : Nat)
  | advance (i : Nat)
  | join_all (i : Nat)
deriving DecidableEq, Repr

/-- The state seen by the orchestrating thread: `viewport_step` counts the
calls of `zoom_and_re_center_inplace` made so far (the viewport held by
`lower_left`, `upper_right` is that of step `viewport_step`), and `unjoined`
lists the workers (step, partition) in `_in_progress` that `join_all` has not
waited for yet. -/
structure gslp_sched where
  viewport_step : Nat
  unjoined : List (Nat × Nat)
deriving DecidableEq, Repr

/-- The calls of one pass of the step loop, in program order: the partition
loop adds one worker per partition, then `zoom_and_re_center_inplace`, then
`join_all`. -/
def GSLP_step_events (task_count i : Nat) : List gslp_event :=
  (List.range task_count).map (gslp_event.add i)
    ++ [gslp_event.advance i, gslp_event.join_all i]

/-- The calls of the whole step loop `for (i = 0; i < zoom_steps; i++)`. -/
def GSLP_events (task_count zoom_steps : Nat) : List gslp_event :=
  (List.range zoom_steps).flatMap (GSLP_step_events task_count)

/-- The effect of a call: `add` pushes a worker onto `_in_progress`,
`zoom_and_re_center_inplace` moves the viewport on, `join_all` waits for every
worker in `_in_progress`. -/
def gslp_sched.apply (s : gslp_sched) : gslp_event → gslp_sched
  | gslp_event.add i p => { s with unjoined := s.unjoined ++ [(i, p)] }
  | gslp_event.advance _ => { s with viewport_step := s.viewport_step + 1 }
  | gslp_event.join_all _ => { s with unjoined := [] }

/-- The states the orchestrating thread passes through: the state after every
prefix of the calls. -/
def gslp_states (events : List gslp_event) : List gslp_sched :=
  (List.range (events.length + 1)).map fun n =>
    (events.take n).foldl gslp_sched.apply { viewport_step := 0, unjoined := [] }

/-- A state in which the viewport has been advanced past the step of a worker
that is still unjoined. -/
def viewport_ahead_of_worker (s : gslp_sched) : Prop :=
  ∃ w ∈ s.unjoined, w.1 < s.viewport_step

instance (s : gslp_sched) : Decidable (viewport_ahead_of_worker s) := by
  unfold viewport_ahead_of_worker
  exact inferInstance

/-- The kernel results that `fill_pixels<size>` computes for the columns
`x, ..., x + 8 * size - 1` of row `y`, before any of them is dropped. -/
def FracCPU.fill_pixels_result (self : FracCPU) (size : Nat) (x y : Nat)
    (lower_left : complex_t) (scale : ℚ × ℚ) : List Nat :=
  self.mandelbrot_avx_multiple size
    ((List.range size).map fun i =>
      if i = 0 then (self.idx_to_complex_8 x y lower_left scale).1
      else (self.idx_to_complex_8 (x + i * 8) y lower_left scale).1)
    (List.replicate size (self.idx_to_complex_8 x y lower_left scale).2)

/-- A white pixel. -/
def white : pixel_t := ⟨255, 255, 255, 0⟩

/-! ## The image writer (`animated_gif.h`) -/

/-- Conversion of an `int` value to `size_t` (64 bit). -/
def to_size_t (z : Int) : Nat := (z % 18446744073709551616).toNat

/-- The class `AnimatedGif`, reduced to its member `_frame_size`. -/
structure AnimatedGif where
  _frame_size : Nat
deriving DecidableEq, Repr

/-- The constructor `AnimatedGif (file_name, short width, short height)`:
`_frame_size = width * height`, the product of the two `short`s taken in `int`
and converted to `size_t`. -/
def AnimatedGif.create (width height : Int) : AnimatedGif :=
  { _frame_size := to_size_t (width * height) }

/-- The method `AnimatedGif::append_frame`: it throws (no result) when
`frame.size () != _frame_size`. -/
def AnimatedGif.append_frame (self : AnimatedGif) (frame : frame_t) : Option Unit :=
  if frame.length ≠ self._frame_size then none else some ()

/-- The writer that `FracCPU_GSLP::execute` constructs:
`AnimatedGif image ("zoom.gif", _image_width, _image_height)`, the two `int`
members converted to the `short` parameters. -/
def FracCPU.GSLP_writer (self : FracCPU) : AnimatedGif :=
  AnimatedGif.create (to_short self._image_width) (to_short self._image_height)

/-- The frames that `FracCPU_GSLP::execute` passes to `image.append_frame`:
the frame of every step when `save_images` is `ToDisk`, none otherwise. -/
def FracCPU.GSLP_passed_frames (self : FracCPU) (task_count : Nat)
    (zooming : FractalZooming) : Option (List frame_t) :=
  (self.GSLP_execute task_count zooming).map fun frames =>
    match zooming.save_images with
    | SaveImage.ToDisk => frames.map Prod.snd
    | SaveImage.No => []

/-- A sample object `FracCPU_GSLP<None, 1>` for a 32768 x 1 image, with
`FRACTAL_ITER = 50` and `FRACTAL_BOUND = 2`. -/
def sample_cpu_wide : FracCPU :=
  { cpu_ext := FracUseCPUExt.None, pixels_size := 1, _image_width := 32768,
    _image_height := 1, FRACTAL_ITER := 50, FRACTAL_BOUND := 2 }

/-- The sample zoom specification with `save_images = ToDisk`. -/
def sample_zooming_to_disk : FractalZooming :=
  { sample_zooming with save_images := SaveImage.ToDisk }

/-! ## Single-precision arithmetic (IEEE 754 binary32)

The zoom transform once more, with every operation rounded as the `float`
operations of the source round: to the nearest binary32 value, ties to even,
with gradual underflow and overflow to infinity. The two zeros are not told
apart. -/

/-- A binary32 value: a finite number, an infinity or a NaN. -/
inductive f32 where
  | fin (q : ℚ)
  | inf (negative : Bool)
  | nan
deriving DecidableEq, Repr

/-- The power `2 ^ e` for an integer exponent. -/
def pow2 (e : Int) : ℚ :=
  if 0 ≤ e then ((2 ^ e.toNat : Nat) : ℚ) else 1 / ((2 ^ (-e).toNat : Nat) : ℚ)

/-- The number of halvings that take `n` below `2`, at most `fuel` of them. -/
def log2_loop : Nat → Nat → Nat
  | 0, _ => 0
  | fuel + 1, n => if n < 2 then 0 else log2_loop fuel (n / 2) + 1

/-- The index of the leading bit of `n`. -/
def log2 (n : Nat) : Nat := log2_loop n n

/-- The exponent of the leading bit of `a > 0`: the `e` with
`2 ^ e ≤ a < 2 ^ (e + 1)`. -/
def ilog2 (a : ℚ) : Int :=
  let e0 : Int := (log2 a.num.natAbs : Int) - (log2 a.den : Int)
  if pow2 e0 ≤ a then e0 else e0 - 1

/-- Rounding of `x ≥ 0` to the nearest integer, ties to even. -/
def round_half_even (x : ℚ) : Nat :=
  let f : Nat := (x.num / (x.den : Int)).toNat
  let r : ℚ := x - (f : ℚ)
  if r < 1 / 2 then f
  else if 1 / 2 < r then f + 1
  else if f % 2 = 0 then f else f + 1

/-- Rounding of a magnitude `a > 0` to 24 significant bits, with least
exponent -126: below `2 ^ -126` the results are the multiples of `2 ^ -149`
(subnormal numbers). -/
def round_mag (a : ℚ) : ℚ :=
  let e : Int := max (ilog2 a) (-126)
  let ulp : ℚ := pow2 (e - 23)
  (round_half_even (a / ulp) : ℚ) * ulp

/-- Rounding of an exact result to binary32: to the nearest value, ties to
even, with overflow to infinity from `2 ^ 128` on. -/
def round32 (q : ℚ) : f32 :=
  if q = 0 then f32.fin 0
  else
    let r : ℚ := round_mag |q|
    if pow2 128 ≤ r then f32.inf (decide (q < 0))
    else f32.fin (if q < 0 then -r else r)

namespace f32

/-- Negation. -/
def neg : f32 → f32
  | fin a => fin (-a)
  | inf s => inf (!s)
  | nan => nan

/-- The `float` addition. -/
def add : f32 → f32 → f32
  | fin a, fin b => round32 (a + b)
  | fin _, inf s => inf s
  | inf s, fin _ => inf s
  | inf s, inf t => if s = t then inf s else nan
  | _, _ => nan

/-- The `float` subtraction. -/
def sub (x y : f32) : f32 := add x (neg y)

/-- The `float` multiplication. -/
def mul : f32 → f32 → f32
  | fin a, fin b => round32 (a * b)
  | fin a, inf s => if a = 0 then nan else inf (xor s (decide (a < 0)))
  | inf s, fin b => if b = 0 then nan else inf (xor s (decide (b < 0)))
  | inf s, inf t => inf (xor s t)
  | _, _ => nan

/-- The `float` division. -/
def div : f32 → f32 → f32
  | fin a, fin b =>
    if b = 0 then (if a = 0 then nan else inf (decide (a < 0))) else round32 (a / b)
  | fin _, inf _ => fin 0
  | inf s, fin b => inf (xor s (decide (b < 0)))
  | _, _ => nan

/-- The comparison `<` of two `float`s; it is false when either is a NaN. -/
def lt : f32 → f32 → Bool
  | fin a, fin b => decide (a < b)
  | fin _, inf s => !s
  | inf s, fin _ => s
  | inf s, inf t => s && !t
  | _, _ => false

/-- The comparison `<=` of two `float`s; it is false when either is a NaN. -/
def le : f32 → f32 → Bool
  | fin a, fin b => decide (a ≤ b)
  | fin _, inf s => !s
  | inf s, fin _ => s
  | inf s, inf t => s || !t
  | _, _ => false

end f32

/-- The type `std::complex<float>` with binary32 components. -/
structure complex_f32 where
  real : f32
  imag : f32
deriving DecidableEq, Repr

/-- The function `zoom_and_re_center` in single precision; `zoom` and
`zoom_center` are the two members of `zooming` it reads. -/
def zoom_and_re_center_f32 (lower_left upper_right : complex_f32) (zoom : f32)
    (zoom_center : complex_f32) : complex_f32 × complex_f32 :=
  let new_lower_left : complex_f32 := ⟨lower_left.real.mul zoom, lower_left.imag.mul zoom⟩
  let new_upper_right : complex_f32 := ⟨upper_right.real.mul zoom, upper_right.imag.mul zoom⟩
  let current_center : complex_f32 :=
    ⟨new_lower_left.real.add new_upper_right.real, new_lower_left.imag.add new_upper_right.imag⟩
  let current_center : complex_f32 :=
    ⟨current_center.real.div (f32.fin 2), current_center.imag.div (f32.fin 2)⟩
  let translate : complex_f32 :=
    ⟨zoom_center.real.sub current_center.real, zoom_center.imag.sub current_center.imag⟩
  let new_lower_left : complex_f32 :=
    ⟨new_lower_left.real.add translate.real, new_lower_left.imag.add translate.imag⟩
  let new_upper_right : complex_f32 :=
    ⟨new_upper_right.real.add translate.real, new_upper_right.imag.add translate.imag⟩
  (new_lower_left, new_upper_right)

/-- The function `zoom_and_re_center_inplace` in single precision: the two
references are the state, passed in and returned. -/
def zoom_and_re_center_inplace_f32 (v : complex_f32 × complex_f32) (zoom : f32)
    (zoom_center : complex_f32) : complex_f32 × complex_f32 :=
  let lower_left := v.1
  let upper_right := v.2
  let lower_left : complex_f32 := ⟨lower_left.real.mul zoom, lower_left.imag.mul zoom⟩
  let upper_right : complex_f32 := ⟨upper_right.real.mul zoom, upper_right.imag.mul zoom⟩
  let current_center : complex_f32 :=
    ⟨lower_left.real.add upper_right.real, lower_left.imag.add upper_right.imag⟩
  let current_center : complex_f32 :=
    ⟨current_center.real.div (f32.fin 2), current_center.imag.div (f32.fin 2)⟩
  let translate : complex_f32 :=
    ⟨zoom_center.real.sub current_center.real, zoom_center.imag.sub current_center.imag⟩
  let lower_left : complex_f32 :=
    ⟨lower_left.real.add translate.real, lower_left.imag.add translate.imag⟩
  let upper_right : complex_f32 :=
    ⟨upper_right.real.add translate.real, upper_right.imag.add translate.imag⟩
  (lower_left, upper_right)

/-- The viewport after `k` calls of `zoom_and_re_center_inplace` in single
precision. -/
def zoom_inplace_iter_f32 (zoom : f32) (zoom_center : complex_f32) :
    Nat → complex_f32 × complex_f32 → complex_f32 × complex_f32
  | 0, v => v
  | k + 1, v =>
    zoom_and_re_center_inplace_f32 (zoom_inplace_iter_f32 zoom zoom_center k v) zoom zoom_center

/-- A `float` literal of the source: the decimal value rounded to binary32. -/
def float_literal (q : ℚ) : f32 := round32 q

/-- A rational number that is a binary32 value: rounding leaves it as it is. -/
def is_f32 (q : ℚ) : Prop := round32 q = f32.fin q

instance (q : ℚ) : Decidable (is_f32 q) := by
  unfold is_f32
  exact inferInstance

/-- A complex number with exact components, taken as a `std::complex<float>`. -/
def complex_t.to_f32 (c : complex_t) : complex_f32 := ⟨f32.fin c.real, f32.fin c.imag⟩

/-- The exact results of the seven operations that `zoom_and_re_center`
performs on one axis, in the order of the source: the two scaled corners,
their sum, its half, the translation and the two translated corners. -/
def zoom_axis_results (lower_left upper_right zoom zoom_center : ℚ) : List ℚ :=
  [lower_left * zoom,
   upper_right * zoom,
   lower_left * zoom + upper_right * zoom,
   (lower_left * zoom + upper_right * zoom) / 2,
   zoom_center - (lower_left * zoom + upper_right * zoom) / 2,
   lower_left * zoom + (zoom_center - (lower_left * zoom + upper_right * zoom) / 2),
   upper_right * zoom + (zoom_center - (lower_left * zoom + upper_right * zoom) / 2)]

/-- No operation of `zoom_and_re_center` on the viewport rounds or overflows:
the exact result of each is a binary32 value. -/
def zoom_no_rounding (lower_left upper_right : complex_t) (zooming : FractalZooming) : Prop :=
  (∀ q ∈ zoom_axis_results lower_left.real upper_right.real zooming.zoom
    zooming.zoom_center.real, is_f32 q) ∧
  (∀ q ∈ zoom_axis_results lower_left.imag upper_right.imag zooming.zoom
    zooming.zoom_center.imag, is_f32 q)

instance (lower_left upper_right : complex_t) (zooming : FractalZooming) :
    Decidable (zoom_no_rounding lower_left upper_right zooming) := by
  unfold zoom_no_rounding
  exact inferInstance

/-- The member `start_lower_left` set by `create_zooming` of `main.cpp`, as a
binary32 value. -/
def main_lower_left : complex_f32 :=
  ⟨float_literal (-274529004 / 100000000), float_literal (-101192498 / 100000000)⟩

/-- The member `start_upper_right` set by `create_zooming`. -/
def main_upper_right : complex_f32 :=
  ⟨float_literal (125470996 / 100000000), float_literal (123807502 / 100000000)⟩

/-- The member `zoom_center` set by `create_zooming`. -/
def main_zoom_center : complex_f32 :=
  ⟨float_literal (-745289981 / 1000000000), float_literal (113075003 / 1000000000)⟩

/-- A NaN among the four coordinates of a viewport. -/
def has_nan (v : complex_f32 × complex_f32) : Prop :=
  v.1.real = f32.nan ∨ v.1.imag = f32.nan ∨ v.2.real = f32.nan ∨ v.2.imag = f32.nan

instance (v : complex_f32 × complex_f32) : Decidable (has_nan v) := by
  unfold has_nan
  exact inferInstance

/-- The corner ordering of a single-precision viewport, strict:
`lower_left < upper_right` on both axes. -/
def ordered_f32 (v : complex_f32 × complex_f32) : Prop :=
  v.1.real.lt v.2.real = true ∧ v.1.imag.lt v.2.imag = true

instance (v : complex_f32 × complex_f32) : Decidable (ordered_f32 v) := by
  unfold ordered_f32
  exact inferInstance

/-- The corner ordering of a single-precision viewport, not strict:
`lower_left <= upper_right` on both axes. -/
def ordered_le_f32 (v : complex_f32 × complex_f32) : Prop :=
  v.1.real.le v.2.real = true ∧ v.1.imag.le v.2.imag = true

instance (v : complex_f32 × complex_f32) : Decidable (ordered_le_f32 v) := by
  unfold ordered_le_f32
  exact inferInstance

/-! ## The scalar kernel over any complex arithmetic

The result of `FracCPU::mandelbrot` depends on how `std::complex<float>`
rounds its product and sum and on how `std::abs` rounds the magnitude. The
kernel is embedded once more with these operations left open, so that what is
proved of its loop holds for single precision as any platform performs it, and
for exact arithmetic as well. -/

/-- The operations on `complex_t` that `FracCPU::mandelbrot` uses, for a
number type `C` and an arithmetic that are left open: the value-initialised
number, `operator*`, `operator+` and the test `std::abs (z) > FRACTAL_BOUND`. -/
structure complex_arith (C : Type) where
  zero : C
  mul : C → C → C
  add : C → C → C
  abs_gt_bound : C → Bool

/-- The loop of `FracCPU::mandelbrot` over the arithmetic `A`: `n` iterations
remain, `i` is the loop counter and `z` the current iterate. -/
def mandelbrot_loop_in {C : Type} (A : complex_arith C) (FRACTAL_ITER : Nat) (c : C) :
    Nat → Nat → C → Nat
  | 0, _, _ => FRACTAL_ITER - 1
  | n + 1, i, z =>
    let z1 := A.add (A.mul z z) c
    if A.abs_gt_bound z1 then i
    else mandelbrot_loop_in A FRACTAL_ITER c n (i + 1) z1

/-- The scalar kernel `FracCPU::mandelbrot` over the arithmetic `A`. -/
def mandelbrot_in {C : Type} (A : complex_arith C) (FRACTAL_ITER : Nat) (c : C) : Nat :=
  mandelbrot_loop_in A FRACTAL_ITER c FRACTAL_ITER 0 A.zero

/-- The iterates as the kernel computes them in the arithmetic `A`: `z₀` is the
value-initialised number and `zₙ₊₁ = zₙ * zₙ + c`. -/
def kernel_orbit {C : Type} (A : complex_arith C) (c : C) : Nat → C
  | 0 => A.zero
  | n + 1 => A.add (A.mul (kernel_orbit A c n) (kernel_orbit A c n)) c

/-- Exact arithmetic on `complex_t`, with the bound test of `abs_gt`. -/
def exact_arith (FRACTAL_BOUND : ℚ) : complex_arith complex_t :=
  { zero := complex_t.zero, mul := complex_t.mul, add := complex_t.add,
    abs_gt_bound := fun z => abs_gt z FRACTAL_BOUND }

/-! ## Theorems -/

/-- The exact test `abs_gt` is the comparison of the real magnitude
`sqrt (real² + imag²)` with the bound. -/
theorem abs_gt_iff_sqrt (z : complex_t) (bound : ℚ) :
    abs_gt z bound = true ↔ (bound : ℝ) < Real.sqrt ((z.normSq : ℚ) : ℝ) := by
  have hn : (0 : ℚ) ≤ z.normSq := by
    unfold complex_t.normSq
    nlinarith [mul_self_nonneg z.real, mul_self_nonneg z.imag]
  have hnR : (0 : ℝ) ≤ ((z.normSq : ℚ) : ℝ) := by exact_mod_cast hn
  simp only [abs_gt, Bool.or_eq_true, decide_eq_true_eq]
  constructor
  · rintro (h | h)
    · have hb : (bound : ℝ) < 0 := by exact_mod_cast h
      exact lt_of_lt_of_le hb (Real.sqrt_nonneg _)
    · by_cases hb : bound < 0
      · have hb1 : (bound : ℝ) < 0 := by exact_mod_cast hb
        exact lt_of_lt_of_le hb1 (Real.sqrt_nonneg _)
      · push_neg at hb
        have hbR : (0 : ℝ) ≤ (bound : ℝ) := by exact_mod_cast hb
        have hR : (bound : ℝ) * (bound : ℝ) < ((z.normSq : ℚ) : ℝ) := by exact_mod_cast h
        rw [Real.lt_sqrt hbR]
        nlinarith
  · intro h
    by_cases hb : bound < 0
    · exact Or.inl hb
    · right
      push_neg at hb
      have hbR : (0 : ℝ) ≤ (bound : ℝ) := by exact_mod_cast hb
      rw [Real.lt_sqrt hbR] at h
      have hR : (bound : ℝ) * (bound : ℝ) < ((z.normSq : ℚ) : ℝ) := by nlinarith
      exact_mod_cast hR

/-- For a non-negative bound `abs_gt` is the comparison of the squares. -/
theorem abs_gt_iff_sq (z : complex_t) (bound : ℚ) (hb : 0 ≤ bound) :
    abs_gt z bound = true ↔ bound ^ 2 < z.normSq := by
  simp only [abs_gt, Bool.or_eq_true, decide_eq_true_eq, not_lt.mpr hb, false_or, pow_two]

/-- The scalar loop keeps the iterate on the orbit: entered at counter `i`
with `z = zᵢ`, it returns the first counter `k ≥ i` whose iterate `zₖ₊₁`
passes the bound test. -/
theorem mandelbrot_loop_first (ITER : Nat) (B : ℚ) (c : complex_t) :
    ∀ (n i k : Nat), i ≤ k → k < i + n →
      abs_gt (spec_orbit c (k + 1)) B = true →
      (∀ m, i ≤ m → m < k → abs_gt (spec_orbit c (m + 1)) B = false) →
      mandelbrot_loop ITER B c n i (spec_orbit c i) = k := by
  intro n
  induction n with
  | zero => intro i k h1 h2; omega
  | succ n ih =>
    intro i k hik hk hdiv hbefore
    rw [mandelbrot_loop]
    show (if abs_gt (spec_orbit c (i + 1)) B = true then i
      else mandelbrot_loop ITER B c n (i + 1) (spec_orbit c (i + 1))) = k
    by_cases hki : k = i
    · subst hki
      rw [if_pos hdiv]
    · have hlt : i < k := by omega
      rw [if_neg (by rw [hbefore i (le_refl i) hlt]; exact Bool.false_ne_true)]
      exact ih (i + 1) k (by omega) (by omega) hdiv
        (fun m hm1 hm2 => hbefore m (by omega) hm2)

/-- When no iterate passes the bound test the scalar loop returns the
sentinel `FRACTAL_ITER - 1`. -/
theorem mandelbrot_loop_none (ITER : Nat) (B : ℚ) (c : complex_t) :
    ∀ (n i : Nat),
      (∀ m, i ≤ m → m < i + n → abs_gt (spec_orbit c (m + 1)) B = false) →
      mandelbrot_loop ITER B c n i (spec_orbit c i) = ITER - 1 := by
  intro n
  induction n with
  | zero => intro i _; rw [mandelbrot_loop]
  | succ n ih =>
    intro i h
    rw [mandelbrot_loop]
    show (if abs_gt (spec_orbit c (i + 1)) B = true then i
      else mandelbrot_loop ITER B c n (i + 1) (spec_orbit c (i + 1))) = ITER - 1
    rw [if_neg (by rw [h i (le_refl i) (by omega)]; exact Bool.false_ne_true)]
    exact ih (i + 1) (fun m hm1 hm2 => h m (by omega) (by omega))

/-- The scalar loop returns a counter below `i + n` or the sentinel. -/
theorem mandelbrot_loop_le (ITER : Nat) (B : ℚ) (c : complex_t) :
    ∀ (n i : Nat) (z : complex_t), i + n ≤ ITER →
      mandelbrot_loop ITER B c n i z ≤ ITER - 1 := by
  intro n
  induction n with
  | zero => intro i z _; rw [mandelbrot_loop]
  | succ n ih =>
    intro i z h
    rw [mandelbrot_loop]
    show (if abs_gt ((z.mul z).add c) B = true then i
      else mandelbrot_loop ITER B c n (i + 1) ((z.mul z).add c)) ≤ ITER - 1
    split
    · omega
    · exact ih (i + 1) _ (by omega)

/-- A property of the `result` array that every store `result[idx] = i`
preserves is preserved by the lane loop. -/
theorem record_lanes_preserves (P : List Nat → Prop) (ITER : Nat) (B : ℚ) (i base : Nat)
    (mag : m256) (hstep : ∀ (r : List Nat) (idx : Nat), P r → P (r.set idx i))
    (result : List Nat) (h : P result) : P (record_lanes ITER B i base mag result) := by
  unfold record_lanes
  generalize List.finRange 8 = l
  induction l generalizing result with
  | nil => exact h
  | cons k l ih =>
    rw [List.foldl_cons]
    apply ih
    split
    · exact hstep _ _ h
    · exact h

/-- The lane loop keeps the length of the `result` array. -/
theorem record_lanes_length (ITER : Nat) (B : ℚ) (i base : Nat) (mag : m256)
    (result : List Nat) :
    (record_lanes ITER B i base mag result).length = result.length :=
  record_lanes_preserves (fun r => r.length = result.length) ITER B i base mag
    (fun r idx h => by
      show (r.set idx i).length = result.length
      rw [List.length_set]; exact h) result rfl

/-- The lane loop at a counter `i ≤ M` keeps every entry at most `M`. -/
theorem record_lanes_le (ITER : Nat) (B : ℚ) (i base M : Nat) (mag : m256) (hi : i ≤ M)
    (result : List Nat) (h : ∀ e ∈ result, e ≤ M) :
    ∀ e ∈ record_lanes ITER B i base mag result, e ≤ M :=
  record_lanes_preserves (fun r => ∀ e ∈ r, e ≤ M) ITER B i base mag
    (fun r idx hr e he => by
      rcases List.mem_or_eq_of_mem_set he with h1 | h1
      · exact hr e h1
      · rw [h1]; exact hi) result h

/-- The loop of `mandelbrot_avx` keeps the length of `result` and keeps every
entry at most `FRACTAL_ITER - 1`. -/
theorem mandelbrot_avx_loop_range (ext : FracUseCPUExt) (ITER : Nat) (B : ℚ)
    (c_real c_imag : m256) :
    ∀ (n i : Nat) (z_real z_imag : m256) (result : List Nat), i + n ≤ ITER →
      (∀ e ∈ result, e ≤ ITER - 1) →
      (mandelbrot_avx_loop ext ITER B c_real c_imag n i z_real z_imag result).length
          = result.length ∧
        ∀ e ∈ mandelbrot_avx_loop ext ITER B c_real c_imag n i z_real z_imag result,
          e ≤ ITER - 1 := by
  intro n
  induction n with
  | zero => intro i zr zi result _ h; rw [mandelbrot_avx_loop]; exact ⟨rfl, h⟩
  | succ n ih =>
    intro i zr zi result hin h
    rw [mandelbrot_avx_loop]
    have hlen := record_lanes_length ITER B i 0 (avx_arith ext c_real c_imag zr zi).2.2 result
    have hle := record_lanes_le ITER B i 0 (ITER - 1)
      (avx_arith ext c_real c_imag zr zi).2.2 (by omega) result h
    show ((if all_diverged B _ = true then _ else _ : List Nat)).length = _ ∧
      ∀ e ∈ (if all_diverged B _ = true then _ else _ : List Nat), e ≤ ITER - 1
    split
    · exact ⟨hlen, hle⟩
    · have := ih (i + 1) (avx_arith ext c_real c_imag zr zi).1
        (avx_arith ext c_real c_imag zr zi).2.1 _ (by omega) hle
      exact ⟨this.1.trans hlen, this.2⟩

/-- The vectorized kernel returns eight entries, each at most
`FRACTAL_ITER - 1`. -/
theorem mandelbrot_avx_range (ext : FracUseCPUExt) (ITER : Nat) (B : ℚ)
    (c_real c_imag : m256) :
    (mandelbrot_avx ext ITER B c_real c_imag).length = 8 ∧
      ∀ e ∈ mandelbrot_avx ext ITER B c_real c_imag, e ≤ ITER - 1 := by
  have h := mandelbrot_avx_loop_range ext ITER B c_real c_imag ITER 0
    (_mm256_set1_ps 0) (_mm256_set1_ps 0) (List.replicate 8 (ITER - 1)) (by omega)
    (fun e he => by rw [List.eq_of_mem_replicate he])
  rw [List.length_replicate] at h
  exact h

/-- Claim C1, evaluated at a failing input. With `FRACTAL_ITER = 50`,
`FRACTAL_BOUND = 2` and the point `c = 1.5 + 0i` in every lane, the vectorized
kernel records 0 in every lane (it compares the squared magnitude 2.25 with
the bound 2 itself), while the scalar kernel returns 1 for that point (it
compares the magnitude 1.5 with the bound 2, and the next iterate 3.75
diverges). -/
theorem mandelbrot_avx_lanes_differ_from_scalar :
    (∀ ext : FracUseCPUExt,
      mandelbrot_avx ext 50 2 (_mm256_set1_ps (3 / 2)) (_mm256_set1_ps 0)
        = [0, 0, 0, 0, 0, 0, 0, 0]) ∧
    mandelbrot 50 2 ⟨3 / 2, 0⟩ = 1 := by
  refine ⟨fun ext => ?_, by decide!⟩
  cases ext <;> decide!

/-- Claim C2 as stated fails: at `c = 3 + 0i`, `divergence_bound = 2` and
`max_iterations = 5` the least index `n` with `|zₙ|² > divergence_bound²` is
`n = 1` (`z₀ = 0`, `z₁ = 3`), and the scalar kernel returns 0, not 1. -/
theorem mandelbrot_least_index_counterexample :
    spec_diverged ⟨3, 0⟩ 2 1 ∧ (∀ m, m < 1 → ¬ spec_diverged ⟨3, 0⟩ 2 m) ∧
      mandelbrot 5 2 ⟨3, 0⟩ = 0 ∧ mandelbrot 5 2 ⟨3, 0⟩ ≠ 1 := by
  refine ⟨by decide!, ?_, by decide!, by decide!⟩
  intro m hm
  have h0 : m = 0 := by omega
  subst h0
  decide!

/-- The scalar kernel in exact arithmetic, for `max_iterations ≥ 1` and
`divergence_bound ≥ 0`: if `n` with `1 ≤ n ≤ max_iterations` is the least index
at which `|zₙ|² > divergence_bound²`, the kernel returns `n - 1`; and if no
index `n` with `1 ≤ n ≤ max_iterations` has `|zₙ|² > divergence_bound²`, it
returns `max_iterations - 1`. In single precision the test
`std::abs (zₙ) > divergence_bound` is made on rounded values and can differ
from `|zₙ|² > divergence_bound²`. -/
theorem mandelbrot_first_divergence (ITER : Nat) (B : ℚ) (c : complex_t)
    (hITER : 1 ≤ ITER) (hB : 0 ≤ B) :
    (∀ n, 1 ≤ n → n ≤ ITER → spec_diverged c B n →
        (∀ m, m < n → ¬ spec_diverged c B m) → mandelbrot ITER B c = n - 1) ∧
    ((∀ n, 1 ≤ n → n ≤ ITER → ¬ spec_diverged c B n) →
        mandelbrot ITER B c = ITER - 1) := by
  have _h := hITER
  have hconv : ∀ m, abs_gt (spec_orbit c m) B = false ↔ ¬ spec_diverged c B m := by
    intro m
    rw [← Bool.not_eq_true, abs_gt_iff_sq _ _ hB]
    rfl
  constructor
  · intro n h1 h2 hdiv hleast
    have hkey := mandelbrot_loop_first ITER B c ITER 0 (n - 1) (Nat.zero_le _) (by omega)
      (by
        rw [Nat.sub_add_cancel h1, abs_gt_iff_sq _ _ hB]
        exact hdiv)
      (fun m _ hm => (hconv (m + 1)).mpr (hleast (m + 1) (by omega)))
    exact hkey
  · intro hnone
    exact mandelbrot_loop_none ITER B c ITER 0
      (fun m _ hm => (hconv (m + 1)).mpr (hnone (m + 1) (by omega) (by omega)))

/-- Witness of `mandelbrot_first_divergence` at `max_iterations = 5`,
`divergence_bound = 2`, `c = 3 + 0i`, where the least divergent index is 1 and
the kernel returns 0. -/
theorem mandelbrot_first_divergence_witness :
    (1 ≤ 5 ∧ (0 : ℚ) ≤ 2) ∧ mandelbrot 5 2 ⟨3, 0⟩ = 1 - 1 :=
  ⟨⟨by decide, by norm_num⟩,
    (mandelbrot_first_divergence 5 2 ⟨3, 0⟩ (by decide) (by norm_num)).1 1 (by decide)
      (by decide) (by decide!)
      (fun m hm => by
        have h0 : m = 0 := by omega
        subst h0
        decide!)⟩

/-! ### The scalar kernel over any complex arithmetic -/

/-- Over exact arithmetic the open kernel is the kernel `mandelbrot`. -/
theorem mandelbrot_loop_in_exact (ITER : Nat) (B : ℚ) (c : complex_t) :
    ∀ (n i : Nat) (z : complex_t),
      mandelbrot_loop_in (exact_arith B) ITER c n i z = mandelbrot_loop ITER B c n i z := by
  intro n
  induction n with
  | zero => intro i z; rfl
  | succ n ih =>
    intro i z
    rw [mandelbrot_loop_in, mandelbrot_loop]
    simp only [ih]
    rfl

/-- Over exact arithmetic the open kernel is the kernel `mandelbrot`. -/
theorem mandelbrot_in_exact (ITER : Nat) (B : ℚ) (c : complex_t) :
    mandelbrot_in (exact_arith B) ITER c = mandelbrot ITER B c :=
  mandelbrot_loop_in_exact ITER B c ITER 0 complex_t.zero

/-- Over exact arithmetic the kernel's iterates are those of the
specification. -/
theorem kernel_orbit_exact (B : ℚ) (c : complex_t) (n : Nat) :
    kernel_orbit (exact_arith B) c n = spec_orbit c n := by
  induction n with
  | zero => rfl
  | succ n ih =>
    rw [kernel_orbit, spec_orbit, ih]
    rfl

/-- Entered at counter `i` with `z = zᵢ`, the loop returns the first counter
`k ≥ i` whose iterate `zₖ₊₁` passes the kernel's bound test. -/
theorem mandelbrot_loop_in_first {C : Type} (A : complex_arith C) (ITER : Nat) (c : C) :
    ∀ (n i k : Nat), i ≤ k → k < i + n →
      A.abs_gt_bound (kernel_orbit A c (k + 1)) = true →
      (∀ m, i ≤ m → m < k → A.abs_gt_bound (kernel_orbit A c (m + 1)) = false) →
      mandelbrot_loop_in A ITER c n i (kernel_orbit A c i) = k := by
  intro n
  induction n with
  | zero => intro i k h1 h2; omega
  | succ n ih =>
    intro i k hik hk hdiv hbefore
    rw [mandelbrot_loop_in]
    show (if A.abs_gt_bound (kernel_orbit A c (i + 1)) = true then i
      else mandelbrot_loop_in A ITER c n (i + 1) (kernel_orbit A c (i + 1))) = k
    by_cases hki : k = i
    · subst hki
      rw [if_pos hdiv]
    · have hlt : i < k := by omega
      rw [if_neg (by rw [hbefore i (le_refl i) hlt]; exact Bool.false_ne_true)]
      exact ih (i + 1) k (by omega) (by omega) hdiv
        (fun m hm1 hm2 => hbefore m (by omega) hm2)

/-- When no iterate passes the kernel's bound test the loop returns the
sentinel `FRACTAL_ITER - 1`. -/
theorem mandelbrot_loop_in_none {C : Type} (A : complex_arith C) (ITER : Nat) (c : C) :
    ∀ (n i : Nat),
      (∀ m, i ≤ m → m < i + n → A.abs_gt_bound (kernel_orbit A c (m + 1)) = false) →
      mandelbrot_loop_in A ITER c n i (kernel_orbit A c i) = ITER - 1 := by
  intro n
  induction n with
  | zero => intro i _; rw [mandelbrot_loop_in]
  | succ n ih =>
    intro i h
    rw [mandelbrot_loop_in]
    show (if A.abs_gt_bound (kernel_orbit A c (i + 1)) = true then i
      else mandelbrot_loop_in A ITER c n (i + 1) (kernel_orbit A c (i + 1))) = ITER - 1
    rw [if_neg (by rw [h i (le_refl i) (by omega)]; exact Bool.false_ne_true)]
    exact ih (i + 1) (fun m hm1 hm2 => h m (by omega) (by omega))

/-- Claim C2, amended. For every arithmetic in which the kernel computes
(single precision with whatever rounding of the product, the sum and
`std::abs`, or exact arithmetic), every point `c` and every
`max_iterations ≥ 1`, with `z₀ = 0` and `zₙ₊₁ = zₙ² + c` the iterates as the
kernel computes them: if `n` with `1 ≤ n ≤ max_iterations` is the least index
at which the kernel's test `std::abs (zₙ) > divergence_bound` holds, the scalar
kernel returns `n - 1`; and if the test holds at no index `n` with
`1 ≤ n ≤ max_iterations`, it returns `max_iterations - 1`. -/
theorem mandelbrot_returns_first_test {C : Type} (A : complex_arith C) (ITER : Nat) (c : C)
    (hITER : 1 ≤ ITER) :
    (∀ n, 1 ≤ n → n ≤ ITER → A.abs_gt_bound (kernel_orbit A c n) = true →
        (∀ m, 1 ≤ m → m < n → A.abs_gt_bound (kernel_orbit A c m) = false) →
        mandelbrot_in A ITER c = n - 1) ∧
    ((∀ n, 1 ≤ n → n ≤ ITER → A.abs_gt_bound (kernel_orbit A c n) = false) →
        mandelbrot_in A ITER c = ITER - 1) := by
  have _h := hITER
  constructor
  · intro n h1 h2 hdiv hleast
    exact mandelbrot_loop_in_first A ITER c ITER 0 (n - 1) (Nat.zero_le _) (by omega)
      (by rw [Nat.sub_add_cancel h1]; exact hdiv)
      (fun m _ hm => hleast (m + 1) (by omega) (by omega))
  · intro hnone
    exact mandelbrot_loop_in_none A ITER c ITER 0
      (fun m _ hm => hnone (m + 1) (by omega) (by omega))

/-- Witness of `mandelbrot_returns_first_test` in exact arithmetic at
`max_iterations = 5`, `divergence_bound = 2`, `c = 3 + 0i`, where the test
first holds at index 1 and the kernel returns 0. -/
theorem mandelbrot_returns_first_test_witness :
    1 ≤ 5 ∧ mandelbrot_in (exact_arith 2) 5 ⟨3, 0⟩ = 1 - 1 :=
  ⟨by decide,
    (mandelbrot_returns_first_test (exact_arith 2) 5 ⟨3, 0⟩ (by decide)).1 1 (by decide)
      (by decide) (by decide!) (fun m h1 h2 => by omega)⟩

/-! ### The orbit of the origin and the range of the kernel results -/

/-- Claim C3. For `c = 0`, every `max_iterations ≥ 1` and every
`divergence_bound ≥ 0` the scalar kernel returns `max_iterations - 1`. -/
theorem mandelbrot_origin (ITER : Nat) (B : ℚ) (hITER : 1 ≤ ITER) (hB : 0 ≤ B) :
    mandelbrot ITER B ⟨0, 0⟩ = ITER - 1 := by
  have horbit : ∀ m, spec_orbit ⟨0, 0⟩ m = ⟨0, 0⟩ := by
    intro m
    induction m with
    | zero => rfl
    | succ m ih =>
      rw [spec_orbit, ih]
      simp [complex_t.mul, complex_t.add]
  have hnot : ∀ m, abs_gt (spec_orbit ⟨0, 0⟩ m) B = false := by
    intro m
    rw [horbit m, ← Bool.not_eq_true, abs_gt_iff_sq _ _ hB]
    simp only [complex_t.normSq, mul_zero, add_zero, not_lt]
    positivity
  have _h := hITER
  exact mandelbrot_loop_none ITER B ⟨0, 0⟩ ITER 0 (fun m _ _ => hnot (m + 1))

/-- Witness of `mandelbrot_origin` at `max_iterations = 50`,
`divergence_bound = 2`. -/
theorem mandelbrot_origin_witness :
    (1 ≤ 50 ∧ (0 : ℚ) ≤ 2) ∧ mandelbrot 50 2 ⟨0, 0⟩ = 50 - 1 :=
  ⟨⟨by decide, by norm_num⟩, mandelbrot_origin 50 2 (by decide) (by norm_num)⟩

/-- Claim C4. For `max_iterations ≥ 1` the scalar kernel's result and each of
the eight lanes of the vectorized kernel lie in `[0, max_iterations - 1]`, so
`get_color` on a colour map of length `max_iterations` finds an entry for
each of them. -/
theorem kernel_results_index_color_map (ext : FracUseCPUExt) (ITER : Nat) (B : ℚ)
    (c : complex_t) (c_real c_imag : m256) (zooming : FractalZooming)
    (hITER : 1 ≤ ITER) (hmap : zooming.color_map.length = ITER) :
    (0 ≤ mandelbrot ITER B c ∧ mandelbrot ITER B c ≤ ITER - 1) ∧
    (mandelbrot_avx ext ITER B c_real c_imag).length = 8 ∧
    (∀ j : Fin 8, 0 ≤ (mandelbrot_avx ext ITER B c_real c_imag).getD j.val 0 ∧
      (mandelbrot_avx ext ITER B c_real c_imag).getD j.val 0 ≤ ITER - 1) ∧
    (FracCPU.get_color (mandelbrot ITER B c) zooming).isSome = true ∧
    (∀ j : Fin 8, (FracCPU.get_color
      ((mandelbrot_avx ext ITER B c_real c_imag).getD j.val 0) zooming).isSome = true) := by
  have hs : mandelbrot ITER B c ≤ ITER - 1 :=
    mandelbrot_loop_le ITER B c ITER 0 complex_t.zero (by omega)
  have hv := mandelbrot_avx_range ext ITER B c_real c_imag
  have hlane : ∀ j : Fin 8,
      (mandelbrot_avx ext ITER B c_real c_imag).getD j.val 0 ≤ ITER - 1 := by
    intro j
    have hj : j.val < (mandelbrot_avx ext ITER B c_real c_imag).length := by
      rw [hv.1]; exact j.isLt
    rw [List.getD_eq_getElem _ _ hj]
    exact hv.2 _ (List.getElem_mem _)
  have hcol : ∀ e, e ≤ ITER - 1 → (FracCPU.get_color e zooming).isSome = true := by
    intro e he
    unfold FracCPU.get_color
    rw [List.get?_eq_getElem?, List.getElem?_eq_getElem (by omega)]
    rfl
  exact ⟨⟨Nat.zero_le _, hs⟩, hv.1, fun j => ⟨Nat.zero_le _, hlane j⟩, hcol _ hs,
    fun j => hcol _ (hlane j)⟩

/-- Witness of `kernel_results_index_color_map` at `max_iterations = 3`. -/
theorem kernel_results_index_color_map_witness :
    (1 ≤ 3 ∧ [pixel_t.zero, pixel_t.zero, pixel_t.zero].length = 3) ∧
    (FracCPU.get_color (mandelbrot 3 2 ⟨3, 0⟩)
      ⟨⟨0, 0⟩, ⟨1, 1⟩, 1, 1, ⟨0, 0⟩, SaveImage.No,
        [pixel_t.zero, pixel_t.zero, pixel_t.zero]⟩).isSome = true :=
  ⟨⟨by decide, rfl⟩,
    (kernel_results_index_color_map FracUseCPUExt.AVX 3 2 ⟨3, 0⟩ (_mm256_set1_ps 0)
      (_mm256_set1_ps 0)
      ⟨⟨0, 0⟩, ⟨1, 1⟩, 1, 1, ⟨0, 0⟩, SaveImage.No,
        [pixel_t.zero, pixel_t.zero, pixel_t.zero]⟩ (by decide) rfl).2.2.2.1⟩

/-! ### Zoom transform -/

/-- One call of the pure variant and one call of the in-place variant yield
the same corners. -/
theorem zoom_and_re_center_eq_inplace (lower_left upper_right : complex_t)
    (zooming : FractalZooming) :
    zoom_and_re_center lower_left upper_right zooming
      = zoom_and_re_center_inplace (lower_left, upper_right) zooming := rfl

/-- Reading back the key just assigned. -/
theorem bounds_map_find_assign_self (m : bounds_map) (k : Nat) (v : viewport) :
    (m.assign k v).find k = some v := by
  simp [bounds_map.find, bounds_map.assign, List.lookup]

/-- Assigning a key leaves the other keys as they are. -/
theorem bounds_map_find_assign_other (m : bounds_map) (k k1 : Nat) (v : viewport)
    (h : k1 ≠ k) : (m.assign k v).find k1 = m.find k1 := by
  have hne : (k1 == k) = false := by simpa using h
  simp only [bounds_map.find, bounds_map.assign, List.lookup, hne]
  induction m with
  | nil => rfl
  | cons e m ih =>
    obtain ⟨ek, ev⟩ := e
    by_cases hek : ek = k
    · subst hek
      have h1 : (k1 == ek) = false := hne
      simp [List.filter, List.lookup, h1, ih]
    · have h2 : (ek != k) = true := by simpa using hek
      simp only [List.filter, h2, List.lookup]
      rw [ih]

/-- The loop of `get_bounds`, entered at counter `i ≥ 1` with the keys below
`i` holding the iterated viewports, leaves the keys below `i + n` holding the
iterated viewports. -/
theorem get_bounds_loop_find (zooming : FractalZooming) :
    ∀ (n i : Nat) (bounds : bounds_map), 1 ≤ i →
      (∀ k, k < i → bounds.find k = some (zoom_inplace_iter zooming k
        (zooming.start_lower_left, zooming.start_upper_right))) →
      ∀ k, k < i + n → (get_bounds_loop zooming n i bounds).find k
        = some (zoom_inplace_iter zooming k
          (zooming.start_lower_left, zooming.start_upper_right)) := by
  intro n
  induction n with
  | zero => intro i bounds _ h k hk; rw [get_bounds_loop]; exact h k hk
  | succ n ih =>
    intro i bounds hi h k hk
    rw [get_bounds_loop]
    apply ih (i + 1) _ (by omega) _ k (by omega)
    intro k1 hk1
    by_cases hki : k1 = i
    · subst hki
      rw [bounds_map_find_assign_self]
      have hprev := h (k1 - 1) (by omega)
      have hsub : bounds.subscript (k1 - 1) = zoom_inplace_iter zooming (k1 - 1)
          (zooming.start_lower_left, zooming.start_upper_right) := by
        rw [bounds_map.subscript, hprev]; rfl
      rw [hsub, zoom_and_re_center_eq_inplace]
      obtain ⟨j, rfl⟩ : ∃ j, k1 = j + 1 := ⟨k1 - 1, by omega⟩
      rfl
    · rw [bounds_map_find_assign_other _ _ _ _ hki]
      exact h k1 (by omega)

/-- Claim C5. For every key `k < zoom_steps` the viewport that `get_bounds`
stores under `k` is the viewport after `k` calls of
`zoom_and_re_center_inplace` from the start viewport, and one call of the pure
variant equals one call of the in-place variant. -/
theorem get_bounds_eq_inplace_iter (zooming : FractalZooming) (k : Nat)
    (hk : k < zooming.zoom_steps) :
    (get_bounds zooming).find k
        = some (zoom_inplace_iter zooming k
          (zooming.start_lower_left, zooming.start_upper_right)) ∧
      ∀ lower_left upper_right : complex_t,
        zoom_and_re_center lower_left upper_right zooming
          = zoom_and_re_center_inplace (lower_left, upper_right) zooming := by
  refine ⟨?_, fun _ _ => rfl⟩
  unfold get_bounds
  apply get_bounds_loop_find zooming (zooming.zoom_steps - 1) 1 _ (le_refl 1) _ k (by omega)
  intro k1 hk1
  have h0 : k1 = 0 := by omega
  subst h0
  rw [bounds_map_find_assign_self]
  rfl

/-- In exact arithmetic, with `zoom = 1` and `zoom_center` the midpoint of the
viewport, `zoom_and_re_center` returns the viewport's own corners. -/
theorem zoom_and_re_center_identity (lower_left upper_right : complex_t)
    (zooming : FractalZooming) (hzoom : zooming.zoom = 1)
    (hcenter : zooming.zoom_center
      = ⟨(lower_left.real + upper_right.real) / 2, (lower_left.imag + upper_right.imag) / 2⟩) :
    zoom_and_re_center lower_left upper_right zooming = (lower_left, upper_right) := by
  obtain ⟨a, b⟩ := lower_left
  obtain ⟨c, d⟩ := upper_right
  simp only [zoom_and_re_center, complex_t.scale, complex_t.add, complex_t.sub, hzoom, hcenter,
    Prod.mk.injEq, complex_t.mk.injEq]
  refine ⟨⟨?_, ?_⟩, ⟨?_, ?_⟩⟩ <;> ring

/-- Witness of `zoom_and_re_center_identity` at the viewport
`(-2 - 1.5i, 1 + 1.5i)`, whose midpoint is `-0.5 + 0i`. -/
theorem zoom_and_re_center_identity_witness :
    zoom_and_re_center ⟨-2, -3 / 2⟩ ⟨1, 3 / 2⟩
      ⟨⟨-2, -3 / 2⟩, ⟨1, 3 / 2⟩, 1, 1,
        ⟨((-2 : ℚ) + 1) / 2, ((-3 / 2 : ℚ) + 3 / 2) / 2⟩, SaveImage.No, []⟩
      = (⟨-2, -3 / 2⟩, ⟨1, 3 / 2⟩) :=
  zoom_and_re_center_identity ⟨-2, -3 / 2⟩ ⟨1, 3 / 2⟩
    ⟨⟨-2, -3 / 2⟩, ⟨1, 3 / 2⟩, 1, 1,
      ⟨((-2 : ℚ) + 1) / 2, ((-3 / 2 : ℚ) + 3 / 2) / 2⟩, SaveImage.No, []⟩ rfl rfl

/-- One in-place zoom step with a positive factor keeps the corner
ordering. -/
theorem zoom_and_re_center_inplace_ordered (v : viewport) (zooming : FractalZooming)
    (hzoom : 0 < zooming.zoom) (hv : ordered v) :
    ordered (zoom_and_re_center_inplace v zooming) := by
  obtain ⟨h1, h2⟩ := hv
  simp only [ordered, zoom_and_re_center_inplace, complex_t.scale, complex_t.add,
    complex_t.sub]
  constructor
  · have := mul_lt_mul_of_pos_right h1 hzoom
    linarith
  · have := mul_lt_mul_of_pos_right h2 hzoom
    linarith

/-- In exact arithmetic, for a viewport with `lower_left < upper_right` on both
axes and a zoom factor `> 0`, the viewport produced by `zoom_and_re_center`,
the one produced by `zoom_and_re_center_inplace`, and every viewport reached
after any number of steps again have `lower_left < upper_right` on both
axes. -/
theorem zoom_preserves_ordering (lower_left upper_right : complex_t)
    (zooming : FractalZooming) (hreal : lower_left.real < upper_right.real)
    (himag : lower_left.imag < upper_right.imag) (hzoom : 0 < zooming.zoom) :
    ordered (zoom_and_re_center lower_left upper_right zooming) ∧
    ordered (zoom_and_re_center_inplace (lower_left, upper_right) zooming) ∧
    ∀ k : Nat, ordered (zoom_inplace_iter zooming k (lower_left, upper_right)) := by
  have h0 : ordered (lower_left, upper_right) := ⟨hreal, himag⟩
  refine ⟨?_, zoom_and_re_center_inplace_ordered _ zooming hzoom h0, ?_⟩
  · rw [zoom_and_re_center_eq_inplace]
    exact zoom_and_re_center_inplace_ordered _ zooming hzoom h0
  · intro k
    induction k with
    | zero => exact h0
    | succ k ih => exact zoom_and_re_center_inplace_ordered _ zooming hzoom ih

/-- Witness of `zoom_preserves_ordering` at the viewport `(-2 - i, 1 + i)`
with zoom factor `1/2` towards `-1 + 0i`. -/
theorem zoom_preserves_ordering_witness :
    ((-2 : ℚ) < 1 ∧ (-1 : ℚ) < 1 ∧ (0 : ℚ) < 1 / 2) ∧
    ordered (zoom_and_re_center ⟨-2, -1⟩ ⟨1, 1⟩
      ⟨⟨-2, -1⟩, ⟨1, 1⟩, 1 / 2, 3, ⟨-1, 0⟩, SaveImage.No, []⟩) :=
  ⟨⟨by norm_num, by norm_num, by norm_num⟩,
    (zoom_preserves_ordering ⟨-2, -1⟩ ⟨1, 1⟩
      ⟨⟨-2, -1⟩, ⟨1, 1⟩, 1 / 2, 3, ⟨-1, 0⟩, SaveImage.No, []⟩
      (by norm_num) (by norm_num) (by norm_num)).1⟩

/-- Witness of `get_bounds_eq_inplace_iter` at key 1 of a run of 3 steps. -/
theorem get_bounds_eq_inplace_iter_witness :
    1 < 3 ∧
    (get_bounds ⟨⟨-2, -1⟩, ⟨1, 1⟩, 1 / 2, 3, ⟨-1, 0⟩, SaveImage.No, []⟩).find 1
      = some (zoom_inplace_iter ⟨⟨-2, -1⟩, ⟨1, 1⟩, 1 / 2, 3, ⟨-1, 0⟩, SaveImage.No, []⟩ 1
          (⟨-2, -1⟩, ⟨1, 1⟩)) :=
  ⟨by decide,
    (get_bounds_eq_inplace_iter ⟨⟨-2, -1⟩, ⟨1, 1⟩, 1 / 2, 3, ⟨-1, 0⟩, SaveImage.No, []⟩ 1
      (by decide)).1⟩

/-! ### Row partitioning -/

/-- The row range of partition `p < task_count` runs from the boundary before
it to the boundary after it. -/
theorem row_range_eq_bounds (height task_count p : Nat) (hp : p < task_count) :
    FracCPU.row_range task_count (height / task_count) (height % task_count) p
      = (partition_bound height task_count p, partition_bound height task_count (p + 1)) := by
  have hdm : task_count * (height / task_count) + height % task_count = height :=
    Nat.div_add_mod height task_count
  simp only [FracCPU.row_range, partition_bound, Prod.mk.injEq]
  constructor
  · rw [if_neg (by omega)]
  · by_cases hlast : p = task_count - 1
    · have h1 : p + 1 = task_count := by omega
      rw [if_pos hlast, if_pos h1, h1]
      exact hdm
    · rw [if_neg hlast, if_neg (by omega)]

/-- The partition boundaries do not decrease. -/
theorem partition_bound_mono (height task_count p : Nat) (hp : p < task_count) :
    partition_bound height task_count p ≤ partition_bound height task_count (p + 1) := by
  have hdm : task_count * (height / task_count) + height % task_count = height :=
    Nat.div_add_mod height task_count
  unfold partition_bound
  rw [if_neg (by omega)]
  split
  · have : p * (height / task_count) ≤ task_count * (height / task_count) :=
      Nat.mul_le_mul_right _ (by omega)
    omega
  · exact Nat.mul_le_mul_right _ (by omega)

/-- The partition boundaries do not decrease, over any distance. -/
theorem partition_bound_le (height task_count : Nat) :
    ∀ (q p : Nat), p ≤ q → q ≤ task_count →
      partition_bound height task_count p ≤ partition_bound height task_count q := by
  intro q
  induction q with
  | zero =>
    intro p hp _
    have h0 : p = 0 := by omega
    rw [h0]
  | succ q ih =>
    intro p hp hq
    by_cases hpq : p = q + 1
    · rw [hpq]
    · exact le_trans (ih p (by omega) (by omega))
        (partition_bound_mono height task_count q (by omega))

/-- Claim C9. For every image height and every `task_count ≥ 1` the row ranges
`[start_p, end_p)` of the partitions `p = 0, ..., task_count - 1` start at row
0, are contiguous (each ends where the next starts), end at row `height`, are
pairwise disjoint, and a row belongs to one of them exactly when it is below
`height`; the last range holds `height / task_count + height % task_count`
rows. -/
theorem row_ranges_partition_rows (height task_count : Nat) (htask : 1 ≤ task_count) :
    (FracCPU.row_range task_count (height / task_count) (height % task_count) 0).1 = 0 ∧
    (∀ p, p < task_count →
      (FracCPU.row_range task_count (height / task_count) (height % task_count) p).1
        ≤ (FracCPU.row_range task_count (height / task_count) (height % task_count) p).2) ∧
    (∀ p, p + 1 < task_count →
      (FracCPU.row_range task_count (height / task_count) (height % task_count) p).2
        = (FracCPU.row_range task_count (height / task_count) (height % task_count)
            (p + 1)).1) ∧
    (FracCPU.row_range task_count (height / task_count) (height % task_count)
      (task_count - 1)).2 = height ∧
    ((FracCPU.row_range task_count (height / task_count) (height % task_count)
        (task_count - 1)).2
      - (FracCPU.row_range task_count (height / task_count) (height % task_count)
        (task_count - 1)).1 = height / task_count + height % task_count) ∧
    (∀ p q y, p < task_count → q < task_count →
      in_row_range height task_count p y → in_row_range height task_count q y → p = q) ∧
    (∀ y, y < height ↔ ∃ p, p < task_count ∧ in_row_range height task_count p y) := by
  have hdm : task_count * (height / task_count) + height % task_count = height :=
    Nat.div_add_mod height task_count
  have hb0 : partition_bound height task_count 0 = 0 := by
    unfold partition_bound
    rw [if_neg (by omega), Nat.zero_mul]
  have hbn : partition_bound height task_count task_count = height := by
    unfold partition_bound
    rw [if_pos rfl]
  have hdisj : ∀ p q y, p < q → q < task_count →
      in_row_range height task_count p y → in_row_range height task_count q y → False := by
    intro p q y hpq hq hp1 hq1
    unfold in_row_range at hp1 hq1
    rw [row_range_eq_bounds height task_count p (by omega)] at hp1
    rw [row_range_eq_bounds height task_count q hq] at hq1
    have := partition_bound_le height task_count q (p + 1) (by omega) (by omega)
    simp only at hp1 hq1
    omega
  have hcover : ∀ n, n ≤ task_count → ∀ y, y < partition_bound height task_count n →
      ∃ p, p < n ∧ in_row_range height task_count p y := by
    intro n
    induction n with
    | zero => intro _ y hy; rw [hb0] at hy; omega
    | succ n ih =>
      intro hn y hy
      by_cases hlow : y < partition_bound height task_count n
      · obtain ⟨p, hp, hin⟩ := ih (by omega) y hlow
        exact ⟨p, by omega, hin⟩
      · refine ⟨n, by omega, ?_⟩
        unfold in_row_range
        rw [row_range_eq_bounds height task_count n (by omega)]
        simp only
        omega
  refine ⟨?_, ?_, ?_, ?_, ?_, ?_, ?_⟩
  · rw [row_range_eq_bounds height task_count 0 (by omega)]
    exact hb0
  · intro p hp
    rw [row_range_eq_bounds height task_count p hp]
    exact partition_bound_mono height task_count p hp
  · intro p hp
    rw [row_range_eq_bounds height task_count p (by omega),
      row_range_eq_bounds height task_count (p + 1) hp]
  · rw [row_range_eq_bounds height task_count (task_count - 1) (by omega),
      Nat.sub_add_cancel htask]
    exact hbn
  · simp only [FracCPU.row_range, if_true]
    rw [Nat.add_mul, Nat.one_mul, Nat.add_assoc, Nat.add_sub_cancel_left]
  · intro p q y hp hq hp1 hq1
    rcases Nat.lt_trichotomy p q with h | h | h
    · exact (hdisj p q y h hq hp1 hq1).elim
    · exact h
    · exact (hdisj q p y h hp hq1 hp1).elim
  · intro y
    constructor
    · intro hy
      exact hcover task_count (le_refl _) y (by rw [hbn]; exact hy)
    · rintro ⟨p, hp, hin⟩
      unfold in_row_range at hin
      rw [row_range_eq_bounds height task_count p hp] at hin
      have := partition_bound_le height task_count task_count (p + 1) (by omega) (le_refl _)
      rw [hbn] at this
      simp only at hin
      omega

/-- Witness of `row_ranges_partition_rows` at 10 rows and 4 tasks: the ranges
are `[0,2)`, `[2,4)`, `[4,6)`, `[6,10)`; the last range ends at row 10. -/
theorem row_ranges_partition_rows_witness :
    1 ≤ 4 ∧ (FracCPU.row_range 4 (10 / 4) (10 % 4) (4 - 1)).2 = 10 :=
  ⟨by decide, (row_ranges_partition_rows 10 4 (by decide)).2.2.2.1⟩

/-! ### Counted loops -/

/-- A counted loop over `[a, c)` is the loop over `[a, b)` followed by the
loop over `[b, c)`. -/
theorem for_range_split {σ : Type} (a b c : Nat) (f : Nat → σ → Option σ) (s : σ)
    (hab : a ≤ b) (hbc : b ≤ c) :
    for_range a c f s = (for_range a b f s).bind (for_range b c f) := by
  unfold for_range
  have hlist : List.range' a (c - a) = List.range' a (b - a) ++ List.range' b (c - b) := by
    have h := List.range'_append_1 a (b - a) (c - b)
    rw [show a + (b - a) = b by omega, show c - b + (b - a) = c - a by omega] at h
    exact h.symm
  rw [hlist, List.foldlM_append]
  rfl

/-- A counted loop over an empty range leaves the state as it is. -/
theorem for_range_empty {σ : Type} (a : Nat) (f : Nat → σ → Option σ) (s : σ) :
    for_range a a f s = some s := by
  unfold for_range
  rw [Nat.sub_self]
  rfl

/-- A counted loop over one index runs the body once. -/
theorem for_range_one {σ : Type} (a : Nat) (f : Nat → σ → Option σ) (s : σ) :
    for_range a (a + 1) f s = f a s := by
  unfold for_range
  rw [show a + 1 - a = 1 by omega]
  show (f a s).bind (fun s1 => some s1) = f a s
  cases f a s <;> rfl

/-- Two bodies that agree on the indices of the range give the same loop. -/
theorem for_range_congr {σ : Type} (a b : Nat) (f g : Nat → σ → Option σ)
    (h : ∀ k, a ≤ k → k < b → f k = g k) (s : σ) :
    for_range a b f s = for_range a b g s := by
  unfold for_range
  have hmem : ∀ k ∈ List.range' a (b - a), f k = g k := by
    intro k hk
    rw [List.mem_range'_1] at hk
    exact h k hk.1 (by omega)
  generalize List.range' a (b - a) = l at hmem
  induction l generalizing s with
  | nil => rfl
  | cons k l ih =>
    rw [List.foldlM_cons, List.foldlM_cons, hmem k (List.mem_cons_self k l)]
    cases g k s with
    | none => rfl
    | some s1 => exact ih s1 (fun j hj => hmem j (List.mem_cons_of_mem k hj))

/-- Consecutive loops over the ranges `[e p, e (p + 1))`, `p < n`, make up the
loop over `[e 0, e n)`. -/
theorem for_range_chain {σ : Type} (e : Nat → Nat) (f : Nat → σ → Option σ) :
    ∀ (n : Nat), (∀ p, p < n → e p ≤ e (p + 1)) → ∀ s : σ,
      for_range 0 n (fun p s1 => for_range (e p) (e (p + 1)) f s1) s
        = for_range (e 0) (e n) f s := by
  intro n
  induction n with
  | zero => intro _ s; rw [for_range_empty, for_range_empty]
  | succ n ih =>
    intro hmono s
    have hle : ∀ m, m ≤ n → e 0 ≤ e m := by
      intro m
      induction m with
      | zero => intro _; exact le_refl _
      | succ m ihm => intro hm; exact le_trans (ihm (by omega)) (hmono m (by omega))
    rw [for_range_split 0 n (n + 1) _ s (Nat.zero_le n) (Nat.le_succ n),
      ih (fun p hp => hmono p (by omega)) s,
      for_range_split (e 0) (e n) (e (n + 1)) f s (hle n (le_refl n)) (hmono n (by omega))]
    congr 1
    funext s1
    rw [for_range_one]

/-! ### Row partitioning does not change a rendered frame -/

/-- With `task_count ≥ 1` the partition loop fills the rows `0, ..., height - 1`
once each, in ascending order: it is the row loop over the whole frame. -/
theorem fill_partitions_eq_fill_rows (self : FracCPU) (task_count : Nat)
    (htask : 1 ≤ task_count) (image : frame_t) (zooming : FractalZooming)
    (lower_left : complex_t) (scale : ℚ × ℚ) :
    self.fill_partitions task_count image zooming lower_left scale
      = self.fill_rows 0 self._image_height image zooming lower_left scale := by
  have hb0 : partition_bound self._image_height task_count 0 = 0 := by
    unfold partition_bound
    rw [if_neg (by omega), Nat.zero_mul]
  have hbn : partition_bound self._image_height task_count task_count
      = self._image_height := by
    unfold partition_bound
    rw [if_pos rfl]
  unfold FracCPU.fill_partitions FracCPU.fill_rows
  rw [for_range_congr 0 task_count _
    (fun p s1 => for_range (partition_bound self._image_height task_count p)
      (partition_bound self._image_height task_count (p + 1))
      (fun y image => self.fill_row y image zooming lower_left scale) s1)
    (fun p _ hp => by
      funext s1
      simp only [FracCPU.fill_rows]
      rw [row_range_eq_bounds self._image_height task_count p hp]) image,
    for_range_chain (partition_bound self._image_height task_count) _ task_count
      (fun p hp => partition_bound_mono self._image_height task_count p hp) image,
    hb0, hbn]

/-- The frames of `FracCPU_GSLP::execute` do not depend on the task count. -/
theorem GSLP_execute_task_count (self : FracCPU) (task_count : Nat) (htask : 1 ≤ task_count)
    (zooming : FractalZooming) :
    self.GSLP_execute task_count zooming = self.GSLP_execute 1 zooming := by
  have hstep : self.GSLP_step task_count zooming = self.GSLP_step 1 zooming := by
    funext i s
    simp only [FracCPU.GSLP_step, fill_partitions_eq_fill_rows self task_count htask,
      fill_partitions_eq_fill_rows self 1 (le_refl 1)]
  unfold FracCPU.GSLP_execute
  rw [if_neg (by omega), if_neg (by omega), hstep]

/-- The frames of `FracCPU_GPLP::execute` do not depend on the task count. -/
theorem GPLP_execute_task_count (self : FracCPU) (image_count task_count : Nat)
    (htask : 1 ≤ task_count) (zooming : FractalZooming) :
    self.GPLP_execute image_count task_count zooming
      = self.GPLP_execute image_count 1 zooming := by
  have himage : self.GPLP_image task_count zooming = self.GPLP_image 1 zooming := by
    funext bounds j i images
    simp only [FracCPU.GPLP_image, fill_partitions_eq_fill_rows self task_count htask,
      fill_partitions_eq_fill_rows self 1 (le_refl 1)]
  have hbatch : ∀ (bounds : bounds_map) (n j : Nat) (s : batch_state),
      self.GPLP_batch task_count zooming bounds n j s
        = self.GPLP_batch 1 zooming bounds n j s := by
    intro bounds n
    induction n with
    | zero => intro j s; rfl
    | succ n ih =>
      intro j s
      rw [FracCPU.GPLP_batch, FracCPU.GPLP_batch, himage]
      split
      · rfl
      · congr 1
        funext images1
        exact ih _ _
  have hwhile : ∀ (bounds : bounds_map) (n : Nat) (s : batch_state),
      self.GPLP_while image_count task_count zooming bounds n s
        = self.GPLP_while image_count 1 zooming bounds n s := by
    intro bounds n
    induction n with
    | zero => intro s; rfl
    | succ n ih =>
      intro s
      rw [FracCPU.GPLP_while, FracCPU.GPLP_while, hbatch]
      split
      · congr 1
        funext s1
        exact ih s1
      · rfl
  unfold FracCPU.GPLP_execute
  rw [if_neg (by omega), if_neg (by omega), hwhile]

/-! ### A rendered frame does not depend on the buffer it is rendered into -/

/-- Agreement on a larger set of indices gives agreement on a smaller one. -/
theorem agree_result_weaken (L : Nat) (P Q : Nat → Prop) (h : ∀ i, Q i → P i)
    (x y : Option frame_t) (hxy : agree_result L P x y) : agree_result L Q x y := by
  cases x with
  | none =>
    cases y with
    | none => exact True.intro
    | some b => exact hxy.elim
  | some a =>
    cases y with
    | none => exact hxy.elim
    | some b => exact ⟨hxy.1, hxy.2.1, fun i hi => hxy.2.2 i (h i hi)⟩

/-- Sequencing of two fills that keep agreement. -/
theorem agree_result_bind (L : Nat) (P Q : Nat → Prop) (x y : Option frame_t)
    (f g : frame_t → Option frame_t) (hxy : agree_result L P x y)
    (hfg : ∀ a b, agree L P a b → agree_result L Q (f a) (g b)) :
    agree_result L Q (x.bind f) (y.bind g) := by
  cases x with
  | none =>
    cases y with
    | none => exact True.intro
    | some b => exact hxy.elim
  | some a =>
    cases y with
    | none => exact hxy.elim
    | some b => exact hfg a b hxy

/-- The same store into two agreeing buffers: the buffers then agree at the
stored index too. -/
theorem store_agree (L : Nat) (P : Nat → Prop) (a b : frame_t) (idx : Nat) (v : pixel_t)
    (h : agree L P a b) :
    agree_result L (fun i => P i ∨ i = idx) (store a idx v) (store b idx v) := by
  obtain ⟨ha, hb, hP⟩ := h
  unfold store
  by_cases hidx : idx < L
  · rw [if_pos (by omega), if_pos (by omega)]
    refine ⟨by rw [List.length_set]; exact ha, by rw [List.length_set]; exact hb, ?_⟩
    intro i hi
    rw [List.get?_eq_getElem?, List.get?_eq_getElem?, List.getElem?_set, List.getElem?_set]
    by_cases hii : idx = i
    · rw [if_pos hii, if_pos hii, if_pos (by omega), if_pos (by omega)]
    · rw [if_neg hii, if_neg hii]
      rcases hi with hi | hi
      · have := hP i hi
        rwa [List.get?_eq_getElem?, List.get?_eq_getElem?] at this
      · exact (hii hi.symm).elim
  · rw [if_neg (by omega), if_neg (by omega)]
    trivial

/-- The same run of colour stores into two agreeing buffers. -/
theorem store_colors_agree (L : Nat) (zooming : FractalZooming) (base_idx : Nat) :
    ∀ (l : List Nat) (off : Nat) (P : Nat → Prop) (a b : frame_t), agree L P a b →
      agree_result L
        (fun i => P i ∨ (base_idx + off ≤ i ∧ i < base_idx + off + l.length))
        (FracCPU.store_colors zooming base_idx l off a)
        (FracCPU.store_colors zooming base_idx l off b) := by
  intro l
  induction l with
  | nil =>
    intro off P a b h
    exact ⟨h.1, h.2.1, fun i hi => by
      rcases hi with hi | hi
      · exact h.2.2 i hi
      · simp only [List.length_nil, Nat.add_zero] at hi
        omega⟩
  | cons e l ih =>
    intro off P a b h
    rw [FracCPU.store_colors, FracCPU.store_colors]
    cases FracCPU.get_color e zooming with
    | none => trivial
    | some col =>
      simp only [Option.bind]
      apply agree_result_bind L _ _ _ _ _ _ (store_agree L P a b (base_idx + off) col h)
      intro a1 b1 h1
      apply agree_result_weaken L _ _ _ _ _ (ih (off + 1) _ a1 b1 h1)
      intro i hi
      rw [List.length_cons] at hi
      by_cases hi1 : i = base_idx + off
      · exact Or.inl (Or.inr hi1)
      · rcases hi with hi | hi
        · exact Or.inl (Or.inl hi)
        · exact Or.inr (by omega)

/-- The inner loop of `mandelbrot_avx_multiple` keeps the length of `result`. -/
theorem mandelbrot_avx_multiple_inner_length (ext : FracUseCPUExt) (ITER : Nat) (B : ℚ)
    (c_real c_imag : List m256) (i : Nat) :
    ∀ (n j : Nat) (s : avx_multiple_state),
      (flow_result (mandelbrot_avx_multiple_inner ext ITER B c_real c_imag i n j s)).length
        = s.result.length := by
  intro n
  induction n with
  | zero => intro j s; rw [mandelbrot_avx_multiple_inner]; rfl
  | succ n ih =>
    intro j s
    rw [mandelbrot_avx_multiple_inner]
    have hlen := record_lanes_length ITER B i (j * 8)
      (avx_arith ext (reg c_real j) (reg c_imag j) (reg s.z_real j) (reg s.z_imag j)).2.2
      s.result
    split
    · exact hlen
    · rw [ih]
      exact hlen

/-- The outer loop of `mandelbrot_avx_multiple` keeps the length of `result`. -/
theorem mandelbrot_avx_multiple_loop_length (ext : FracUseCPUExt) (ITER : Nat) (B : ℚ)
    (size : Nat) (c_real c_imag : List m256) :
    ∀ (n i : Nat) (s : avx_multiple_state),
      (mandelbrot_avx_multiple_loop ext ITER B size c_real c_imag n i s).length
        = s.result.length := by
  intro n
  induction n with
  | zero => intro i s; rw [mandelbrot_avx_multiple_loop]
  | succ n ih =>
    intro i s
    rw [mandelbrot_avx_multiple_loop]
    have h := mandelbrot_avx_multiple_inner_length ext ITER B c_real c_imag i size 0 s
    cases hflow : mandelbrot_avx_multiple_inner ext ITER B c_real c_imag i size 0 s with
    | returned r =>
      rw [hflow] at h
      exact h
    | running s1 =>
      rw [hflow] at h
      show (mandelbrot_avx_multiple_loop ext ITER B size c_real c_imag n (i + 1) s1).length
        = s.result.length
      rw [ih]
      exact h

/-- The grouped kernel returns `size * 8` entries. -/
theorem mandelbrot_avx_multiple_length (ext : FracUseCPUExt) (ITER : Nat) (B : ℚ)
    (size : Nat) (c_real c_imag : List m256) :
    (mandelbrot_avx_multiple ext ITER B size c_real c_imag).length = size * 8 := by
  unfold mandelbrot_avx_multiple
  rw [mandelbrot_avx_multiple_loop_length, List.length_replicate]

/-- One pass of the vector loop of `fill_row` at column `x < _image_width`,
run on two agreeing buffers: the buffers then agree on the columns from `x` up
to the next column of the loop (or the end of the row). -/
theorem fill_vector_step_agree (self : FracCPU) (L x y : Nat) (zooming : FractalZooming)
    (lower_left : complex_t) (scale : ℚ × ℚ) (hx : x < self._image_width)
    (P : Nat → Prop) (a b : frame_t) (h : agree L P a b) :
    agree_result L
      (fun i => P i ∨ (y * self._image_width + x ≤ i ∧
        i < y * self._image_width + x + 8 * self.pixels_size ∧
        i < y * self._image_width + self._image_width))
      (if self.pixels_size = 1 then self.fill_8_pixels x y a zooming lower_left scale
        else self.fill_pixels self.pixels_size x y a zooming lower_left scale)
      (if self.pixels_size = 1 then self.fill_8_pixels x y b zooming lower_left scale
        else self.fill_pixels self.pixels_size x y b zooming lower_left scale) := by
  by_cases hps : self.pixels_size = 1
  · rw [if_pos hps, if_pos hps]
    unfold FracCPU.fill_8_pixels
    simp only []
    apply agree_result_weaken L _ _ _ _ _ (store_colors_agree L zooming _ _ 0 P a b h)
    intro i hi
    rcases hi with hi | hi
    · exact Or.inl hi
    · right
      simp only [FracCPU.mandelbrot_avx, (mandelbrot_avx_range _ _ _ _ _).1]
      omega
  · rw [if_neg hps, if_neg hps]
    unfold FracCPU.fill_pixels
    simp only []
    apply agree_result_weaken L _ _ _ _ _ (store_colors_agree L zooming _ _ 0 P a b h)
    intro i hi
    rcases hi with hi | hi
    · exact Or.inl hi
    · right
      simp only [FracCPU.mandelbrot_avx_multiple, List.length_take,
        mandelbrot_avx_multiple_length]
      split
      · omega
      · omega

/-- The vector loop of `fill_row` from column `x` on, run on two agreeing
buffers: the buffers then agree on the columns `x, ..., _image_width - 1` of
row `y`. -/
theorem fill_row_avx_loop_agree (self : FracCPU) (L y : Nat) (zooming : FractalZooming)
    (lower_left : complex_t) (scale : ℚ × ℚ) :
    ∀ (n x : Nat) (P : Nat → Prop) (a b : frame_t), agree L P a b →
      agree_result L
        (fun i => P i ∨ (y * self._image_width + x ≤ i ∧
          i < y * self._image_width + self._image_width))
        (self.fill_row_avx_loop y zooming lower_left scale n x a)
        (self.fill_row_avx_loop y zooming lower_left scale n x b) := by
  intro n
  induction n with
  | zero =>
    intro x P a b h
    rw [FracCPU.fill_row_avx_loop, FracCPU.fill_row_avx_loop]
    by_cases hx : x < self._image_width
    · rw [if_pos hx, if_pos hx]
      exact True.intro
    · rw [if_neg hx, if_neg hx]
      exact ⟨h.1, h.2.1, fun i hi => by
        rcases hi with hi | hi
        · exact h.2.2 i hi
        · omega⟩
  | succ n ih =>
    intro x P a b h
    rw [FracCPU.fill_row_avx_loop, FracCPU.fill_row_avx_loop]
    by_cases hx : x < self._image_width
    · rw [if_pos hx, if_pos hx]
      apply agree_result_bind L _ _ _ _ _ _
        (fill_vector_step_agree self L x y zooming lower_left scale hx P a b h)
      intro a1 b1 h1
      apply agree_result_weaken L _ _ _ _ _ (ih (x + 8 * self.pixels_size) _ a1 b1 h1)
      intro i hi
      rcases hi with hi | hi
      · exact Or.inl (Or.inl hi)
      · by_cases hnext : i < y * self._image_width + x + 8 * self.pixels_size
        · exact Or.inl (Or.inr ⟨hi.1, hnext, hi.2⟩)
        · exact Or.inr ⟨by omega, hi.2⟩
    · rw [if_neg hx, if_neg hx]
      exact ⟨h.1, h.2.1, fun i hi => by
        rcases hi with hi | hi
        · exact h.2.2 i hi
        · omega⟩

/-- A fold of fills over a list of indices, run on two agreeing buffers. -/
theorem foldlM_agree (L : Nat) (C : Nat → Nat → Prop) (f : Nat → frame_t → Option frame_t)
    (hf : ∀ (k : Nat) (P : Nat → Prop) (a b : frame_t), agree L P a b →
      agree_result L (fun i => P i ∨ C k i) (f k a) (f k b)) :
    ∀ (l : List Nat) (P : Nat → Prop) (a b : frame_t), agree L P a b →
      agree_result L (fun i => P i ∨ ∃ k, k ∈ l ∧ C k i)
        (l.foldlM (fun s k => f k s) a) (l.foldlM (fun s k => f k s) b) := by
  intro l
  induction l with
  | nil =>
    intro P a b h
    exact ⟨h.1, h.2.1, fun i hi => by
      rcases hi with hi | ⟨k, hk, _⟩
      · exact h.2.2 i hi
      · exact (List.not_mem_nil k hk).elim⟩
  | cons k l ih =>
    intro P a b h
    rw [List.foldlM_cons, List.foldlM_cons]
    apply agree_result_bind L _ _ _ _ _ _ (hf k P a b h)
    intro a1 b1 h1
    apply agree_result_weaken L _ _ _ _ _ (ih _ a1 b1 h1)
    intro i hi
    rcases hi with hi | ⟨k1, hk1, hc⟩
    · exact Or.inl (Or.inl hi)
    · rcases List.mem_cons.mp hk1 with hk2 | hk2
      · rw [hk2] at hc
        exact Or.inl (Or.inr hc)
      · exact Or.inr ⟨k1, hk2, hc⟩

/-- A counted loop of fills, run on two agreeing buffers. -/
theorem for_range_agree (L : Nat) (C : Nat → Nat → Prop) (f : Nat → frame_t → Option frame_t)
    (lo hi : Nat)
    (hf : ∀ (k : Nat) (P : Nat → Prop) (a b : frame_t), agree L P a b →
      agree_result L (fun i => P i ∨ C k i) (f k a) (f k b))
    (P : Nat → Prop) (a b : frame_t) (h : agree L P a b) :
    agree_result L (fun i => P i ∨ ∃ k, lo ≤ k ∧ k < hi ∧ C k i)
      (for_range lo hi f a) (for_range lo hi f b) := by
  unfold for_range
  apply agree_result_weaken L _ _ _ _ _ (foldlM_agree L C f hf _ P a b h)
  intro i hi1
  rcases hi1 with hi1 | ⟨k, hk1, hk2, hc⟩
  · exact Or.inl hi1
  · exact Or.inr ⟨k, List.mem_range'_1.mpr ⟨hk1, by omega⟩, hc⟩

/-- The method `fill_row` on row `y`, run on two agreeing buffers: the buffers
then agree on the whole row `y`. -/
theorem fill_row_agree (self : FracCPU) (L y : Nat) (zooming : FractalZooming)
    (lower_left : complex_t) (scale : ℚ × ℚ) (P : Nat → Prop) (a b : frame_t)
    (h : agree L P a b) :
    agree_result L
      (fun i => P i ∨ (y * self._image_width ≤ i ∧
        i < y * self._image_width + self._image_width))
      (self.fill_row y a zooming lower_left scale)
      (self.fill_row y b zooming lower_left scale) := by
  have hvec := fill_row_avx_loop_agree self L y zooming lower_left scale
    self._image_width 0 P a b h
  unfold FracCPU.fill_row
  cases hext : self.cpu_ext with
  | None =>
    simp only []
    apply agree_result_weaken L _ _ _ _ _
      (for_range_agree L (fun x i => i = y * self._image_width + x) _ 0 self._image_width
        (fun x P1 a1 b1 h1 => by
          simp only []
          cases FracCPU.get_color
            (self.mandelbrot (self.idx_to_complex x y lower_left scale)) zooming with
          | none => exact True.intro
          | some col => exact store_agree L P1 a1 b1 _ col h1) P a b h)
    intro i hi
    rcases hi with hi | hi
    · exact Or.inl hi
    · exact Or.inr ⟨i - y * self._image_width, Nat.zero_le _, by omega, by omega⟩
  | AVX => exact hvec
  | AVX_FMA => exact hvec

/-- Rendering all rows into two buffers of the length of a frame gives the
same outcome: the frame rendered does not depend on what the buffer held. -/
theorem fill_rows_buffer_independent (self : FracCPU) (zooming : FractalZooming)
    (lower_left : complex_t) (scale : ℚ × ℚ) (a b : frame_t)
    (ha : a.length = self._image_width * self._image_height)
    (hb : b.length = self._image_width * self._image_height) :
    self.fill_rows 0 self._image_height a zooming lower_left scale
      = self.fill_rows 0 self._image_height b zooming lower_left scale := by
  have h0 : agree (self._image_width * self._image_height) (fun _ => False) a b :=
    ⟨ha, hb, fun _ hi => hi.elim⟩
  have h := for_range_agree (self._image_width * self._image_height)
    (fun y i => y * self._image_width ≤ i ∧ i < y * self._image_width + self._image_width)
    (fun y image => self.fill_row y image zooming lower_left scale) 0 self._image_height
    (fun y P1 a1 b1 h1 => fill_row_agree self _ y zooming lower_left scale P1 a1 b1 h1)
    _ a b h0
  unfold FracCPU.fill_rows
  revert h
  cases for_range 0 self._image_height
      (fun y image => self.fill_row y image zooming lower_left scale) a with
  | none =>
    cases for_range 0 self._image_height
        (fun y image => self.fill_row y image zooming lower_left scale) b with
    | none => intro _; rfl
    | some b1 => intro h; exact h.elim
  | some a1 =>
    cases for_range 0 self._image_height
        (fun y image => self.fill_row y image zooming lower_left scale) b with
    | none => intro h; exact h.elim
    | some b1 =>
      intro h
      obtain ⟨hla, hlb, hP⟩ := h
      congr 1
      apply List.ext_get?
      intro i
      by_cases hi : i < self._image_width * self._image_height
      · apply hP i
        right
        have hw : 0 < self._image_width := by
          rcases Nat.eq_zero_or_pos self._image_width with h0 | h0
          · rw [h0, Nat.zero_mul] at hi; omega
          · exact h0
        refine ⟨i / self._image_width, Nat.zero_le _, ?_, Nat.div_mul_le_self _ _, ?_⟩
        · exact Nat.div_lt_of_lt_mul hi
        · have h1 := Nat.div_add_mod i self._image_width
          have h2 := Nat.mod_lt i hw
          rw [Nat.mul_comm] at h1
          omega
      · rw [List.get?_eq_none.mpr (by omega), List.get?_eq_none.mpr (by omega)]

/-- A rendered frame has the length of the buffer it was rendered into. -/
theorem fill_rows_length (self : FracCPU) (zooming : FractalZooming)
    (lower_left : complex_t) (scale : ℚ × ℚ) (a a1 : frame_t)
    (h : self.fill_rows 0 self._image_height a zooming lower_left scale = some a1) :
    a1.length = a.length := by
  have h0 : agree a.length (fun _ => False) a a := ⟨rfl, rfl, fun _ hi => hi.elim⟩
  have hrel := for_range_agree a.length
    (fun y i => y * self._image_width ≤ i ∧ i < y * self._image_width + self._image_width)
    (fun y image => self.fill_row y image zooming lower_left scale) 0 self._image_height
    (fun y P1 a1 b1 h1 => fill_row_agree self _ y zooming lower_left scale P1 a1 b1 h1)
    _ a a h0
  unfold FracCPU.fill_rows at h
  rw [h] at hrel
  exact hrel.1

/-- A key among the first components of an association list is found, with a
value it is listed with. -/
theorem lookup_of_mem_keys (l : frames_t) (k : Nat) (h : k ∈ l.map Prod.fst) :
    ∃ f, l.lookup k = some f ∧ (k, f) ∈ l := by
  induction l with
  | nil => exact (List.not_mem_nil k h).elim
  | cons e l ih =>
    obtain ⟨k0, f0⟩ := e
    by_cases hk : k = k0
    · subst hk
      exact ⟨f0, by simp [List.lookup], List.mem_cons_self _ _⟩
    · have hne : (k == k0) = false := by simpa using hk
      rw [List.map_cons, List.mem_cons] at h
      rcases h with h | h
      · exact (hk h).elim
      · obtain ⟨f, hf1, hf2⟩ := ih h
        exact ⟨f, by simp only [List.lookup, hne]; exact hf1, List.mem_cons_of_mem _ hf2⟩

/-- The task of `FracCPU_GPLS::execute` for step `i` puts the frame of step `i`
into `images[t]`, whatever the buffer held. -/
theorem GPLS_task_eq_render (self : FracCPU) (zooming : FractalZooming) (bounds : bounds_map)
    (t i : Nat) (images : List frame_t) (ht : t < images.length)
    (hlen : ∀ img, img ∈ images → img.length = self._image_width * self._image_height) :
    self.GPLS_task zooming bounds t i images
      = (render_step self zooming bounds i).map fun f => images.set t f := by
  unfold FracCPU.GPLS_task render_step
  rw [List.get?_eq_getElem?, List.getElem?_eq_getElem ht]
  simp only [Option.bind]
  rw [fill_rows_buffer_independent self zooming _ _ images[t]
    (List.replicate (self._image_width * self._image_height) pixel_t.zero)
    (hlen _ (List.getElem_mem _)) (List.length_replicate _ _)]

/-- The batch loop of `FracCPU_GPLS::execute` keeps the invariant. -/
theorem GPLS_batch_inv (self : FracCPU) (zooming : FractalZooming) (bounds : bounds_map) :
    ∀ (n t : Nat) (s s1 : batch_state), t + n ≤ s.images.length →
      batch_inv self zooming bounds s →
      self.GPLS_batch zooming bounds n t s = some s1 →
      batch_inv self zooming bounds s1 ∧ s1.images.length = s.images.length := by
  intro n
  induction n with
  | zero =>
    intro t s s1 _ hinv h
    rw [FracCPU.GPLS_batch] at h
    cases h
    exact ⟨hinv, rfl⟩
  | succ n ih =>
    intro t s s1 ht hinv h
    rw [FracCPU.GPLS_batch] at h
    by_cases hbreak : s.i > zooming.zoom_steps
    · rw [if_pos hbreak] at h
      cases h
      exact ⟨hinv, rfl⟩
    · rw [if_neg hbreak, GPLS_task_eq_render self zooming bounds t s.i s.images (by omega)
        hinv.1] at h
      cases hr : render_step self zooming bounds s.i with
      | none => rw [hr] at h; cases h
      | some f =>
        rw [hr] at h
        simp only [Option.map, Option.bind] at h
        have hf : f.length = self._image_width * self._image_height := by
          have := fill_rows_length self zooming _ _ _ f hr
          rw [this, List.length_replicate]
        have hget : (s.images.set t f).getD t [] = f := by
          rw [List.getD_eq_getElem _ _ (by rw [List.length_set]; omega), List.getElem_set_self]
        rw [hget] at h
        have hnext := ih (t + 1) _ s1 (by simp only [List.length_set]; omega) ?_ h
        · exact ⟨hnext.1, by rw [hnext.2, List.length_set]⟩
        · refine ⟨?_, ?_, ?_⟩
          · intro img himg
            rcases List.mem_or_eq_of_mem_set himg with h1 | h1
            · exact hinv.1 img h1
            · rw [h1]; exact hf
          · show (s.frames ++ [(s.i, f)]).map Prod.fst = List.range (s.i + 1)
            rw [List.map_append, hinv.2.1, List.range_succ]
            rfl
          · intro k f1 hmem
            rcases List.mem_append.mp hmem with h1 | h1
            · exact hinv.2.2 k f1 h1
            · rw [List.mem_singleton] at h1
              cases h1
              exact hr

/-- The `while` loop of `FracCPU_GPLS::execute` keeps the invariant and ends
with `i ≥ zoom_steps`. -/
theorem GPLS_while_inv (self : FracCPU) (task_count : Nat) (zooming : FractalZooming)
    (bounds : bounds_map) :
    ∀ (n : Nat) (s s1 : batch_state), s.images.length = task_count →
      batch_inv self zooming bounds s →
      self.GPLS_while task_count zooming bounds n s = some s1 →
      batch_inv self zooming bounds s1 ∧ zooming.zoom_steps ≤ s1.i := by
  intro n
  induction n with
  | zero =>
    intro s s1 _ hinv h
    rw [FracCPU.GPLS_while] at h
    by_cases hi : s.i < zooming.zoom_steps
    · rw [if_pos hi] at h; cases h
    · rw [if_neg hi] at h
      cases h
      exact ⟨hinv, by omega⟩
  | succ n ih =>
    intro s s1 hlen hinv h
    rw [FracCPU.GPLS_while] at h
    by_cases hi : s.i < zooming.zoom_steps
    · rw [if_pos hi] at h
      cases hb : self.GPLS_batch zooming bounds task_count 0 s with
      | none => rw [hb] at h; cases h
      | some s2 =>
        rw [hb] at h
        have h2 := GPLS_batch_inv self zooming bounds task_count 0 s s2 (by omega) hinv hb
        exact ih s2 s1 (by rw [h2.2]; exact hlen) h2.1 h
    · rw [if_neg hi] at h
      cases h
      exact ⟨hinv, by omega⟩

/-- Every step `k < zoom_steps` of a run of `FracCPU_GPLS::execute` that yields
frames has a frame, and it is the frame of step `k` rendered into a fresh
buffer, whatever the task count. -/
theorem GPLS_execute_frame (self : FracCPU) (task_count : Nat) (zooming : FractalZooming)
    (frames : frames_t) (h : self.GPLS_execute task_count zooming = some frames) (k : Nat)
    (hk : k < zooming.zoom_steps) :
    ∃ f, frames.lookup k = some f ∧
      render_step self zooming (get_bounds zooming) k = some f := by
  unfold FracCPU.GPLS_execute at h
  cases hw : self.GPLS_while task_count zooming (get_bounds zooming) zooming.zoom_steps
      { i := 0,
        images := List.replicate task_count
          (List.replicate (self._image_width * self._image_height) pixel_t.zero),
        frames := [] } with
  | none => rw [hw] at h; cases h
  | some s1 =>
    rw [hw] at h
    simp only [Option.map, Option.some.injEq] at h
    have hinv := GPLS_while_inv self task_count zooming (get_bounds zooming)
      zooming.zoom_steps
      { i := 0,
        images := List.replicate task_count
          (List.replicate (self._image_width * self._image_height) pixel_t.zero),
        frames := [] } s1 (List.length_replicate _ _)
      ⟨fun img himg => by
          rw [List.eq_of_mem_replicate himg, List.length_replicate],
        rfl, fun k f hmem => (List.not_mem_nil _ hmem).elim⟩ hw
    obtain ⟨⟨_, hkeys, hcanon⟩, hend⟩ := hinv
    have hmem : k ∈ s1.frames.map Prod.fst := by
      rw [hkeys, List.mem_range]
      omega
    obtain ⟨f, hf1, hf2⟩ := lookup_of_mem_keys s1.frames k hmem
    rw [← h]
    exact ⟨f, hf1, hcanon k f hf2⟩

/-- For every step `k < zoom_steps`, the frame that `FracCPU_GPLS::execute`
renders for step `k` with any task count is the frame it renders for step `k`
with `task_count = 1`. -/
theorem GPLS_execute_task_count (self : FracCPU) (task_count : Nat)
    (zooming : FractalZooming) (framesN frames1 : frames_t)
    (hN : self.GPLS_execute task_count zooming = some framesN)
    (h1 : self.GPLS_execute 1 zooming = some frames1) (k : Nat)
    (hk : k < zooming.zoom_steps) :
    framesN.lookup k = frames1.lookup k ∧ (framesN.lookup k).isSome = true := by
  obtain ⟨f, hf1, hf2⟩ := GPLS_execute_frame self task_count zooming framesN hN k hk
  obtain ⟨g, hg1, hg2⟩ := GPLS_execute_frame self 1 zooming frames1 h1 k hk
  rw [hf2] at hg2
  cases hg2
  rw [hf1, hg1]
  exact ⟨rfl, rfl⟩

set_option maxHeartbeats 4000000 in
/-- Claim C10, evaluated at a failing input. For the sample zoom specification
of one step on a 2 x 1 image (`FRACTAL_ITER = 50`, `FRACTAL_BOUND = 2`),
`FracCPU_GPLS::execute` with `task_count = 2` renders two frames,
for the step indices 0 and 1 (the batch loop is left only when
`i > zoom_steps`, and the viewport of step 1 is the value-initialised entry of
the map), while with `task_count = 1` it renders the frame of step 0 only: the
frame of step 1 has no counterpart. -/
theorem GPLS_execute_task_count_adds_frame :
    sample_cpu.GPLS_execute 2 sample_zooming
      = some [(0, [⟨0, 0, 0, 0⟩, ⟨0, 0, 0, 0⟩]),
              (1, [⟨249, 249, 249, 0⟩, ⟨249, 249, 249, 0⟩])] ∧
    sample_cpu.GPLS_execute 1 sample_zooming
      = some [(0, [⟨0, 0, 0, 0⟩, ⟨0, 0, 0, 0⟩])] :=
  ⟨by decide!, by decide!⟩

/-! ### Step indices of the frame-parallel strategies -/

set_option maxHeartbeats 4000000 in
/-- Claim C11, evaluated at a failing input. For the sample zoom specification
of `zoom_steps = 1` and a batch size of 2, `FracCPU_GPLS::execute`
(`task_count = 2`) and `FracCPU_GPLP::execute` (`image_count = 2`) both render
the step indices 0 and 1: the step index 1 = `zoom_steps` is dispatched. -/
theorem frame_parallel_dispatches_step_count :
    (sample_cpu_scalar.GPLS_execute 2 sample_zooming).map (List.map Prod.fst)
      = some [0, 1] ∧
    (sample_cpu_scalar.GPLP_execute 2 1 sample_zooming).map (List.map Prod.fst)
      = some [0, 1] :=
  ⟨by decide!, by decide!⟩

/-! ### The early exit of the vectorized kernels -/

/-- The lane loop changes nothing once no entry of `result` holds the sentinel
`FRACTAL_ITER - 1`: a recorded lane is never overwritten. -/
theorem record_lanes_recorded (ITER : Nat) (B : ℚ) (i base : Nat) (mag : m256)
    (result : List Nat) (h : ∀ e ∈ result, e ≠ ITER - 1) :
    record_lanes ITER B i base mag result = result := by
  unfold record_lanes
  generalize List.finRange 8 = l
  induction l with
  | nil => rfl
  | cons k l ih =>
    rw [List.foldl_cons]
    have hstep : (if B < mag.get k ∧ result.getD (base + k.val) 0 = ITER - 1
        then result.set (base + k.val) i else result) = result := by
      split
      · rename_i hc
        by_cases hlt : base + k.val < result.length
        · rw [List.getD_eq_getElem _ _ hlt] at hc
          exact (h _ (List.getElem_mem _) hc.2).elim
        · exact List.set_eq_of_length_le (by omega)
      · rfl
    rw [hstep]
    exact ih

/-- The loop without early exit returns `result` as it is once no entry holds
the sentinel. -/
theorem mandelbrot_avx_loop_no_exit_recorded (ext : FracUseCPUExt) (ITER : Nat) (B : ℚ)
    (c_real c_imag : m256) (result : List Nat) (h : ∀ e ∈ result, e ≠ ITER - 1) :
    ∀ (n i : Nat) (z_real z_imag : m256),
      mandelbrot_avx_loop_no_exit ext ITER B c_real c_imag n i z_real z_imag result
        = result := by
  intro n
  induction n with
  | zero => intro i zr zi; rw [mandelbrot_avx_loop_no_exit]
  | succ n ih =>
    intro i zr zi
    rw [mandelbrot_avx_loop_no_exit]
    simp only [record_lanes_recorded ITER B _ _ _ result h]
    exact ih _ _ _

/-- The inner loop of `mandelbrot_avx_multiple` without early exit leaves
`result` as it is once no entry holds the sentinel. -/
theorem mandelbrot_avx_multiple_inner_no_exit_recorded (ext : FracUseCPUExt) (ITER : Nat)
    (B : ℚ) (c_real c_imag : List m256) (i : Nat) :
    ∀ (n j : Nat) (s : avx_multiple_state), (∀ e ∈ s.result, e ≠ ITER - 1) →
      (mandelbrot_avx_multiple_inner_no_exit ext ITER B c_real c_imag i n j s).result
        = s.result := by
  intro n
  induction n with
  | zero => intro j s _; rw [mandelbrot_avx_multiple_inner_no_exit]
  | succ n ih =>
    intro j s h
    rw [mandelbrot_avx_multiple_inner_no_exit]
    simp only [record_lanes_recorded ITER B _ _ _ s.result h]
    exact ih _ _ h

/-- The outer loop of `mandelbrot_avx_multiple` without early exit returns
`result` as it is once no entry holds the sentinel. -/
theorem mandelbrot_avx_multiple_loop_no_exit_recorded (ext : FracUseCPUExt) (ITER : Nat)
    (B : ℚ) (size : Nat) (c_real c_imag : List m256) :
    ∀ (n i : Nat) (s : avx_multiple_state), (∀ e ∈ s.result, e ≠ ITER - 1) →
      mandelbrot_avx_multiple_loop_no_exit ext ITER B size c_real c_imag n i s
        = s.result := by
  intro n
  induction n with
  | zero => intro i s _; rw [mandelbrot_avx_multiple_loop_no_exit]
  | succ n ih =>
    intro i s h
    rw [mandelbrot_avx_multiple_loop_no_exit]
    have hin := mandelbrot_avx_multiple_inner_no_exit_recorded ext ITER B c_real c_imag i
      size 0 s h
    rw [ih _ _ (by rw [hin]; exact h), hin]

set_option maxHeartbeats 4000000 in
/-- Claim C15, evaluated at a failing input. With `FRACTAL_ITER = 50`,
`FRACTAL_BOUND = 100` and the point `c = 5 + 0i` in every lane, `mandelbrot_avx`
returns the sentinel 49 in every lane: after the first iteration (`|z|² = 25`)
no lane is recorded, but the early-exit test `e < FRACTAL_BOUND - 1` holds for
every entry 49 and the kernel returns. The same loop without the early exit
records 1 in every lane (`z = 30`, `|z|² = 900 > 100` in the second
iteration). The kernel `mandelbrot_avx_multiple<1>` behaves alike. -/
theorem mandelbrot_avx_early_exit_changes_result :
    (∀ ext : FracUseCPUExt,
      mandelbrot_avx ext 50 100 (_mm256_set1_ps 5) (_mm256_set1_ps 0)
        = [49, 49, 49, 49, 49, 49, 49, 49]) ∧
    (∀ ext : FracUseCPUExt,
      mandelbrot_avx_no_exit ext 50 100 (_mm256_set1_ps 5) (_mm256_set1_ps 0)
        = [1, 1, 1, 1, 1, 1, 1, 1]) ∧
    (∀ ext : FracUseCPUExt,
      mandelbrot_avx_multiple ext 50 100 1 [_mm256_set1_ps 5] [_mm256_set1_ps 0]
        = [49, 49, 49, 49, 49, 49, 49, 49]) ∧
    (∀ ext : FracUseCPUExt,
      mandelbrot_avx_multiple_no_exit ext 50 100 1 [_mm256_set1_ps 5] [_mm256_set1_ps 0]
        = [1, 1, 1, 1, 1, 1, 1, 1]) := by
  have hne : ∀ e ∈ [1, 1, 1, 1, 1, 1, 1, 1], e ≠ 50 - 1 := by
    intro e he
    simp only [List.mem_cons, List.mem_singleton, List.not_mem_nil, or_false, or_self] at he
    omega
  refine ⟨?_, ?_, ?_, ?_⟩
  · intro ext
    cases ext <;> decide!
  · intro ext
    have hr : record_lanes 50 100 1 0
        (avx_arith ext (_mm256_set1_ps 5) (_mm256_set1_ps 0)
          (avx_arith ext (_mm256_set1_ps 5) (_mm256_set1_ps 0)
            (_mm256_set1_ps 0) (_mm256_set1_ps 0)).1
          (avx_arith ext (_mm256_set1_ps 5) (_mm256_set1_ps 0)
            (_mm256_set1_ps 0) (_mm256_set1_ps 0)).2.1).2.2
        (record_lanes 50 100 0 0
          (avx_arith ext (_mm256_set1_ps 5) (_mm256_set1_ps 0)
            (_mm256_set1_ps 0) (_mm256_set1_ps 0)).2.2
          (List.replicate 8 49))
        = [1, 1, 1, 1, 1, 1, 1, 1] := by
      cases ext <;> decide!
    show mandelbrot_avx_loop_no_exit ext 50 100 (_mm256_set1_ps 5) (_mm256_set1_ps 0)
      ((48 + 1) + 1) 0 (_mm256_set1_ps 0) (_mm256_set1_ps 0) (List.replicate 8 49)
      = [1, 1, 1, 1, 1, 1, 1, 1]
    rw [mandelbrot_avx_loop_no_exit, mandelbrot_avx_loop_no_exit]
    rw [hr]
    exact mandelbrot_avx_loop_no_exit_recorded ext 50 100 _ _ _ hne _ _ _ _
  · intro ext
    cases ext <;> decide!
  · intro ext
    have hs : (mandelbrot_avx_multiple_inner_no_exit ext 50 100
        [_mm256_set1_ps 5] [_mm256_set1_ps 0] 1 1 0
        (mandelbrot_avx_multiple_inner_no_exit ext 50 100
          [_mm256_set1_ps 5] [_mm256_set1_ps 0] 0 1 0
          { z_real := List.replicate 1 (_mm256_set1_ps 0),
            z_imag := List.replicate 1 (_mm256_set1_ps 0),
            result := List.replicate (1 * 8) 49 })).result
        = [1, 1, 1, 1, 1, 1, 1, 1] := by
      cases ext <;> decide!
    show mandelbrot_avx_multiple_loop_no_exit ext 50 100 1
      [_mm256_set1_ps 5] [_mm256_set1_ps 0] ((48 + 1) + 1) 0
      { z_real := List.replicate 1 (_mm256_set1_ps 0),
        z_imag := List.replicate 1 (_mm256_set1_ps 0),
        result := List.replicate (1 * 8) 49 }
      = [1, 1, 1, 1, 1, 1, 1, 1]
    rw [mandelbrot_avx_multiple_loop_no_exit, mandelbrot_avx_multiple_loop_no_exit,
      mandelbrot_avx_multiple_loop_no_exit_recorded ext 50 100 1 _ _ _ _ _
        (by rw [hs]; exact hne), hs]

/-- The test `all_diverged` with a bound `≤ FRACTAL_ITER` holds only when no
entry is the sentinel `FRACTAL_ITER - 1`. -/
theorem all_diverged_recorded (ITER : Nat) (B : ℚ) (hB : B ≤ (ITER : ℚ))
    (result : List Nat) (h : all_diverged B result = true) :
    ∀ e ∈ result, e ≠ ITER - 1 := by
  intro e he heq
  unfold all_diverged at h
  rw [List.all_eq_true] at h
  have h1 := h e he
  rw [decide_eq_true_eq] at h1
  have h2 : (e : ℚ) + 1 < (ITER : ℚ) := by linarith
  have h3 : e + 1 < ITER := by exact_mod_cast h2
  omega

/-- For a bound `≤ FRACTAL_ITER` the early exit of `mandelbrot_avx` does not
change the loop's result. -/
theorem mandelbrot_avx_loop_eq_no_exit (ext : FracUseCPUExt) (ITER : Nat) (B : ℚ)
    (hB : B ≤ (ITER : ℚ)) (c_real c_imag : m256) :
    ∀ (n i : Nat) (z_real z_imag : m256) (result : List Nat),
      mandelbrot_avx_loop ext ITER B c_real c_imag n i z_real z_imag result
        = mandelbrot_avx_loop_no_exit ext ITER B c_real c_imag n i z_real z_imag result := by
  intro n
  induction n with
  | zero => intro i zr zi result; rw [mandelbrot_avx_loop, mandelbrot_avx_loop_no_exit]
  | succ n ih =>
    intro i zr zi result
    rw [mandelbrot_avx_loop, mandelbrot_avx_loop_no_exit]
    split
    · rename_i hexit
      exact (mandelbrot_avx_loop_no_exit_recorded ext ITER B c_real c_imag _
        (all_diverged_recorded ITER B hB _ hexit) _ _ _ _).symm
    · exact ih _ _ _ _

/-- For a bound `≤ FRACTAL_ITER` the kernel `mandelbrot_avx` returns what the
loop without early exit returns. -/
theorem mandelbrot_avx_eq_no_exit (ext : FracUseCPUExt) (ITER : Nat) (B : ℚ)
    (hB : B ≤ (ITER : ℚ)) (c_real c_imag : m256) :
    mandelbrot_avx ext ITER B c_real c_imag
      = mandelbrot_avx_no_exit ext ITER B c_real c_imag :=
  mandelbrot_avx_loop_eq_no_exit ext ITER B hB c_real c_imag _ _ _ _ _

/-! ### Order of viewport advance and join in `FracCPU_GSLP::execute` -/

/-- Claim C14, evaluated at a failing input. In a run of
`FracCPU_GSLP::execute` with two tasks and one step the orchestrating thread
passes through a state in which `zoom_and_re_center_inplace` has been called
(the viewport is that of step 1) while both workers of step 0 are unjoined:
the call comes before `join_all` in the loop body. -/
theorem GSLP_advances_viewport_before_join :
    gslp_states (GSLP_events 2 1)
      = [⟨0, []⟩, ⟨0, [(0, 0)]⟩, ⟨0, [(0, 0), (0, 1)]⟩, ⟨1, [(0, 0), (0, 1)]⟩, ⟨1, []⟩] ∧
    ∃ s ∈ gslp_states (GSLP_events 2 1), viewport_ahead_of_worker s := by
  refine ⟨by decide, ⟨⟨1, [(0, 0), (0, 1)]⟩, by decide, by decide⟩⟩

/-! ### The stores of `fill_pixels` -/

/-- The inner loop of `mandelbrot_avx_multiple` at a counter `i ≤ M` keeps
every entry of `result` at most `M`. -/
theorem mandelbrot_avx_multiple_inner_le (ext : FracUseCPUExt) (ITER : Nat) (B : ℚ)
    (c_real c_imag : List m256) (i M : Nat) (hi : i ≤ M) :
    ∀ (n j : Nat) (s : avx_multiple_state), (∀ e ∈ s.result, e ≤ M) →
      ∀ e ∈ flow_result (mandelbrot_avx_multiple_inner ext ITER B c_real c_imag i n j s),
        e ≤ M := by
  intro n
  induction n with
  | zero => intro j s h; rw [mandelbrot_avx_multiple_inner]; exact h
  | succ n ih =>
    intro j s h
    rw [mandelbrot_avx_multiple_inner]
    have hle := record_lanes_le ITER B i (j * 8) M
      (avx_arith ext (reg c_real j) (reg c_imag j) (reg s.z_real j) (reg s.z_imag j)).2.2
      hi s.result h
    split
    · exact hle
    · exact ih _ _ hle

/-- The outer loop of `mandelbrot_avx_multiple` keeps every entry of `result`
at most `FRACTAL_ITER - 1`. -/
theorem mandelbrot_avx_multiple_loop_le (ext : FracUseCPUExt) (ITER : Nat) (B : ℚ)
    (size : Nat) (c_real c_imag : List m256) :
    ∀ (n i : Nat) (s : avx_multiple_state), i + n ≤ ITER →
      (∀ e ∈ s.result, e ≤ ITER - 1) →
      ∀ e ∈ mandelbrot_avx_multiple_loop ext ITER B size c_real c_imag n i s,
        e ≤ ITER - 1 := by
  intro n
  induction n with
  | zero => intro i s _ h; rw [mandelbrot_avx_multiple_loop]; exact h
  | succ n ih =>
    intro i s hin h
    rw [mandelbrot_avx_multiple_loop]
    have hinner := mandelbrot_avx_multiple_inner_le ext ITER B c_real c_imag i (ITER - 1)
      (by omega) size 0 s h
    cases hflow : mandelbrot_avx_multiple_inner ext ITER B c_real c_imag i size 0 s with
    | returned r =>
      rw [hflow] at hinner
      exact hinner
    | running s1 =>
      rw [hflow] at hinner
      exact ih (i + 1) s1 (by omega) hinner

/-- The grouped kernel returns entries at most `FRACTAL_ITER - 1`. -/
theorem mandelbrot_avx_multiple_le (ext : FracUseCPUExt) (ITER : Nat) (B : ℚ)
    (size : Nat) (c_real c_imag : List m256) :
    ∀ e ∈ mandelbrot_avx_multiple ext ITER B size c_real c_imag, e ≤ ITER - 1 := by
  unfold mandelbrot_avx_multiple
  exact mandelbrot_avx_multiple_loop_le ext ITER B size c_real c_imag ITER 0 _ (by omega)
    (fun e he => by rw [List.eq_of_mem_replicate he])

/-- A run of colour stores whose colours exist and whose indices lie in the
buffer succeeds; it puts the colours of the listed results at the indices
`base_idx + off, ...` and leaves every other pixel as it is. -/
theorem store_colors_effect (zooming : FractalZooming) (base_idx : Nat) :
    ∀ (l : List Nat) (off : Nat) (image : frame_t),
      (∀ e ∈ l, e < zooming.color_map.length) →
      base_idx + off + l.length ≤ image.length →
      ∃ image1, FracCPU.store_colors zooming base_idx l off image = some image1 ∧
        image1.length = image.length ∧
        (∀ k, k < l.length →
          image1.get? (base_idx + off + k)
            = (l.get? k).bind fun e => zooming.color_map.get? e) ∧
        (∀ idx, ¬ (base_idx + off ≤ idx ∧ idx < base_idx + off + l.length) →
          image1.get? idx = image.get? idx) := by
  intro l
  induction l with
  | nil =>
    intro off image _ _
    exact ⟨image, rfl, rfl, fun k hk => by simp at hk, fun _ _ => rfl⟩
  | cons e l ih =>
    intro off image hcol hlen
    rw [List.length_cons] at hlen
    have he : e < zooming.color_map.length := hcol e (List.mem_cons_self e l)
    have hget : FracCPU.get_color e zooming = some zooming.color_map[e] := by
      unfold FracCPU.get_color
      rw [List.get?_eq_getElem?, List.getElem?_eq_getElem he]
    have hstore : store image (base_idx + off) zooming.color_map[e]
        = some (image.set (base_idx + off) zooming.color_map[e]) := by
      unfold store
      rw [if_pos (by omega)]
    obtain ⟨image1, h1, h2, h3, h4⟩ := ih (off + 1)
      (image.set (base_idx + off) zooming.color_map[e])
      (fun e1 he1 => hcol e1 (List.mem_cons_of_mem e he1))
      (by rw [List.length_set]; omega)
    refine ⟨image1, ?_, ?_, ?_, ?_⟩
    · rw [FracCPU.store_colors, hget]
      simp only [Option.bind]
      rw [hstore]
      exact h1
    · rw [h2, List.length_set]
    · intro k hk
      rw [List.length_cons] at hk
      cases k with
      | zero =>
        rw [Nat.add_zero, h4 (base_idx + off) (by omega), List.get?_eq_getElem?,
          List.getElem?_set_self (by omega)]
        simp only [List.get?_cons_zero, Option.bind]
        rw [List.get?_eq_getElem?, List.getElem?_eq_getElem he]
      | succ k =>
        have := h3 k (by omega)
        rw [show base_idx + (off + 1) + k = base_idx + off + (k + 1) by omega] at this
        rw [this, List.get?_cons_succ]
    · intro idx hidx
      rw [List.length_cons] at hidx
      rw [h4 idx (by omega), List.get?_eq_getElem?, List.get?_eq_getElem?,
        List.getElem?_set_ne (by omega)]

/-- The number of results that `fill_pixels<size>` keeps at column
`x < _image_width`: `8 * size` less the overdraw is `min (8 * size)
(_image_width - x)`. -/
theorem fill_pixels_kept (width size x : Nat) (hx : x < width) :
    size * 8 - (if x + 8 * size < width then 0 else x + 8 * size - width)
      = min (8 * size) (width - x) := by
  split <;> omega

/-- The effect of `fill_pixels<size>` at a column `x < _image_width` of a row
`y < _image_height`: it succeeds, stores the colours of the first
`min (8 * size) (width - x)` kernel results from index `y * width + x` on and
leaves every other pixel as it is. -/
theorem fill_pixels_effect (self : FracCPU) (size x y : Nat) (image : frame_t)
    (zooming : FractalZooming) (lower_left : complex_t) (scale : ℚ × ℚ)
    (hwidth : 1 ≤ self._image_width) (hsize : 1 ≤ size)
    (hx : x < self._image_width) (hy : y < self._image_height)
    (himage : image.length = self._image_width * self._image_height)
    (hITER : 1 ≤ self.FRACTAL_ITER)
    (hmap : self.FRACTAL_ITER ≤ zooming.color_map.length) :
    ∃ image1, self.fill_pixels size x y image zooming lower_left scale = some image1 ∧
      image1.length = image.length ∧
      (8 * size - (x + 8 * size - self._image_width)
        = min (8 * size) (self._image_width - x)) ∧
      (∀ k, k < min (8 * size) (self._image_width - x) →
        image1.get? (y * self._image_width + x + k)
          = ((self.fill_pixels_result size x y lower_left scale).get? k).bind
              fun e => zooming.color_map.get? e) ∧
      (∀ k, k < min (8 * size) (self._image_width - x) →
        (image1.get? (y * self._image_width + x + k)).isSome = true) ∧
      (∀ idx, ¬ (y * self._image_width + x ≤ idx ∧
          idx < y * self._image_width + x + min (8 * size) (self._image_width - x)) →
        image1.get? idx = image.get? idx) := by
  have _h1 := hwidth
  have _h2 := hsize
  have hlen : (self.fill_pixels_result size x y lower_left scale).length = size * 8 := by
    unfold FracCPU.fill_pixels_result FracCPU.mandelbrot_avx_multiple
    exact mandelbrot_avx_multiple_length _ _ _ _ _ _
  have hkept : ((self.fill_pixels_result size x y lower_left scale).take
      ((self.fill_pixels_result size x y lower_left scale).length
        - (if x + 8 * size < self._image_width then 0
            else x + 8 * size - self._image_width))).length
      = min (8 * size) (self._image_width - x) := by
    rw [List.length_take, hlen, fill_pixels_kept self._image_width size x hx]
    omega
  have hrow : y * self._image_width + self._image_width
      ≤ self._image_width * self._image_height := by
    have := Nat.mul_le_mul_right self._image_width (show y + 1 ≤ self._image_height by omega)
    rw [Nat.add_mul, Nat.one_mul, Nat.mul_comm self._image_height] at this
    exact this
  have hfill : self.fill_pixels size x y image zooming lower_left scale
      = FracCPU.store_colors zooming (y * self._image_width + x)
          ((self.fill_pixels_result size x y lower_left scale).take
            ((self.fill_pixels_result size x y lower_left scale).length
              - (if x + 8 * size < self._image_width then 0
                  else x + 8 * size - self._image_width))) 0 image := rfl
  obtain ⟨image1, h1, h2, h3, h4⟩ := store_colors_effect zooming
    (y * self._image_width + x)
    ((self.fill_pixels_result size x y lower_left scale).take
      ((self.fill_pixels_result size x y lower_left scale).length
        - (if x + 8 * size < self._image_width then 0
            else x + 8 * size - self._image_width))) 0 image
    (fun e he => by
      have hle := mandelbrot_avx_multiple_le self.cpu_ext self.FRACTAL_ITER
        self.FRACTAL_BOUND size _ _ e (List.mem_of_mem_take he)
      omega)
    (by rw [hkept, himage]; omega)
  rw [hkept] at h3 h4
  have hval : ∀ k, k < min (8 * size) (self._image_width - x) →
      image1.get? (y * self._image_width + x + k)
        = ((self.fill_pixels_result size x y lower_left scale).get? k).bind
            fun e => zooming.color_map.get? e := by
    intro k hk
    have := h3 k hk
    rw [Nat.add_zero] at this
    rw [this, List.get?_eq_getElem?, List.get?_eq_getElem?, List.getElem?_take_of_lt (by
      rw [hlen, fill_pixels_kept self._image_width size x hx]
      exact hk)]
  refine ⟨image1, hfill.trans h1, h2, by omega, hval, ?_, ?_⟩
  · intro k hk
    rw [List.get?_eq_getElem?, List.getElem?_eq_getElem (by rw [h2, himage]; omega)]
    rfl
  · intro idx hidx
    exact h4 idx (by rw [Nat.add_zero]; exact hidx)

/-- Claim C16. For an image width `≥ 1`, a group count `size ≥ 1`, a row
`y < _image_height` and a column `x < _image_width` (a multiple of `8 * size`
or not), `fill_pixels<size>` on a frame of `width * height` pixels, with a
colour map that has an entry for every iteration count below `FRACTAL_ITER`,
writes the colours of the first `min (8 * size) (width - x)` kernel results to
the consecutive pixels starting at index `y * width + x` (the last
`x + 8 * size - width` results, if any, are dropped) and leaves every other
pixel of the frame as it is. -/
theorem fill_pixels_writes (self : FracCPU) (size x y : Nat) (image : frame_t)
    (zooming : FractalZooming) (lower_left : complex_t) (scale : ℚ × ℚ)
    (hwidth : 1 ≤ self._image_width) (hsize : 1 ≤ size)
    (hx : x < self._image_width) (hy : y < self._image_height)
    (himage : image.length = self._image_width * self._image_height)
    (hITER : 1 ≤ self.FRACTAL_ITER)
    (hmap : self.FRACTAL_ITER ≤ zooming.color_map.length) :
    ∃ image1, self.fill_pixels size x y image zooming lower_left scale = some image1 ∧
      image1.length = image.length ∧
      (8 * size - (x + 8 * size - self._image_width)
        = min (8 * size) (self._image_width - x)) ∧
      (∀ k, k < min (8 * size) (self._image_width - x) →
        image1.get? (y * self._image_width + x + k)
          = ((self.fill_pixels_result size x y lower_left scale).get? k).bind
              fun e => zooming.color_map.get? e) ∧
      (∀ k, k < min (8 * size) (self._image_width - x) →
        (image1.get? (y * self._image_width + x + k)).isSome = true) ∧
      (∀ idx, ¬ (y * self._image_width + x ≤ idx ∧
          idx < y * self._image_width + x + min (8 * size) (self._image_width - x)) →
        image1.get? idx = image.get? idx) :=
  fill_pixels_effect self size x y image zooming lower_left scale hwidth hsize hx hy himage
    hITER hmap

set_option maxHeartbeats 4000000 in
/-- Witness of `fill_pixels_writes`: `fill_pixels<2>` at column 0 of the only
row of a 2 x 1 frame writes `min 16 2 = 2` pixels and yields a frame of the
same length. -/
theorem fill_pixels_writes_witness :
    (1 ≤ sample_cpu._image_width ∧ 1 ≤ 2 ∧ 0 < sample_cpu._image_width ∧
      0 < sample_cpu._image_height ∧
      [white, white].length = sample_cpu._image_width * sample_cpu._image_height ∧
      1 ≤ sample_cpu.FRACTAL_ITER ∧
      sample_cpu.FRACTAL_ITER ≤ sample_zooming.color_map.length) ∧
    ∃ image1, sample_cpu.fill_pixels 2 0 0 [white, white] sample_zooming ⟨3, 0⟩ (1, 1)
        = some image1 ∧ image1.length = [white, white].length :=
  ⟨⟨by decide, by decide, by decide, by decide, by decide, by decide, by decide⟩,
    (fill_pixels_writes sample_cpu 2 0 0 [white, white] sample_zooming ⟨3, 0⟩ (1, 1)
      (by decide) (by decide) (by decide) (by decide) (by decide) (by decide)
      (by decide)).imp fun _ h => ⟨h.1, h.2.1⟩⟩

/-! ### Row filling succeeds and stays within its row -/

/-- A counted loop whose body succeeds and carries an invariant from each
counter to the next succeeds and ends with the invariant at the upper bound. -/
theorem for_range_inv {σ : Type} (Inv : Nat → σ → Prop) (f : Nat → σ → Option σ)
    (lo : Nat) :
    ∀ (d : Nat),
      (∀ k s, lo ≤ k → k < lo + d → Inv k s → ∃ s1, f k s = some s1 ∧ Inv (k + 1) s1) →
      ∀ s, Inv lo s → ∃ s1, for_range lo (lo + d) f s = some s1 ∧ Inv (lo + d) s1 := by
  intro d
  induction d with
  | zero =>
    intro _ s h0
    exact ⟨s, for_range_empty lo f s, h0⟩
  | succ d ih =>
    intro hstep s h0
    obtain ⟨s1, h1, h2⟩ := ih (fun k s hk1 hk2 hinv => hstep k s hk1 (by omega) hinv) s h0
    obtain ⟨s2, h3, h4⟩ := hstep (lo + d) s1 (by omega) (by omega) h2
    refine ⟨s2, ?_, h4⟩
    rw [show lo + (d + 1) = lo + d + 1 by omega,
      for_range_split lo (lo + d) (lo + d + 1) f s (by omega) (by omega), h1]
    show for_range (lo + d) (lo + d + 1) f s1 = some s2
    rw [for_range_one, h3]

/-- The rows of a frame of `width * height` pixels lie inside the frame. -/
theorem row_in_frame (width height y : Nat) (hy : y < height) :
    y * width + width ≤ width * height := by
  have := Nat.mul_le_mul_right width (show y + 1 ≤ height by omega)
  rw [Nat.add_mul, Nat.one_mul, Nat.mul_comm height] at this
  exact this

/-- The vector loop of `fill_row` with `pixels_size ≥ 2`, from column `x` on:
it succeeds, keeps the length of the frame and leaves every pixel outside the
columns `x, ..., _image_width - 1` of row `y` as it is. -/
theorem fill_row_avx_loop_effect (self : FracCPU) (y : Nat) (zooming : FractalZooming)
    (lower_left : complex_t) (scale : ℚ × ℚ) (hps : 2 ≤ self.pixels_size)
    (hy : y < self._image_height) (hITER : 1 ≤ self.FRACTAL_ITER)
    (hmap : self.FRACTAL_ITER ≤ zooming.color_map.length) :
    ∀ (n x : Nat) (image : frame_t),
      image.length = self._image_width * self._image_height →
      self._image_width ≤ x + n * (8 * self.pixels_size) →
      ∃ image1, self.fill_row_avx_loop y zooming lower_left scale n x image = some image1 ∧
        image1.length = image.length ∧
        ∀ idx, ¬ (y * self._image_width + x ≤ idx ∧
            idx < y * self._image_width + self._image_width) →
          image1.get? idx = image.get? idx := by
  intro n
  induction n with
  | zero =>
    intro x image _ hfuel
    rw [FracCPU.fill_row_avx_loop, if_neg (by omega)]
    exact ⟨image, rfl, rfl, fun _ _ => rfl⟩
  | succ n ih =>
    intro x image himage hfuel
    rw [FracCPU.fill_row_avx_loop]
    by_cases hx : x < self._image_width
    · rw [if_pos hx, if_neg (by omega)]
      obtain ⟨image1, h1, h2, _, _, _, h6⟩ := fill_pixels_effect self self.pixels_size x y image
        zooming lower_left scale (by omega) (by omega) hx hy himage hITER hmap
      obtain ⟨image2, g1, g2, g3⟩ := ih (x + 8 * self.pixels_size) image1
        (by rw [h2]; exact himage)
        (by rw [Nat.add_mul, Nat.one_mul] at hfuel; omega)
      refine ⟨image2, ?_, by rw [g2, h2], ?_⟩
      · rw [h1]
        exact g1
      · intro idx hidx
        rw [g3 idx (by omega), h6 idx (by omega)]
    · rw [if_neg hx]
      exact ⟨image, rfl, rfl, fun _ _ => rfl⟩

/-- The method `fill_row` on a row `y < _image_height` of a frame of
`width * height` pixels, with scalar filling or with `pixels_size ≥ 2`, and
with a colour map that has an entry for every iteration count below
`FRACTAL_ITER`: it succeeds, keeps the length of the frame and leaves every
pixel outside row `y` as it is. -/
theorem fill_row_effect (self : FracCPU) (y : Nat) (image : frame_t)
    (zooming : FractalZooming) (lower_left : complex_t) (scale : ℚ × ℚ)
    (hcfg : self.cpu_ext = FracUseCPUExt.None ∨ 2 ≤ self.pixels_size)
    (hy : y < self._image_height)
    (himage : image.length = self._image_width * self._image_height)
    (hITER : 1 ≤ self.FRACTAL_ITER)
    (hmap : self.FRACTAL_ITER ≤ zooming.color_map.length) :
    ∃ image1, self.fill_row y image zooming lower_left scale = some image1 ∧
      image1.length = image.length ∧
      ∀ idx, ¬ (y * self._image_width ≤ idx ∧
          idx < y * self._image_width + self._image_width) →
        image1.get? idx = image.get? idx := by
  have hrow := row_in_frame self._image_width self._image_height y hy
  have hscalar : ∃ image1,
      for_range 0 self._image_width
        (fun x image =>
          (FracCPU.get_color (self.mandelbrot (self.idx_to_complex x y lower_left scale))
            zooming).bind fun col => store image (y * self._image_width + x) col) image
        = some image1 ∧
      image1.length = image.length ∧
      ∀ idx, ¬ (y * self._image_width ≤ idx ∧
          idx < y * self._image_width + self._image_width) →
        image1.get? idx = image.get? idx := by
    have h := for_range_inv
      (fun k (s : frame_t) => s.length = image.length ∧
        ∀ idx, ¬ (y * self._image_width ≤ idx ∧ idx < y * self._image_width + k) →
          s.get? idx = image.get? idx)
      (fun x image =>
        (FracCPU.get_color (self.mandelbrot (self.idx_to_complex x y lower_left scale))
          zooming).bind fun col => store image (y * self._image_width + x) col)
      0 self._image_width
      (fun k s _ hk hinv => by
        have hle : self.mandelbrot (self.idx_to_complex k y lower_left scale)
            ≤ self.FRACTAL_ITER - 1 :=
          mandelbrot_loop_le _ _ _ _ 0 complex_t.zero (by omega)
        have hget : FracCPU.get_color
            (self.mandelbrot (self.idx_to_complex k y lower_left scale)) zooming
            = some zooming.color_map[self.mandelbrot
                (self.idx_to_complex k y lower_left scale)] := by
          unfold FracCPU.get_color
          rw [List.get?_eq_getElem?, List.getElem?_eq_getElem (by omega)]
        refine ⟨s.set (y * self._image_width + k)
          zooming.color_map[self.mandelbrot (self.idx_to_complex k y lower_left scale)],
          ?_, ?_, ?_⟩
        · simp only [hget, Option.bind, store]
          rw [if_pos (by rw [hinv.1, himage]; omega)]
        · rw [List.length_set]
          exact hinv.1
        · intro idx hidx
          rw [List.get?_eq_getElem?, List.getElem?_set_ne (by omega),
            ← List.get?_eq_getElem?]
          exact hinv.2 idx (by omega))
      image ⟨rfl, fun _ _ => rfl⟩
    rw [Nat.zero_add] at h
    obtain ⟨image1, h1, h2, h3⟩ := h
    exact ⟨image1, h1, h2, fun idx hidx => h3 idx (by omega)⟩
  unfold FracCPU.fill_row
  cases hext : self.cpu_ext with
  | None => exact hscalar
  | AVX =>
    have hps : 2 ≤ self.pixels_size := by
      rcases hcfg with h | h
      · rw [hext] at h; cases h
      · exact h
    obtain ⟨image1, h1, h2, h3⟩ := fill_row_avx_loop_effect self y zooming lower_left scale
      hps hy hITER hmap self._image_width 0 image himage
      (by
        have := Nat.le_mul_of_pos_right self._image_width
          (show 0 < 8 * self.pixels_size by omega)
        omega)
    exact ⟨image1, h1, h2, fun idx hidx => h3 idx (by omega)⟩
  | AVX_FMA =>
    have hps : 2 ≤ self.pixels_size := by
      rcases hcfg with h | h
      · rw [hext] at h; cases h
      · exact h
    obtain ⟨image1, h1, h2, h3⟩ := fill_row_avx_loop_effect self y zooming lower_left scale
      hps hy hITER hmap self._image_width 0 image himage
      (by
        have := Nat.le_mul_of_pos_right self._image_width
          (show 0 < 8 * self.pixels_size by omega)
        omega)
    exact ⟨image1, h1, h2, fun idx hidx => h3 idx (by omega)⟩

/-! ### The vector path of `fill_row` writes its row, and only its row -/

/-- A counted loop keeps a property that its body keeps. -/
theorem for_range_preserves {σ : Type} (Inv : σ → Prop) (f : Nat → σ → Option σ)
    (hstep : ∀ k s s1, f k s = some s1 → Inv s → Inv s1) (lo hi : Nat) (s s1 : σ)
    (h : for_range lo hi f s = some s1) (h0 : Inv s) : Inv s1 := by
  unfold for_range at h
  generalize List.range' lo (hi - lo) = l at h
  induction l generalizing s with
  | nil =>
    cases h
    exact h0
  | cons k l ih =>
    rw [List.foldlM_cons] at h
    cases hk : f k s with
    | none => rw [hk] at h; cases h
    | some s2 =>
      rw [hk] at h
      exact ih s2 (hstep k s s2 hk h0) h

/-- Every frame that `FracCPU_GSLP::execute` renders has
`_image_width * _image_height` pixels. -/
theorem GSLP_execute_frame_length (self : FracCPU) (task_count : Nat)
    (zooming : FractalZooming) (frames : frames_t)
    (h : self.GSLP_execute task_count zooming = some frames) :
    ∀ p ∈ frames, p.2.length = self._image_width * self._image_height := by
  unfold FracCPU.GSLP_execute at h
  by_cases htask : task_count = 0
  · rw [if_pos htask] at h; cases h
  · rw [if_neg htask] at h
    cases hrun : for_range 0 zooming.zoom_steps (self.GSLP_step task_count zooming)
        { lower_left := zooming.start_lower_left,
          upper_right := zooming.start_upper_right,
          frame := List.replicate (self._image_width * self._image_height) pixel_t.zero,
          frames := [] } with
    | none => rw [hrun] at h; cases h
    | some s1 =>
      rw [hrun] at h
      simp only [Option.map, Option.some.injEq] at h
      have hinv := for_range_preserves
        (fun (s : gslp_state) =>
          s.frame.length = self._image_width * self._image_height ∧
          ∀ p ∈ s.frames, p.2.length = self._image_width * self._image_height)
        (self.GSLP_step task_count zooming)
        (fun i s s2 hstep hs => by
          simp only [FracCPU.GSLP_step,
            fill_partitions_eq_fill_rows self task_count (by omega)] at hstep
          cases hfill : self.fill_rows 0 self._image_height s.frame zooming s.lower_left
              (compute_scale s.lower_left s.upper_right (to_short self._image_width)
                (to_short self._image_height)) with
          | none => rw [hfill] at hstep; cases hstep
          | some frame1 =>
            rw [hfill] at hstep
            simp only [Option.bind, Option.some.injEq] at hstep
            have hlen : frame1.length = self._image_width * self._image_height := by
              rw [fill_rows_length self zooming _ _ _ frame1 hfill]
              exact hs.1
            rw [← hstep]
            refine ⟨hlen, ?_⟩
            intro p hp
            rcases List.mem_append.mp hp with hp1 | hp1
            · exact hs.2 p hp1
            · rw [List.mem_singleton] at hp1
              rw [hp1]
              exact hlen)
        0 zooming.zoom_steps _ s1 hrun
        ⟨List.length_replicate _ _, fun p hp => (List.not_mem_nil p hp).elim⟩
      rw [← h]
      exact hinv.2

/-- A dimension within the range of `short` is not changed by the conversion. -/
theorem to_short_eq (n : Nat) (h : n ≤ 32767) : to_short n = (n : Int) := by
  unfold to_short
  omega

/-- For dimensions within the range of `short` the writer records
`_frame_size = width * height`. -/
theorem GSLP_writer_frame_size (self : FracCPU) (hw : self._image_width ≤ 32767)
    (hh : self._image_height ≤ 32767) :
    self.GSLP_writer._frame_size = self._image_width * self._image_height := by
  unfold FracCPU.GSLP_writer AnimatedGif.create to_size_t
  rw [to_short_eq _ hw, to_short_eq _ hh]
  have hprod : self._image_width * self._image_height ≤ 32767 * 32767 :=
    Nat.mul_le_mul hw hh
  have hcast : ((self._image_width : Int) * (self._image_height : Int))
      = ((self._image_width * self._image_height : Nat) : Int) := by push_cast; rfl
  simp only [hcast]
  rw [Int.emod_eq_of_lt (by omega) (by omega), Int.toNat_ofNat]

/-- Claim C13, amended. For every `image_width` and `image_height` from 1 to
32767 (the range of the `short` parameters of the writer's constructor) given
to `FracCPU_GSLP`, every frame that `execute` passes to
`AnimatedGif::append_frame` has a pixel count equal to the `width * height`
the writer recorded at construction, and `append_frame` does not throw. -/
theorem GSLP_passed_frames_match_writer (self : FracCPU) (task_count : Nat)
    (zooming : FractalZooming) (passed : List frame_t)
    (hw1 : 1 ≤ self._image_width) (hw : self._image_width ≤ 32767)
    (hh1 : 1 ≤ self._image_height) (hh : self._image_height ≤ 32767)
    (hrun : self.GSLP_passed_frames task_count zooming = some passed) :
    ∀ frame ∈ passed,
      frame.length = self.GSLP_writer._frame_size ∧
      self.GSLP_writer.append_frame frame = some () := by
  have _h1 := hw1
  have _h2 := hh1
  intro frame hframe
  have hlen : frame.length = self._image_width * self._image_height := by
    unfold FracCPU.GSLP_passed_frames at hrun
    cases hexec : self.GSLP_execute task_count zooming with
    | none => rw [hexec] at hrun; cases hrun
    | some frames =>
      rw [hexec] at hrun
      simp only [Option.map, Option.some.injEq] at hrun
      rw [← hrun] at hframe
      cases hsave : zooming.save_images with
      | ToDisk =>
        rw [hsave] at hframe
        simp only [List.mem_map] at hframe
        obtain ⟨p, hp, hpf⟩ := hframe
        rw [← hpf]
        exact GSLP_execute_frame_length self task_count zooming frames hexec p hp
      | No =>
        rw [hsave] at hframe
        exact (List.not_mem_nil _ hframe).elim
  have hsize := GSLP_writer_frame_size self hw hh
  refine ⟨by rw [hlen, hsize], ?_⟩
  unfold AnimatedGif.append_frame
  rw [if_neg (by rw [hlen, hsize]; exact fun hne => hne rfl)]

set_option maxHeartbeats 4000000 in
/-- Witness of `GSLP_passed_frames_match_writer`: the one frame that a run of
one step on a 2 x 1 image passes to the writer has the 2 pixels the writer
recorded. -/
theorem GSLP_passed_frames_match_writer_witness :
    (1 ≤ sample_cpu_scalar._image_width ∧ sample_cpu_scalar._image_width ≤ 32767 ∧
      1 ≤ sample_cpu_scalar._image_height ∧ sample_cpu_scalar._image_height ≤ 32767 ∧
      sample_cpu_scalar.GSLP_passed_frames 1 sample_zooming_to_disk
        = some [[⟨0, 0, 0, 0⟩, ⟨0, 0, 0, 0⟩]]) ∧
    sample_cpu_scalar.GSLP_writer.append_frame [⟨0, 0, 0, 0⟩, ⟨0, 0, 0, 0⟩] = some () :=
  ⟨⟨by decide, by decide, by decide, by decide, by decide!⟩,
    (GSLP_passed_frames_match_writer sample_cpu_scalar 1 sample_zooming_to_disk
      [[⟨0, 0, 0, 0⟩, ⟨0, 0, 0, 0⟩]] (by decide) (by decide) (by decide) (by decide)
      (by decide!) [⟨0, 0, 0, 0⟩, ⟨0, 0, 0, 0⟩] (List.mem_singleton.mpr rfl)).2⟩

/-- Rendering all rows of a frame of `width * height` pixels succeeds, with
scalar filling or with `pixels_size ≥ 2` and a colour map that has an entry for
every iteration count below `FRACTAL_ITER`. -/
theorem fill_rows_succeeds (self : FracCPU) (image : frame_t) (zooming : FractalZooming)
    (lower_left : complex_t) (scale : ℚ × ℚ)
    (hcfg : self.cpu_ext = FracUseCPUExt.None ∨ 2 ≤ self.pixels_size)
    (himage : image.length = self._image_width * self._image_height)
    (hITER : 1 ≤ self.FRACTAL_ITER)
    (hmap : self.FRACTAL_ITER ≤ zooming.color_map.length) :
    ∃ image1, self.fill_rows 0 self._image_height image zooming lower_left scale
        = some image1 ∧
      image1.length = self._image_width * self._image_height := by
  have h := for_range_inv
    (fun _ (s : frame_t) => s.length = self._image_width * self._image_height)
    (fun y image => self.fill_row y image zooming lower_left scale) 0 self._image_height
    (fun y s _ hy hs => by
      obtain ⟨s1, h1, h2, _⟩ := fill_row_effect self y s zooming lower_left scale hcfg
        (by omega) hs hITER hmap
      exact ⟨s1, h1, h2.trans hs⟩)
    image himage
  rw [Nat.zero_add] at h
  exact h

/-- A run of `FracCPU_GSLP::execute` with `task_count ≥ 1` yields one frame per
step, with scalar filling or with `pixels_size ≥ 2` and a colour map that has
an entry for every iteration count below `FRACTAL_ITER`. -/
theorem GSLP_execute_succeeds (self : FracCPU) (task_count : Nat) (zooming : FractalZooming)
    (htask : 1 ≤ task_count)
    (hcfg : self.cpu_ext = FracUseCPUExt.None ∨ 2 ≤ self.pixels_size)
    (hITER : 1 ≤ self.FRACTAL_ITER)
    (hmap : self.FRACTAL_ITER ≤ zooming.color_map.length) :
    ∃ frames, self.GSLP_execute task_count zooming = some frames ∧
      frames.length = zooming.zoom_steps := by
  have h := for_range_inv
    (fun k (s : gslp_state) =>
      s.frame.length = self._image_width * self._image_height ∧ s.frames.length = k)
    (self.GSLP_step task_count zooming) 0 zooming.zoom_steps
    (fun i s _ _ hs => by
      obtain ⟨frame1, h1, h2⟩ := fill_rows_succeeds self s.frame zooming s.lower_left
        (compute_scale s.lower_left s.upper_right (to_short self._image_width)
          (to_short self._image_height)) hcfg hs.1 hITER hmap
      refine ⟨{ lower_left := (zoom_and_re_center_inplace (s.lower_left, s.upper_right)
                  zooming).1,
                upper_right := (zoom_and_re_center_inplace (s.lower_left, s.upper_right)
                  zooming).2,
                frame := frame1, frames := s.frames ++ [(i, frame1)] }, ?_, h2, ?_⟩
      · simp only [FracCPU.GSLP_step,
          fill_partitions_eq_fill_rows self task_count htask, h1, Option.bind]
      · rw [List.length_append, hs.2]
        rfl)
    { lower_left := zooming.start_lower_left,
      upper_right := zooming.start_upper_right,
      frame := List.replicate (self._image_width * self._image_height) pixel_t.zero,
      frames := [] }
    ⟨List.length_replicate _ _, rfl⟩
  rw [Nat.zero_add] at h
  obtain ⟨s1, h1, h2⟩ := h
  refine ⟨s1.frames, ?_, h2.2⟩
  unfold FracCPU.GSLP_execute
  rw [if_neg (by omega), h1]
  rfl

/-- Claim C13 as stated fails: for `image_width = 32768`, `image_height = 1`
the run of one step with `save_images = ToDisk` passes a frame of 32768 pixels
to the writer, whose constructor received the width as the `short` -32768 and
recorded `_frame_size = 2^64 - 32768`; `append_frame` throws. -/
theorem GSLP_wide_frame_rejected :
    ∃ passed, sample_cpu_wide.GSLP_passed_frames 1 sample_zooming_to_disk = some passed ∧
      passed ≠ [] ∧
      sample_cpu_wide.GSLP_writer._frame_size = 18446744073709518848 ∧
      ∀ frame ∈ passed, frame.length = 32768 ∧
        sample_cpu_wide.GSLP_writer.append_frame frame = none := by
  obtain ⟨frames, hrun, hcount⟩ := GSLP_execute_succeeds sample_cpu_wide 1
    sample_zooming_to_disk (le_refl 1) (Or.inl rfl) (by decide) (by decide)
  have hlen := GSLP_execute_frame_length sample_cpu_wide 1 sample_zooming_to_disk frames hrun
  have hsize : sample_cpu_wide.GSLP_writer._frame_size = 18446744073709518848 := by
    decide
  refine ⟨frames.map Prod.snd, ?_, ?_, hsize, ?_⟩
  · unfold FracCPU.GSLP_passed_frames
    rw [hrun]
    rfl
  · intro hnil
    have hzero : frames.length = 0 := by
      rw [← List.length_map frames Prod.snd, hnil]
      rfl
    rw [hcount] at hzero
    exact absurd hzero (by decide)
  · intro frame hframe
    rw [List.mem_map] at hframe
    obtain ⟨p, hp, hpf⟩ := hframe
    have hl : frame.length = 32768 := by
      rw [← hpf, hlen p hp]
      rfl
    refine ⟨hl, ?_⟩
    unfold AnimatedGif.append_frame
    rw [if_pos (by rw [hl, hsize]; decide)]

/-! ### The zoom transform in single precision -/

/-- When no operation rounds or overflows, the single-precision transform
returns the exact result. -/
theorem zoom_and_re_center_f32_exact (lower_left upper_right : complex_t)
    (zooming : FractalZooming) (h : zoom_no_rounding lower_left upper_right zooming) :
    zoom_and_re_center_f32 lower_left.to_f32 upper_right.to_f32 (f32.fin zooming.zoom)
        zooming.zoom_center.to_f32
      = ((zoom_and_re_center lower_left upper_right zooming).1.to_f32,
         (zoom_and_re_center lower_left upper_right zooming).2.to_f32) := by
  obtain ⟨hre, him⟩ := h
  simp only [zoom_axis_results, List.mem_cons, List.mem_singleton, List.not_mem_nil,
    or_false, forall_eq_or_imp, forall_eq, is_f32] at hre him
  obtain ⟨a1, a2, a3, a4, a5, a6, a7⟩ := hre
  obtain ⟨b1, b2, b3, b4, b5, b6, b7⟩ := him
  have two : (2 : ℚ) ≠ 0 := by norm_num
  simp only [zoom_and_re_center_f32, zoom_and_re_center, complex_t.to_f32, complex_t.scale,
    complex_t.add, complex_t.sub, f32.mul, f32.add, f32.sub, f32.neg, f32.div,
    a1, a2, a3, a4, b1, b2, b3, b4, if_neg two, ← sub_eq_add_neg, a5, a6, a7, b5, b6, b7]

/-- The in-place variant in single precision performs the operations of the
pure variant. -/
theorem zoom_and_re_center_f32_eq_inplace (lower_left upper_right : complex_f32) (zoom : f32)
    (zoom_center : complex_f32) :
    zoom_and_re_center_f32 lower_left upper_right zoom zoom_center
      = zoom_and_re_center_inplace_f32 (lower_left, upper_right) zoom zoom_center := rfl

/-! ### Rounding to binary32 -/

/-- The function `pow2` is the power of two with an integer exponent. -/
theorem pow2_eq_zpow (e : Int) : pow2 e = (2 : ℚ) ^ e := by
  unfold pow2
  split
  · rename_i h
    rw [Nat.cast_pow, Nat.cast_ofNat, ← zpow_natCast, Int.toNat_of_nonneg h]
  · rename_i h
    have h1 : 0 ≤ -e := by omega
    rw [Nat.cast_pow, Nat.cast_ofNat, ← zpow_natCast, Int.toNat_of_nonneg h1, zpow_neg,
      one_div, inv_inv]

/-- Powers of two are positive. -/
theorem pow2_pos (e : Int) : 0 < pow2 e := by
  rw [pow2_eq_zpow]
  positivity

/-- Powers of two grow with the exponent. -/
theorem pow2_mono {a b : Int} (h : a ≤ b) : pow2 a ≤ pow2 b := by
  rw [pow2_eq_zpow, pow2_eq_zpow]
  exact zpow_le_zpow_right₀ (by norm_num) h

/-- The power of a sum of exponents. -/
theorem pow2_add (a b : Int) : pow2 (a + b) = pow2 a * pow2 b := by
  rw [pow2_eq_zpow, pow2_eq_zpow, pow2_eq_zpow, zpow_add₀ (by norm_num)]

/-- The halving loop finds the leading bit when its fuel is at least `n`. -/
theorem log2_loop_spec : ∀ (fuel n : Nat), n ≤ fuel → 1 ≤ n →
    2 ^ log2_loop fuel n ≤ n ∧ n < 2 ^ (log2_loop fuel n + 1) := by
  intro fuel
  induction fuel with
  | zero => intro n h1 h2; omega
  | succ fuel ih =>
    intro n h1 h2
    rw [log2_loop]
    by_cases h : n < 2
    · rw [if_pos h]
      have : n = 1 := by omega
      subst this
      exact ⟨by norm_num, by norm_num⟩
    · rw [if_neg h]
      obtain ⟨g1, g2⟩ := ih (n / 2) (by omega) (by omega)
      rw [pow_succ] at g2 ⊢
      rw [pow_succ (2) (log2_loop fuel (n / 2) + 1), pow_succ]
      constructor <;> omega

/-- The leading bit of `n ≥ 1`: `2 ^ log2 n ≤ n < 2 ^ (log2 n + 1)`. -/
theorem log2_spec (n : Nat) (h : 1 ≤ n) : 2 ^ log2 n ≤ n ∧ n < 2 ^ (log2 n + 1) :=
  log2_loop_spec n n (le_refl n) h

/-- A fraction lies within a factor of two of the quotient of the leading bits
of its numerator and denominator. -/
theorem quotient_leading_bits (N D ln ld : Nat)
    (n1 : 2 ^ ln ≤ N) (n2 : N < 2 ^ (ln + 1)) (d1 : 2 ^ ld ≤ D) (d2 : D < 2 ^ (ld + 1)) :
    pow2 ((ln : Int) - (ld : Int) - 1) ≤ (N : ℚ) / (D : ℚ) ∧
    (N : ℚ) / (D : ℚ) < pow2 ((ln : Int) - (ld : Int) + 1) := by
  have n1q : ((2 : ℚ) ^ ln) ≤ (N : ℚ) := by exact_mod_cast n1
  have n2q : (N : ℚ) < (2 : ℚ) ^ (ln + 1) := by exact_mod_cast n2
  have d1q : ((2 : ℚ) ^ ld) ≤ (D : ℚ) := by exact_mod_cast d1
  have d2q : (D : ℚ) < (2 : ℚ) ^ (ld + 1) := by exact_mod_cast d2
  have hp1 : (0 : ℚ) < 2 ^ ln := by positivity
  have hp2 : (0 : ℚ) < 2 ^ ld := by positivity
  have hD : (0 : ℚ) < (D : ℚ) := lt_of_lt_of_le hp2 d1q
  have e0 : pow2 ((ln : Int) - (ld : Int)) = (2 : ℚ) ^ ln / (2 : ℚ) ^ ld := by
    rw [pow2_eq_zpow, zpow_sub₀ (by norm_num), zpow_natCast, zpow_natCast]
  rw [pow_succ] at d2q n2q
  constructor
  · rw [sub_eq_add_neg _ (1 : Int), pow2_add, e0, pow2_eq_zpow, div_mul_eq_mul_div,
      div_le_div_iff₀ hp2 hD]
    have : (2 : ℚ) ^ (-1 : Int) = 1 / 2 := by norm_num
    rw [this]
    nlinarith
  · rw [pow2_add, e0, pow2_eq_zpow, div_mul_eq_mul_div, div_lt_div_iff₀ hD hp2]
    have : (2 : ℚ) ^ (1 : Int) = 2 := by norm_num
    rw [this]
    nlinarith

/-- The exponent `ilog2 a` of `a > 0` is that of its leading bit. -/
theorem ilog2_spec (a : ℚ) (ha : 0 < a) : pow2 (ilog2 a) ≤ a ∧ a < pow2 (ilog2 a + 1) := by
  have hnum : 0 < a.num := Rat.num_pos.mpr ha
  have hden : 0 < a.den := a.den_pos
  obtain ⟨n1, n2⟩ := log2_spec a.num.natAbs (by omega)
  obtain ⟨d1, d2⟩ := log2_spec a.den (by omega)
  have hN : (a.num.natAbs : ℚ) = a.num := by
    rw [← Int.cast_natCast, Int.natAbs_of_nonneg (le_of_lt hnum)]
  have ha' : (a.num.natAbs : ℚ) / (a.den : ℚ) = a := by
    rw [hN]
    exact Rat.num_div_den a
  obtain ⟨lower, upper⟩ := quotient_leading_bits _ _ _ _ n1 n2 d1 d2
  rw [ha'] at lower upper
  unfold ilog2
  simp only
  split
  · rename_i h
    exact ⟨h, upper⟩
  · rename_i h
    refine ⟨lower, ?_⟩
    rw [sub_add_cancel]
    exact lt_of_not_le h

/-- The exponent `ilog2` grows with its argument. -/
theorem ilog2_mono (a b : ℚ) (ha : 0 < a) (hab : a ≤ b) : ilog2 a ≤ ilog2 b := by
  by_contra h
  have h1 : ilog2 b + 1 ≤ ilog2 a := by omega
  have := (ilog2_spec b (lt_of_lt_of_le ha hab)).2
  have := (ilog2_spec a ha).1
  have := pow2_mono h1
  linarith
/-- The integer part taken by `round_half_even` is the floor. -/
theorem round_half_even_floor (x : ℚ) : (x.num / (x.den : Int)).toNat = ⌊x⌋₊ := by
  rw [← Rat.floor_def, Int.floor_toNat]

/-- The rounding `round_half_even` in terms of the floor. -/
theorem round_half_even_eq (x : ℚ) :
    round_half_even x =
      if x - (⌊x⌋₊ : ℚ) < 1 / 2 then ⌊x⌋₊
      else if 1 / 2 < x - (⌊x⌋₊ : ℚ) then ⌊x⌋₊ + 1
      else if ⌊x⌋₊ % 2 = 0 then ⌊x⌋₊ else ⌊x⌋₊ + 1 := by
  unfold round_half_even
  simp only [round_half_even_floor]

/-- The rounding `round_half_even` gives the floor or its successor. -/
theorem round_half_even_bounds (x : ℚ) :
    ⌊x⌋₊ ≤ round_half_even x ∧ round_half_even x ≤ ⌊x⌋₊ + 1 := by
  rw [round_half_even_eq]
  split_ifs <;> omega

/-- The rounding `round_half_even` is monotone. -/
theorem round_half_even_mono (x y : ℚ) (hxy : x ≤ y) :
    round_half_even x ≤ round_half_even y := by
  have hfloor : ⌊x⌋₊ ≤ ⌊y⌋₊ := Nat.floor_mono hxy
  rcases Nat.lt_or_ge ⌊x⌋₊ ⌊y⌋₊ with hlt | hge
  · have := (round_half_even_bounds x).2
    have := (round_half_even_bounds y).1
    omega
  · have heq : ⌊x⌋₊ = ⌊y⌋₊ := le_antisymm hfloor hge
    rw [round_half_even_eq, round_half_even_eq, heq]
    split_ifs <;> first | omega | linarith

/-- The rounding `round_half_even` leaves a natural number as it is. -/
theorem round_half_even_natCast (n : Nat) : round_half_even (n : ℚ) = n := by
  rw [round_half_even_eq, Nat.floor_natCast, sub_self, if_pos (by norm_num)]
/-- A magnitude up to `2 ^ (e + 1)` rounds, in units of `2 ^ (e - 23)`, to at
most `2 ^ (e + 1)`. -/
theorem round_units_le (a : ℚ) (e : Int) (h : a ≤ pow2 (e + 1)) :
    (round_half_even (a / pow2 (e - 23)) : ℚ) * pow2 (e - 23) ≤ pow2 (e + 1) := by
  have hu := pow2_pos (e - 23)
  have hsplit : pow2 (e + 1) = ((2 ^ 24 : Nat) : ℚ) * pow2 (e - 23) := by
    rw [show e + 1 = 24 + (e - 23) by omega, pow2_add, pow2_eq_zpow 24]
    norm_num
  have hq : a / pow2 (e - 23) ≤ ((2 ^ 24 : Nat) : ℚ) := by
    rw [div_le_iff₀ hu, ← hsplit]
    exact h
  have hr := round_half_even_mono _ _ hq
  rw [round_half_even_natCast] at hr
  rw [hsplit]
  exact mul_le_mul_of_nonneg_right (by exact_mod_cast hr) (le_of_lt hu)

/-- A magnitude from `2 ^ e` on rounds, in units of `2 ^ (e - 23)`, to at
least `2 ^ e`. -/
theorem le_round_units (b : ℚ) (e : Int) (h : pow2 e ≤ b) :
    pow2 e ≤ (round_half_even (b / pow2 (e - 23)) : ℚ) * pow2 (e - 23) := by
  have hu := pow2_pos (e - 23)
  have hsplit : pow2 e = ((2 ^ 23 : Nat) : ℚ) * pow2 (e - 23) := by
    rw [show e = 23 + (e - 23) by omega, pow2_add, pow2_eq_zpow 23]
    norm_num
  have hq : ((2 ^ 23 : Nat) : ℚ) ≤ b / pow2 (e - 23) := by
    rw [le_div_iff₀ hu, ← hsplit]
    exact h
  have hr := round_half_even_mono _ _ hq
  rw [round_half_even_natCast] at hr
  rw [hsplit]
  exact mul_le_mul_of_nonneg_right (by exact_mod_cast hr) (le_of_lt hu)

/-- The rounded magnitude is not negative. -/
theorem round_mag_nonneg (a : ℚ) : 0 ≤ round_mag a := by
  unfold round_mag
  exact mul_nonneg (Nat.cast_nonneg _) (le_of_lt (pow2_pos _))

/-- Rounding of magnitudes is monotone. -/
theorem round_mag_mono (a b : ℚ) (ha : 0 < a) (hab : a ≤ b) : round_mag a ≤ round_mag b := by
  have hb : 0 < b := lt_of_lt_of_le ha hab
  have hlog := ilog2_mono a b ha hab
  have hexp : max (ilog2 a) (-126) ≤ max (ilog2 b) (-126) := max_le_max hlog (le_refl _)
  unfold round_mag
  simp only
  rcases lt_or_eq_of_le hexp with hlt | heq
  · have ha2 : a ≤ pow2 (max (ilog2 a) (-126) + 1) :=
      le_trans (le_of_lt (ilog2_spec a ha).2)
        (pow2_mono (by have := le_max_left (ilog2 a) (-126); omega))
    have hmaxb : max (ilog2 b) (-126) = ilog2 b := by
      have := le_max_right (ilog2 a) (-126)
      rcases max_choice (ilog2 b) (-126) with h | h
      · exact h
      · omega
    have hb2 : pow2 (max (ilog2 b) (-126)) ≤ b := by
      rw [hmaxb]
      exact (ilog2_spec b hb).1
    calc (round_half_even (a / pow2 (max (ilog2 a) (-126) - 23)) : ℚ)
            * pow2 (max (ilog2 a) (-126) - 23)
          ≤ pow2 (max (ilog2 a) (-126) + 1) := round_units_le a _ ha2
      _ ≤ pow2 (max (ilog2 b) (-126)) := pow2_mono (by omega)
      _ ≤ _ := le_round_units b _ hb2
  · rw [heq]
    have hu := pow2_pos (max (ilog2 b) (-126) - 23)
    have hq : a / pow2 (max (ilog2 b) (-126) - 23) ≤ b / pow2 (max (ilog2 b) (-126) - 23) :=
      div_le_div_of_nonneg_right hab (le_of_lt hu)
    have hr := round_half_even_mono _ _ hq
    exact mul_le_mul_of_nonneg_right (by exact_mod_cast hr) (le_of_lt hu)
/-- Rounding of a positive number. -/
theorem round32_pos (q : ℚ) (h : 0 < q) :
    round32 q = if pow2 128 ≤ round_mag q then f32.inf false else f32.fin (round_mag q) := by
  unfold round32
  rw [if_neg (ne_of_gt h), abs_of_pos h]
  simp only [not_lt.mpr (le_of_lt h), decide_False, if_false]

/-- Rounding of a negative number. -/
theorem round32_neg (q : ℚ) (h : q < 0) :
    round32 q = if pow2 128 ≤ round_mag (-q) then f32.inf true
      else f32.fin (-round_mag (-q)) := by
  unfold round32
  rw [if_neg (ne_of_lt h), abs_of_neg h]
  simp only [h, decide_True, if_true]

/-- Rounding of zero. -/
theorem round32_zero : round32 0 = f32.fin 0 := by
  unfold round32
  rw [if_pos rfl]

/-- Rounding is monotone: `q₁ ≤ q₂` gives `round32 q₁ <= round32 q₂`. -/
theorem round32_mono (q1 q2 : ℚ) (h : q1 ≤ q2) : (round32 q1).le (round32 q2) = true := by
  rcases lt_trichotomy q1 0 with h1 | h1 | h1
  · have m1 := round_mag_nonneg (-q1)
    rw [round32_neg q1 h1]
    rcases lt_trichotomy q2 0 with h2 | h2 | h2
    · have hm := round_mag_mono (-q2) (-q1) (by linarith) (by linarith)
      rw [round32_neg q2 h2]
      split_ifs with g1 g2 g2
      · rfl
      · rfl
      · exact absurd (le_trans g2 hm) g1
      · simp only [f32.le, decide_eq_true_eq]
        linarith
    · subst h2
      rw [round32_zero]
      split_ifs
      · rfl
      · simp only [f32.le, decide_eq_true_eq]
        linarith
    · have m2 := round_mag_nonneg q2
      rw [round32_pos q2 h2]
      split_ifs
      · rfl
      · rfl
      · rfl
      · simp only [f32.le, decide_eq_true_eq]
        linarith
  · subst h1
    rw [round32_zero]
    rcases lt_or_eq_of_le h with h2 | h2
    · have m2 := round_mag_nonneg q2
      rw [round32_pos q2 h2]
      split_ifs
      · rfl
      · simp only [f32.le, decide_eq_true_eq]
        exact m2
    · rw [← h2, round32_zero]
      simp only [f32.le, decide_eq_true_eq]
      exact le_refl _
  · have h2 : 0 < q2 := lt_of_lt_of_le h1 h
    have hm := round_mag_mono q1 q2 h1 h
    rw [round32_pos q1 h1, round32_pos q2 h2]
    split_ifs with g1 g2 g2
    · rfl
    · exact absurd (le_trans g1 hm) g2
    · rfl
    · simp only [f32.le, decide_eq_true_eq]
      exact hm

/-- A rounded result is never a NaN: it is at most `+inf`. -/
theorem round32_le_inf (q : ℚ) : (round32 q).le (f32.inf false) = true := by
  rcases lt_trichotomy q 0 with h | h | h
  · rw [round32_neg q h]
    split_ifs <;> rfl
  · rw [h, round32_zero]
    rfl
  · rw [round32_pos q h]
    split_ifs <;> rfl

/-- A rounded result is never a NaN: it is at least `-inf`. -/
theorem inf_le_round32 (q : ℚ) : (f32.inf true).le (round32 q) = true := by
  rcases lt_trichotomy q 0 with h | h | h
  · rw [round32_neg q h]
    split_ifs <;> rfl
  · rw [h, round32_zero]
    rfl
  · rw [round32_pos q h]
    split_ifs <;> rfl

/-- The exponent of the leading bit is determined by its two bounds. -/
theorem ilog2_unique (a : ℚ) (k : Int) (h1 : pow2 k ≤ a) (h2 : a < pow2 (k + 1)) :
    ilog2 a = k := by
  have ha : 0 < a := lt_of_lt_of_le (pow2_pos k) h1
  obtain ⟨s1, s2⟩ := ilog2_spec a ha
  by_contra hne
  rcases lt_or_gt_of_ne hne with hlt | hgt
  · have := pow2_mono (show ilog2 a + 1 ≤ k by omega)
    linarith
  · have := pow2_mono (show k + 1 ≤ ilog2 a by omega)
    linarith

/-- Doubling raises the exponent of the leading bit by one. -/
theorem ilog2_double (a : ℚ) (ha : 0 < a) : ilog2 (2 * a) = ilog2 a + 1 := by
  obtain ⟨s1, s2⟩ := ilog2_spec a ha
  have e1 : pow2 (ilog2 a + 1) = 2 * pow2 (ilog2 a) := by
    rw [pow2_add, pow2_eq_zpow 1]
    norm_num
    ring
  have e2 : pow2 (ilog2 a + 1 + 1) = 2 * pow2 (ilog2 a + 1) := by
    rw [pow2_add (ilog2 a + 1) 1, pow2_eq_zpow 1]
    norm_num
    ring
  exact ilog2_unique _ _ (by rw [e1]; linarith) (by rw [e2]; linarith)

/-- A magnitude that rounding leaves as it is stays so when doubled. -/
theorem round_mag_double (a : ℚ) (ha : 0 < a) (h : round_mag a = a) :
    round_mag (2 * a) = 2 * a := by
  unfold round_mag at h ⊢
  simp only at h ⊢
  rw [ilog2_double a ha]
  have hu := pow2_pos (max (ilog2 a) (-126) - 23)
  have hn : a / pow2 (max (ilog2 a) (-126) - 23)
      = (round_half_even (a / pow2 (max (ilog2 a) (-126) - 23)) : ℚ) := by
    rw [div_eq_iff (ne_of_gt hu)]
    exact h.symm
  rcases le_or_lt (-126) (ilog2 a) with hnorm | hsub
  · have hmax1 : max (ilog2 a) (-126) = ilog2 a := max_eq_left hnorm
    have hmax2 : max (ilog2 a + 1) (-126) = ilog2 a + 1 := max_eq_left (by omega)
    rw [hmax1] at hn hu
    have hulp : pow2 (ilog2 a + 1 - 23) = 2 * pow2 (ilog2 a - 23) := by
      rw [show ilog2 a + 1 - 23 = 1 + (ilog2 a - 23) by omega, pow2_add, pow2_eq_zpow 1]
      norm_num
    have hq : 2 * a / (2 * pow2 (ilog2 a - 23))
        = ((round_half_even (a / pow2 (ilog2 a - 23)) : Nat) : ℚ) := by
      rw [mul_div_mul_left _ _ (by norm_num : (2 : ℚ) ≠ 0)]
      exact hn
    rw [hmax2, hulp, hq, round_half_even_natCast, ← hn]
    field_simp
    ring
  · have hmax1 : max (ilog2 a) (-126) = -126 := max_eq_right (by omega)
    have hmax2 : max (ilog2 a + 1) (-126) = -126 := max_eq_right (by omega)
    rw [hmax1] at hn hu
    have hq : 2 * a / pow2 (-126 - 23)
        = ((2 * round_half_even (a / pow2 (-126 - 23)) : Nat) : ℚ) := by
      rw [Nat.cast_mul, Nat.cast_ofNat, ← hn]
      ring
    rw [hmax2, hq, round_half_even_natCast, Nat.cast_mul, Nat.cast_ofNat, ← hn]
    field_simp

/-- Rounding commutes with negation. -/
theorem round32_neg_eq (q : ℚ) : round32 (-q) = (round32 q).neg := by
  rcases lt_trichotomy q 0 with h | h | h
  · rw [round32_neg q h, round32_pos (-q) (by linarith)]
    split_ifs
    · rfl
    · simp only [f32.neg, neg_neg]
  · subst h
    rw [neg_zero, round32_zero]
    simp only [f32.neg, neg_zero]
  · rw [round32_pos q h, round32_neg (-q) (by linarith), neg_neg]
    split_ifs
    · rfl
    · rfl

/-- The negative of a binary32 value is a binary32 value. -/
theorem is_f32_neg (q : ℚ) (h : is_f32 q) : is_f32 (-q) := by
  unfold is_f32 at h ⊢
  rw [round32_neg_eq, h]
  rfl

/-- A positive binary32 value is a magnitude below `2 ^ 128` that rounding
leaves as it is, and conversely. -/
theorem is_f32_pos_iff (q : ℚ) (hq : 0 < q) :
    is_f32 q ↔ round_mag q = q ∧ ¬ pow2 128 ≤ round_mag q := by
  unfold is_f32
  rw [round32_pos q hq]
  constructor
  · intro h
    split_ifs at h with g
    exact ⟨f32.fin.inj h, g⟩
  · rintro ⟨h1, h2⟩
    rw [if_neg h2, h1]

/-- The double of a binary32 value is a binary32 value unless it overflows. -/
theorem is_f32_double (q : ℚ) (h : is_f32 q) (hb : |2 * q| < pow2 128) : is_f32 (2 * q) := by
  have hpos : ∀ p : ℚ, 0 < p → is_f32 p → 2 * p < pow2 128 → is_f32 (2 * p) := by
    intro p hp h1 h2
    obtain ⟨g1, _⟩ := (is_f32_pos_iff p hp).mp h1
    have g2 := round_mag_double p hp g1
    exact (is_f32_pos_iff (2 * p) (by linarith)).mpr ⟨g2, by rw [g2]; linarith⟩
  rcases lt_trichotomy q 0 with hq | hq | hq
  · have := hpos (-q) (by linarith) (is_f32_neg q h)
      (by rw [abs_of_neg (by linarith)] at hb; linarith)
    have := is_f32_neg _ this
    rw [show -(2 * -q) = 2 * q by ring] at this
    exact this
  · subst hq
    rw [mul_zero]
    exact h
  · exact hpos q hq h (by rw [abs_of_pos (by linarith)] at hb; exact hb)

/-! ### Midpoint and size of the zoomed viewport in single precision -/

set_option maxHeartbeats 4000000 in
/-- Claim C7 as stated fails in single precision: for the viewport
`V = (2^127 + 0i, 1.5 * 2^127 + i)`, whose midpoint `1.25 * 2^127 + 0.5i` is a
binary32 value, the sum of the real parts of the corners overflows to
infinity, and `zoom_and_re_center` with `zoom = 1` and `zoom_center` the
midpoint returns corners with real part `-inf`. -/
theorem zoom_f32_identity_overflows :
    (is_f32 (2 ^ 127) ∧ is_f32 (3 * 2 ^ 126) ∧ is_f32 (5 * 2 ^ 125) ∧
      ((2 ^ 127 : ℚ) + 3 * 2 ^ 126) / 2 = 5 * 2 ^ 125 ∧ ((0 : ℚ) + 1) / 2 = 1 / 2) ∧
    zoom_and_re_center_f32 ⟨f32.fin (2 ^ 127), f32.fin 0⟩ ⟨f32.fin (3 * 2 ^ 126), f32.fin 1⟩
        (f32.fin 1) ⟨f32.fin (5 * 2 ^ 125), f32.fin (1 / 2)⟩
      = (⟨f32.inf true, f32.fin 0⟩, ⟨f32.inf true, f32.fin 1⟩) ∧
    (f32.fin (2 ^ 127)).add (f32.fin (3 * 2 ^ 126)) = f32.inf false :=
  ⟨⟨by decide!, by decide!, by decide!, by decide!, by decide!⟩, by decide!, by decide!⟩

/-- Claim C7, amended. For every viewport `V` of binary32 corners whose
midpoint `(lower_left + upper_right) / 2` is a binary32 value and whose sum
`lower_left + upper_right` does not overflow in single precision (it is below
`2 ^ 128` in magnitude on both axes), `zoom_and_re_center` applied to `V` with
`zoom = 1` and `zoom_center` equal to `V`'s own midpoint returns a viewport
whose two corners equal `V`'s. -/
theorem zoom_f32_identity (lower_left upper_right : complex_t) (zooming : FractalZooming)
    (hzoom : zooming.zoom = 1)
    (hcenter : zooming.zoom_center
      = ⟨(lower_left.real + upper_right.real) / 2, (lower_left.imag + upper_right.imag) / 2⟩)
    (hll : is_f32 lower_left.real ∧ is_f32 lower_left.imag)
    (hur : is_f32 upper_right.real ∧ is_f32 upper_right.imag)
    (hzc : is_f32 zooming.zoom_center.real ∧ is_f32 zooming.zoom_center.imag)
    (hsum : |lower_left.real + upper_right.real| < pow2 128 ∧
      |lower_left.imag + upper_right.imag| < pow2 128) :
    zoom_and_re_center_f32 lower_left.to_f32 upper_right.to_f32 (f32.fin zooming.zoom)
        zooming.zoom_center.to_f32
      = (lower_left.to_f32, upper_right.to_f32) := by
  have haxis : ∀ a b c : ℚ, is_f32 a → is_f32 b → is_f32 c → |a + b| < pow2 128 →
      c = (a + b) / 2 → ∀ q ∈ zoom_axis_results a b 1 c, is_f32 q := by
    intro a b c ha hb hc hab hmid q hq
    have hzero : is_f32 0 := rfl
    have hdouble : a + b = 2 * c := by rw [hmid]; ring
    have hsum : is_f32 (a + b) := by
      rw [hdouble]
      exact is_f32_double c hc (by rw [← hdouble]; exact hab)
    have e1 : a * 1 = a := mul_one a
    have e2 : b * 1 = b := mul_one b
    simp only [zoom_axis_results, e1, e2, ← hmid, sub_self, add_zero, List.mem_cons,
      List.mem_singleton, List.not_mem_nil, or_false] at hq
    rcases hq with h | h | h | h | h | h | h <;> rw [h] <;> assumption
  have hexact : zoom_no_rounding lower_left upper_right zooming := by
    constructor
    · rw [hzoom]
      exact haxis _ _ _ hll.1 hur.1 hzc.1 hsum.1 (by rw [hcenter])
    · rw [hzoom]
      exact haxis _ _ _ hll.2 hur.2 hzc.2 hsum.2 (by rw [hcenter])
  rw [zoom_and_re_center_f32_exact lower_left upper_right zooming hexact,
    zoom_and_re_center_identity lower_left upper_right zooming hzoom hcenter]

set_option maxHeartbeats 4000000 in
/-- Witness of `zoom_f32_identity` at the viewport `(-2 - 1.5i, 1 + 1.5i)`,
whose midpoint is `-0.5 + 0i`. -/
theorem zoom_f32_identity_witness :
    zoom_and_re_center_f32 (complex_t.to_f32 ⟨-2, -3 / 2⟩) (complex_t.to_f32 ⟨1, 3 / 2⟩)
        (f32.fin 1) (complex_t.to_f32 ⟨((-2 : ℚ) + 1) / 2, ((-3 / 2 : ℚ) + 3 / 2) / 2⟩)
      = (complex_t.to_f32 ⟨-2, -3 / 2⟩, complex_t.to_f32 ⟨1, 3 / 2⟩) :=
  zoom_f32_identity ⟨-2, -3 / 2⟩ ⟨1, 3 / 2⟩
    ⟨⟨-2, -3 / 2⟩, ⟨1, 3 / 2⟩, 1, 1,
      ⟨((-2 : ℚ) + 1) / 2, ((-3 / 2 : ℚ) + 3 / 2) / 2⟩, SaveImage.No, []⟩ rfl rfl
    ⟨by decide!, by decide!⟩ ⟨by decide!, by decide!⟩ ⟨by decide!, by decide!⟩
    ⟨by decide!, by decide!⟩

/-! ### Corner ordering in single precision -/

/-- Multiplication by a positive finite factor is monotone. -/
theorem f32_mul_mono (x y : f32) (z : ℚ) (hz : 0 < z) (h : x.le y = true) :
    (x.mul (f32.fin z)).le (y.mul (f32.fin z)) = true := by
  have hz0 : z ≠ 0 := ne_of_gt hz
  have hzn : ¬ z < 0 := not_lt.mpr (le_of_lt hz)
  cases x with
  | fin a =>
    cases y with
    | fin b =>
      simp only [f32.le, decide_eq_true_eq] at h
      exact round32_mono _ _ (mul_le_mul_of_nonneg_right h (le_of_lt hz))
    | inf s =>
      simp only [f32.le, Bool.not_eq_true'] at h
      subst h
      simp only [f32.mul, if_neg hz0, hzn, decide_False, Bool.xor_false]
      exact round32_le_inf _
    | nan => exact absurd h (by simp [f32.le])
  | inf s =>
    cases y with
    | fin b =>
      simp only [f32.le] at h
      subst h
      simp only [f32.mul, if_neg hz0, hzn, decide_False, Bool.xor_false]
      exact inf_le_round32 _
    | inf t =>
      simp only [f32.mul, if_neg hz0, hzn, decide_False, Bool.xor_false]
      exact h
    | nan => exact absurd h (by simp [f32.le])
  | nan => exact absurd h (by simp [f32.le])

/-- Addition of a common term is monotone wherever it gives no NaN. -/
theorem f32_add_mono (x y t : f32) (h : x.le y = true) :
    x.add t = f32.nan ∨ y.add t = f32.nan ∨ ((x.add t).le (y.add t) = true) := by
  cases t with
  | nan => exact Or.inl (by cases x <;> rfl)
  | fin c =>
    refine Or.inr (Or.inr ?_)
    cases x with
    | fin a =>
      cases y with
      | fin b =>
        simp only [f32.le, decide_eq_true_eq] at h
        exact round32_mono _ _ (by linarith)
      | inf s =>
        simp only [f32.le, Bool.not_eq_true'] at h
        subst h
        exact round32_le_inf _
      | nan => exact absurd h (by simp [f32.le])
    | inf s =>
      cases y with
      | fin b =>
        simp only [f32.le] at h
        subst h
        exact inf_le_round32 _
      | inf t => exact h
      | nan => exact absurd h (by simp [f32.le])
    | nan => exact absurd h (by simp [f32.le])
  | inf u =>
    cases x with
    | fin a =>
      cases y with
      | fin b =>
        refine Or.inr (Or.inr ?_)
        cases u <;> rfl
      | inf s =>
        simp only [f32.le, Bool.not_eq_true'] at h
        subst h
        cases u
        · exact Or.inr (Or.inr rfl)
        · exact Or.inr (Or.inl rfl)
      | nan => exact absurd h (by simp [f32.le])
    | inf s =>
      cases y with
      | fin b =>
        simp only [f32.le] at h
        subst h
        cases u
        · exact Or.inl rfl
        · exact Or.inr (Or.inr rfl)
      | inf t =>
        cases s <;> cases t <;> cases u <;> first
          | exact Or.inl rfl
          | exact Or.inr (Or.inl rfl)
          | exact Or.inr (Or.inr rfl)
      | nan => exact absurd h (by simp [f32.le])
    | nan => exact absurd h (by simp [f32.le])

/-- One axis of the zoom transform in single precision keeps
`lower_left <= upper_right`, or gives a NaN. -/
theorem zoom_axis_f32_le (lo hi zc : f32) (z : ℚ) (hz : 0 < z)
    (h : lo = f32.nan ∨ hi = f32.nan ∨ lo.le hi = true) :
    (lo.mul (f32.fin z)).add
        (zc.sub (((lo.mul (f32.fin z)).add (hi.mul (f32.fin z))).div (f32.fin 2))) = f32.nan ∨
    (hi.mul (f32.fin z)).add
        (zc.sub (((lo.mul (f32.fin z)).add (hi.mul (f32.fin z))).div (f32.fin 2))) = f32.nan ∨
    ((lo.mul (f32.fin z)).add
        (zc.sub (((lo.mul (f32.fin z)).add (hi.mul (f32.fin z))).div (f32.fin 2)))).le
      ((hi.mul (f32.fin z)).add
        (zc.sub (((lo.mul (f32.fin z)).add (hi.mul (f32.fin z))).div (f32.fin 2)))) = true := by
  rcases h with h | h | h
  · subst h
    exact Or.inl rfl
  · subst h
    refine Or.inl ?_
    have e1 : ∀ x : f32, x.add f32.nan = f32.nan := fun x => by cases x <;> rfl
    have e2 : f32.nan.div (f32.fin 2) = f32.nan := rfl
    have e3 : zc.sub f32.nan = f32.nan := by
      unfold f32.sub
      exact e1 zc
    have e4 : f32.nan.mul (f32.fin z) = f32.nan := rfl
    rw [e4, e1, e2, e3, e1]
  · exact f32_add_mono _ _ _ (f32_mul_mono lo hi z hz h)
/-- The comparison `<` of two `float`s gives `<=`. -/
theorem f32_le_of_lt (x y : f32) (h : x.lt y = true) : x.le y = true := by
  cases x with
  | fin a =>
    cases y with
    | fin b =>
      simp only [f32.lt, decide_eq_true_eq] at h
      simp only [f32.le, decide_eq_true_eq]
      exact le_of_lt h
    | inf s => exact h
    | nan => exact h
  | inf s =>
    cases y with
    | fin b => exact h
    | inf t =>
      cases s <;> cases t <;> first | rfl | exact h
    | nan => exact h
  | nan => exact h

/-- The in-place transform in single precision keeps, on each axis,
`lower_left <= upper_right` or a NaN. -/
theorem zoom_inplace_f32_le (v : complex_f32 × complex_f32) (z : ℚ)
    (zoom_center : complex_f32) (hz : 0 < z)
    (h : (v.1.real = f32.nan ∨ v.2.real = f32.nan ∨ v.1.real.le v.2.real = true) ∧
      (v.1.imag = f32.nan ∨ v.2.imag = f32.nan ∨ v.1.imag.le v.2.imag = true)) :
    ((zoom_and_re_center_inplace_f32 v (f32.fin z) zoom_center).1.real = f32.nan ∨
      (zoom_and_re_center_inplace_f32 v (f32.fin z) zoom_center).2.real = f32.nan ∨
      (zoom_and_re_center_inplace_f32 v (f32.fin z) zoom_center).1.real.le
        (zoom_and_re_center_inplace_f32 v (f32.fin z) zoom_center).2.real = true) ∧
    ((zoom_and_re_center_inplace_f32 v (f32.fin z) zoom_center).1.imag = f32.nan ∨
      (zoom_and_re_center_inplace_f32 v (f32.fin z) zoom_center).2.imag = f32.nan ∨
      (zoom_and_re_center_inplace_f32 v (f32.fin z) zoom_center).1.imag.le
        (zoom_and_re_center_inplace_f32 v (f32.fin z) zoom_center).2.imag = true) :=
  ⟨zoom_axis_f32_le v.1.real v.2.real zoom_center.real z hz h.1,
    zoom_axis_f32_le v.1.imag v.2.imag zoom_center.imag z hz h.2⟩

/-- Every viewport of a run in single precision has, on each axis,
`lower_left <= upper_right` or a NaN. -/
theorem zoom_inplace_iter_f32_le (v : complex_f32 × complex_f32) (z : ℚ)
    (zoom_center : complex_f32) (hz : 0 < z)
    (h : (v.1.real = f32.nan ∨ v.2.real = f32.nan ∨ v.1.real.le v.2.real = true) ∧
      (v.1.imag = f32.nan ∨ v.2.imag = f32.nan ∨ v.1.imag.le v.2.imag = true)) :
    ∀ k : Nat,
      ((zoom_inplace_iter_f32 (f32.fin z) zoom_center k v).1.real = f32.nan ∨
        (zoom_inplace_iter_f32 (f32.fin z) zoom_center k v).2.real = f32.nan ∨
        (zoom_inplace_iter_f32 (f32.fin z) zoom_center k v).1.real.le
          (zoom_inplace_iter_f32 (f32.fin z) zoom_center k v).2.real = true) ∧
      ((zoom_inplace_iter_f32 (f32.fin z) zoom_center k v).1.imag = f32.nan ∨
        (zoom_inplace_iter_f32 (f32.fin z) zoom_center k v).2.imag = f32.nan ∨
        (zoom_inplace_iter_f32 (f32.fin z) zoom_center k v).1.imag.le
          (zoom_inplace_iter_f32 (f32.fin z) zoom_center k v).2.imag = true) := by
  intro k
  induction k with
  | zero => exact h
  | succ k ih => exact zoom_inplace_f32_le _ z zoom_center hz ih

/-- A viewport without a NaN that has, on each axis, `lower_left <=
upper_right` or a NaN is ordered. -/
theorem ordered_le_f32_of_no_nan (v : complex_f32 × complex_f32)
    (h : (v.1.real = f32.nan ∨ v.2.real = f32.nan ∨ v.1.real.le v.2.real = true) ∧
      (v.1.imag = f32.nan ∨ v.2.imag = f32.nan ∨ v.1.imag.le v.2.imag = true))
    (hnan : ¬ has_nan v) : ordered_le_f32 v := by
  unfold has_nan at hnan
  obtain ⟨h1, h2⟩ := h
  constructor
  · rcases h1 with g | g | g
    · exact absurd (Or.inl g) hnan
    · exact absurd (Or.inr (Or.inr (Or.inl g))) hnan
    · exact g
  · rcases h2 with g | g | g
    · exact absurd (Or.inr (Or.inl g)) hnan
    · exact absurd (Or.inr (Or.inr (Or.inr g))) hnan
    · exact g

set_option maxHeartbeats 4000000 in
/-- Claim C8 as stated fails in single precision. The viewport
`(0 + 0i, 2^-30 + 2^-30 i)` has `lower_left < upper_right` on both axes; with
zoom factor `0.5` and zoom centre `1 + i` both `zoom_and_re_center` and
`zoom_and_re_center_inplace` return the viewport `(1 + i, 1 + i)`, whose
corners coincide. From the start viewport and zoom centre of `main.cpp`, which
is ordered, with zoom factor `0.5` the viewport after 28 steps is not ordered.
With zoom factor `2` and zoom centre `0` the ordered viewport
`(2^127 + 0i, 1.5 * 2^127 + i)` yields corners whose real parts are NaN. -/
theorem zoom_f32_ordering_lost :
    (ordered_f32 (⟨f32.fin 0, f32.fin 0⟩, ⟨f32.fin (1 / 2 ^ 30), f32.fin (1 / 2 ^ 30)⟩) ∧
      is_f32 (1 / 2 ^ 30) ∧ (0 : ℚ) < 1 / 2 ∧
      zoom_and_re_center_f32 ⟨f32.fin 0, f32.fin 0⟩
          ⟨f32.fin (1 / 2 ^ 30), f32.fin (1 / 2 ^ 30)⟩ (f32.fin (1 / 2)) ⟨f32.fin 1, f32.fin 1⟩
        = (⟨f32.fin 1, f32.fin 1⟩, ⟨f32.fin 1, f32.fin 1⟩) ∧
      zoom_and_re_center_inplace_f32
          (⟨f32.fin 0, f32.fin 0⟩, ⟨f32.fin (1 / 2 ^ 30), f32.fin (1 / 2 ^ 30)⟩)
          (f32.fin (1 / 2)) ⟨f32.fin 1, f32.fin 1⟩
        = (⟨f32.fin 1, f32.fin 1⟩, ⟨f32.fin 1, f32.fin 1⟩) ∧
      ¬ ordered_f32 (⟨f32.fin 1, f32.fin 1⟩, ⟨f32.fin 1, f32.fin 1⟩)) ∧
    (ordered_f32 (main_lower_left, main_upper_right) ∧
      ¬ ordered_f32 (zoom_inplace_iter_f32 (float_literal (1 / 2)) main_zoom_center 28
        (main_lower_left, main_upper_right))) ∧
    (ordered_f32 (⟨f32.fin (2 ^ 127), f32.fin 0⟩, ⟨f32.fin (3 * 2 ^ 126), f32.fin 1⟩) ∧
      zoom_and_re_center_f32 ⟨f32.fin (2 ^ 127), f32.fin 0⟩ ⟨f32.fin (3 * 2 ^ 126), f32.fin 1⟩
          (f32.fin 2) ⟨f32.fin 0, f32.fin 0⟩
        = (⟨f32.nan, f32.fin (-1)⟩, ⟨f32.nan, f32.fin 1⟩)) :=
  ⟨⟨by decide!, by decide!, by decide!, by decide!, by decide!, by decide!⟩,
    ⟨by decide!, by decide!⟩, ⟨by decide!, by decide!⟩⟩

/-- Claim C8, amended. In single precision, for every viewport with
`lower_left.real <= upper_right.real` and `lower_left.imag <= upper_right.imag`
(in particular with `<`), every zoom centre and every finite zoom factor
`> 0`, the viewport produced by `zoom_and_re_center`, the one produced by
`zoom_and_re_center_inplace` and every viewport reached after any number of
steps, unless one of its coordinates is a NaN, again satisfies
`lower_left.real <= upper_right.real` and `lower_left.imag <=
upper_right.imag`. Rounding can make the corners coincide, so `<` is not
kept. -/
theorem zoom_f32_keeps_ordering (lower_left upper_right : complex_f32) (zoom : ℚ)
    (zoom_center : complex_f32)
    (hreal : lower_left.real.le upper_right.real = true)
    (himag : lower_left.imag.le upper_right.imag = true) (hzoom : 0 < zoom) :
    (¬ has_nan (zoom_and_re_center_f32 lower_left upper_right (f32.fin zoom) zoom_center) →
      ordered_le_f32
        (zoom_and_re_center_f32 lower_left upper_right (f32.fin zoom) zoom_center)) ∧
    (¬ has_nan (zoom_and_re_center_inplace_f32 (lower_left, upper_right) (f32.fin zoom)
        zoom_center) →
      ordered_le_f32 (zoom_and_re_center_inplace_f32 (lower_left, upper_right)
        (f32.fin zoom) zoom_center)) ∧
    ∀ k : Nat,
      ¬ has_nan (zoom_inplace_iter_f32 (f32.fin zoom) zoom_center k
          (lower_left, upper_right)) →
        ordered_le_f32 (zoom_inplace_iter_f32 (f32.fin zoom) zoom_center k
          (lower_left, upper_right)) := by
  have h0 : ((lower_left, upper_right).1.real = f32.nan ∨
        (lower_left, upper_right).2.real = f32.nan ∨
        (lower_left, upper_right).1.real.le (lower_left, upper_right).2.real = true) ∧
      ((lower_left, upper_right).1.imag = f32.nan ∨
        (lower_left, upper_right).2.imag = f32.nan ∨
        (lower_left, upper_right).1.imag.le (lower_left, upper_right).2.imag = true) :=
    ⟨Or.inr (Or.inr hreal), Or.inr (Or.inr himag)⟩
  have h1 := zoom_inplace_f32_le (lower_left, upper_right) zoom zoom_center hzoom h0
  refine ⟨?_, ordered_le_f32_of_no_nan _ h1, fun k =>
    ordered_le_f32_of_no_nan _
      (zoom_inplace_iter_f32_le (lower_left, upper_right) zoom zoom_center hzoom h0 k)⟩
  rw [zoom_and_re_center_f32_eq_inplace]
  exact ordered_le_f32_of_no_nan _ h1

set_option maxHeartbeats 4000000 in
/-- Witness of `zoom_f32_keeps_ordering` at the viewport
`(0 + 0i, 2^-30 + 2^-30 i)` with zoom factor `0.5` towards `1 + i`, where the
corners of the result coincide. -/
theorem zoom_f32_keeps_ordering_witness :
    ((f32.fin 0).le (f32.fin (1 / 2 ^ 30)) = true ∧ (0 : ℚ) < 1 / 2) ∧
    ordered_le_f32 (zoom_and_re_center_f32 ⟨f32.fin 0, f32.fin 0⟩
      ⟨f32.fin (1 / 2 ^ 30), f32.fin (1 / 2 ^ 30)⟩ (f32.fin (1 / 2))
      ⟨f32.fin 1, f32.fin 1⟩) :=
  ⟨⟨by decide!, by decide!⟩,
    (zoom_f32_keeps_ordering ⟨f32.fin 0, f32.fin 0⟩
      ⟨f32.fin (1 / 2 ^ 30), f32.fin (1 / 2 ^ 30)⟩ (1 / 2) ⟨f32.fin 1, f32.fin 1⟩
      (by decide!) (by decide!) (by decide!)).1 (by decide!)⟩

end FractalZoom
